import Mathlib

/-!
# libbeat/logp: the size-triggered log file rotator

A shallow embedding of `libbeat/logp/file_rotator.go` and proofs about it.

The Go code works on a file system through `os`, `path/filepath`, `bufio`,
`archive/zip`, `sort` and `time`.  The model makes that environment explicit:

* `Disk` is the file system: a table from path to node (directory or regular
  file), the byte content of every regular file by inode number, and the next
  unused inode number.  An open `*os.File` is the inode it was opened on, so a
  file that is unlinked while open keeps its content, as on POSIX systems.
  There are no symbolic or hard links, and nothing but the rotator changes the
  file system during a call.
* `Env` holds everything a run cannot decide by itself: the clock, the image
  the zip library gives to an archive, which system call fails, and how many
  bytes a `Read` returns.
* `World` is the rotator, the disk, and a trace of what happened (`Event`).

A method returns an `Outcome` and the world it leaves.  The retention loop of
`Rotate` has no bound in the source; the model runs it for a given number of
rounds (`budget`) and reports `Outcome.hang` when they are used up, so that
"the loop ends" is a statement about every large enough budget and "the loop
never ends" one about every budget.

What the model takes from the libraries:

* Paths are in cleaned form: `Path` names a directory without a trailing
  separator and `Name` is a plain file name, so that `filepath.Join` is the two
  joined by one separator (`joinPath`).  `filepath.Clean` and `filepath.Join`
  are modelled as well (`filepathClean`, `filepathJoin`); `CleanedDir` and
  `PlainName` say what the cleaned form is, and the statements about the
  paths themselves carry them as hypotheses.
* Go compares and sorts strings by byte; the model compares by Unicode code
  point, which is the same order on UTF-8 text.
* `filepath.Walk` calls its function on the root and on every file and
  directory below it, at any depth.
* `os.Create` truncates an existing file and keeps its inode.  `os.Remove`
  fails on a directory that is not empty.
* A `Read` from a file delivers at least one byte, or reports EOF and delivers
  none.
* A `Write` into a zip entry that fails makes `zipWriter.Close` fail.  A failed
  write to the active file writes nothing.  An archive that is not completed
  is left empty.
* `os.Stat` walks down the directories above a path: a missing one gives an
  error for which `os.IsNotExist` is true, a regular file in the place of one
  gives an error for which it is false.  `os.MkdirAll` makes the missing
  directories from the outermost on and keeps what it made when it fails.
  The root and the working directory always exist.
-/

namespace Logp

/-! ## Constants and data -/

/-- A byte of file content (0..255); the code never computes with byte values. -/
abbrev Byte := Nat

/-- The constant `RotatorMaxFiles`. -/
def RotatorMaxFiles : Int := 1024

/-- The constant `DefaultKeepFiles`. -/
def DefaultKeepFiles : Int := 7

/-- The constant `DefaultRotateEveryBytes`. -/
def DefaultRotateEveryBytes : Nat := 10 * 1024 * 1024

/-- The range of a Go `uint64`: `current_size` wraps at this value. -/
def uint64Size : Nat := 2 ^ 64

/-- An `*os.File`: the inode it refers to and whether `Close` was called on it. -/
structure File where
  ino : Nat
  closed : Bool
deriving DecidableEq, Repr

/-- The struct `FileRotator`.  A nil pointer field is `none`. -/
structure FileRotator where
  Path : String
  Name : String
  RotateEveryBytes : Option Nat
  KeepFiles : Option Int
  current : Option File
  current_size : Nat
deriving DecidableEq, Repr

/-- The errors the rotator returns, named by the call that produced them. -/
inductive Err
  | noName
  | keepFilesRange
  | notADirectory
  | mkdir
  | close
  | create
  | zipCreate
  | read
  | zipClose
  | write
deriving DecidableEq, Repr

/-- How a call ends: it returns nil, returns an error, stops with a run-time
panic (nil dereference, index out of range), or is still looping when the
step budget given to the model is used up. -/
inductive Outcome
  | ok
  | error (e : Err)
  | crash
  | hang
deriving DecidableEq, Repr

/-! ## The file system -/

/-- A node of the file tree: a directory, or a regular file with its inode. -/
inductive Node
  | dir
  | file (ino : Nat)
deriving DecidableEq, Repr

/-- The file system. -/
structure Disk where
  tree : List (String × Node)
  data : Nat → List Byte
  next : Nat

/-- What the trace records. -/
inductive Event
  /-- The method `Rotate` was entered. -/
  | rotate
  /-- The call `zipWriter.Close` returned nil: the archive at `path` is complete and
  holds these entries (name and uncompressed bytes). -/
  | archived (path : String) (entries : List (String × List Byte))
  /-- The call `os.Remove(path)` was made and did or did not succeed. -/
  | remove (path : String) (ok : Bool)
deriving DecidableEq, Repr

/-- Everything outside the program's control during one call. -/
structure Env where
  /-- The reading of `time.Now().UnixNano()`. -/
  nowNanos : Int
  /-- The bytes `archive/zip` stores for an archive with the given entries. -/
  zipImage : List (String × List Byte) → List Byte
  /-- Whether `rotator.current.Close()` returns an error. -/
  closeFails : Bool
  /-- Whether `os.Create` of this path returns an error for a reason outside the model. -/
  createFails : String → Bool
  /-- Whether `zipWriter.Create` returns an error. -/
  zipCreateFails : Bool
  /-- Whether `os.Open` of the active file returns an error for a reason outside the model. -/
  openFails : Bool
  /-- The k-th `Read` of the copy loop returns an error other than EOF. -/
  readFails : Nat → Bool
  /-- The k-th `Read` returns at most this many bytes when the value is not 0. -/
  readShort : Nat → Nat
  /-- The k-th `Write` into the archive entry returns an error. -/
  entryWriteFails : Nat → Bool
  /-- Whether `zipWriter.Close` returns an error of its own. -/
  zipCloseFails : Bool
  /-- The k-th `os.Remove` of the sweep, on this path, returns an error for a
  reason outside the model. -/
  removeFails : Nat → String → Bool
  /-- Whether `rotator.current.Write` returns an error. -/
  writeFails : Bool

/-- The rotator together with the file system it works on and the trace. -/
structure World where
  rot : FileRotator
  disk : Disk
  log : List Event

/-! ## Strings and paths -/

/-- The function `strings.HasSuffix`. -/
def hasSuffix (s suffix : String) : Bool :=
  suffix.data.isSuffixOf s.data

/-- The function `filepath.Join` on a cleaned directory path and a plain file
name: the two joined by one separator.  The library function itself, which
cleans its result, is `filepathJoin`; the two agree on such arguments
(`filepathJoin_cleaned`), and a statement that names a path as the library
gives it takes that form of the arguments as a hypothesis. -/
def joinPath (dir name : String) : String :=
  dir ++ "/" ++ name

/-- The directory part of a path: what stands before its last separator
(`filepath.Dir` on a cleaned path). -/
def parentOf (p : String) : String :=
  let front := ((p.data.reverse.dropWhile (fun c => c != '/')).drop 1).reverse
  if front.isEmpty then (if p.data.head? = some '/' then "/" else ".") else String.mk front

/-- Whether path `p` lies below directory `root` in the tree. -/
def isBelow (root p : String) : Bool :=
  (root ++ "/").data.isPrefixOf p.data

/-- Byte-wise comparison of Go strings, on the code points. -/
def codesLE : List Nat → List Nat → Bool
  | [], _ => true
  | _ :: _, [] => false
  | a :: s, b :: t => decide (a < b) || (a == b && codesLE s t)

/-- The order `sort.Strings` sorts by. -/
def strLE (a b : String) : Prop :=
  codesLE (a.data.map Char.toNat) (b.data.map Char.toNat) = true

instance : DecidableRel strLE := fun a b =>
  inferInstanceAs (Decidable (codesLE (a.data.map Char.toNat) (b.data.map Char.toNat) = true))

/-- The function `sort.Strings`: the list in increasing order. -/
def sortStrings (l : List String) : List String :=
  l.insertionSort strLE

/-! ## System calls -/

namespace Disk

/-- The node at a path (`os.Lstat`). -/
def lookup (d : Disk) (p : String) : Option Node :=
  d.tree.lookup p

/-- Whether a directory has an entry below it. -/
def hasChild (d : Disk) (p : String) : Bool :=
  d.tree.any (fun e => isBelow p e.1)

/-- The call `os.Create`: fails on a directory and when the parent is not a directory;
truncates an existing file, keeping its inode; else links a new empty file. -/
def create (env : Env) (d : Disk) (p : String) : Option (File × Disk) :=
  if env.createFails p then none
  else
    match d.lookup p with
    | some Node.dir => none
    | some (Node.file i) =>
        some (⟨i, false⟩, { d with data := Function.update d.data i [] })
    | none =>
        if d.lookup (parentOf p) = some Node.dir then
          some (⟨d.next, false⟩,
            { tree := d.tree ++ [(p, Node.file d.next)]
              data := Function.update d.data d.next []
              next := d.next + 1 })
        else none

/-- The call `os.Open` followed by reading: the bytes the reader will deliver, or
`none` when every `Read` fails (the path is missing, so the file is nil, or
it is a directory). -/
def openRead (env : Env) (d : Disk) (p : String) : Option (List Byte) :=
  if env.openFails then none
  else
    match d.lookup p with
    | some (Node.file i) => some (d.data i)
    | _ => none

/-- The call `os.Remove`: unlinks a file or an empty directory.  Fails when the path is
missing and on a directory that is not empty. -/
def remove (env : Env) (k : Nat) (d : Disk) (p : String) : Bool × Disk :=
  if env.removeFails k p then (false, d)
  else
    match d.lookup p with
    | none => (false, d)
    | some (Node.file _) => (true, { d with tree := d.tree.filter (fun e => e.1 != p) })
    | some Node.dir =>
        if d.hasChild p then (false, d)
        else (true, { d with tree := d.tree.filter (fun e => e.1 != p) })

/-- The paths `filepath.Walk(root, fn)` hands to `fn`: the root itself, even
when it does not exist, and every entry below it, at any depth, directories
included.  (In a file tree entries lie below a path only when it is a
directory.) -/
def walk (d : Disk) (root : String) : List String :=
  root :: (d.tree.map Prod.fst).filter (isBelow root)

/-- Appending to the file behind an inode (`(*os.File).Write`). -/
def append (d : Disk) (i : Nat) (bytes : List Byte) : Disk :=
  { d with data := Function.update d.data i (d.data i ++ bytes) }

end Disk

/-! ## The rotator -/

/-- The method `CheckIfConfigSane`: the error it returns, if any, and the
rotator as it leaves it. -/
def CheckIfConfigSane (r : FileRotator) : Option Err × FileRotator :=
  if r.Name.length = 0 then (some Err.noName, r)
  else
    let r1 : FileRotator :=
      match r.KeepFiles with
      | none => { r with KeepFiles := some DefaultKeepFiles }
      | some _ => r
    let r2 : FileRotator :=
      match r1.RotateEveryBytes with
      | none => { r1 with RotateEveryBytes := some DefaultRotateEveryBytes }
      | some _ => r1
    match r2.KeepFiles with
    | none => (none, r2)
    | some keep =>
        if keep < 2 ∨ keep ≥ RotatorMaxFiles then (some Err.keepFilesRange, r2)
        else (none, r2)

/-- The method `shouldRotate`; `none` is the nil dereference of
`RotateEveryBytes`. -/
def shouldRotate (r : FileRotator) : Option Bool :=
  match r.current with
  | none => some true
  | some _ =>
      match r.RotateEveryBytes with
      | none => none
      | some threshold => if r.current_size ≥ threshold then some true else some false

/-- The method `FilePath`. -/
def FilePath (r : FileRotator) (file_no : Int) : String :=
  if file_no = 0 then joinPath r.Path r.Name
  else joinPath r.Path (r.Name ++ "." ++ (toString file_no ++ ".zip"))

/-- The archive name `Rotate` builds from the clock: the nanoseconds divided
by `time.Millisecond` as Go divides integers (towards zero), in decimal. -/
def zipFilePath (env : Env) (r : FileRotator) : String :=
  let timestamp := toString (Int.tdiv env.nowNanos 1000000)
  let file_name := r.Name ++ "-" ++ timestamp ++ ".zip"
  joinPath r.Path file_name

/-- The writer `zipWriter.Create` returns: the bytes the entry has received
and whether a `Write` has failed.  A failed write makes the compressor fail
every later call, `zipWriter.Close` included. -/
structure EntryWriter where
  bytes : List Byte
  failed : Bool
deriving DecidableEq, Repr

/-- The k-th `iow.Write(chunk)`. -/
def EntryWriter.write (env : Env) (k : Nat) (z : EntryWriter) (chunk : List Byte) : EntryWriter :=
  if z.failed || env.entryWriteFails k then { z with failed := true }
  else { z with bytes := z.bytes ++ chunk }

/-- The local constant `blockSize` of `Rotate`: 512 KiB. -/
def blockSize : Nat := 512 * 1024

/-- The number of bytes the k-th `Read` delivers into a buffer of `size` bytes
when `remaining` bytes are left: all that fit the buffer, or fewer when the
read is short, and at least one. -/
def readLen (env : Env) (size k remaining : Nat) : Nat :=
  let full := min size remaining
  if env.readShort k = 0 ∨ env.readShort k ≥ full then full else env.readShort k

/-- The copy loop of `Rotate`.  `bytes` is the buffer, reused by every read;
`rest` is what the reader has not delivered yet; `budget` bounds the number of
reads, and the length of the file plus one is always enough. -/
def copyLoop (env : Env) :
    (budget k : Nat) → (bytes rest : List Byte) → EntryWriter → Outcome × EntryWriter
  | 0, _, _, _, iow => (Outcome.hang, iow)
  | budget + 1, k, bytes, rest, iow =>
      if env.readFails k then (Outcome.error Err.read, iow)
      else if rest.isEmpty then (Outcome.ok, iow)
      else
        let readedBytes := readLen env blockSize k rest.length
        let bytes := rest.take readedBytes ++ bytes.drop readedBytes
        if readedBytes ≥ blockSize then
          copyLoop env budget (k + 1) bytes (rest.drop readedBytes) (iow.write env k bytes)
        else
          copyLoop env budget (k + 1) bytes (rest.drop readedBytes)
            (iow.write env k (bytes.take readedBytes))

/-- The retention loop that ends `Rotate`.  `budget` bounds the number of
rounds; `k` counts the calls of `os.Remove`. -/
def sweep (env : Env) : (budget k : Nat) → World → Outcome × World
  | 0, _, w => (Outcome.hang, w)
  | budget + 1, k, w =>
      let filePathList := (w.disk.walk w.rot.Path).filter (fun path => hasSuffix path ".zip")
      match w.rot.KeepFiles with
      | none => (Outcome.crash, w)
      | some keep =>
          if (filePathList.length : Int) < keep then (Outcome.ok, w)
          else
            match sortStrings filePathList with
            | [] => (Outcome.crash, w)
            | first :: _ =>
                let removed := w.disk.remove env k first
                sweep env budget (k + 1)
                  { w with disk := removed.2, log := w.log ++ [Event.remove first removed.1] }

/-- The method `Rotate`.  `budget` bounds the rounds of the retention loop. -/
def Rotate (budget : Nat) (env : Env) (w0 : World) : Outcome × World :=
  let w : World := { w0 with log := w0.log ++ [Event.rotate] }
  match w.rot.current with
  | none =>
      match w.disk.create env (FilePath w.rot 0) with
      | none => (Outcome.error Err.create, w)
      | some (current, disk) =>
          (Outcome.ok,
            { w with disk := disk, rot := { w.rot with current := some current, current_size := 0 } })
  | some old =>
      let w : World := { w with rot := { w.rot with current := some { old with closed := true } } }
      if old.closed || env.closeFails then (Outcome.error Err.close, w)
      else
        let zip_file_path := zipFilePath env w.rot
        match w.disk.create env zip_file_path with
        | none => (Outcome.error Err.create, w)
        | some (zipFile, disk) =>
            let w : World := { w with disk := disk }
            if env.zipCreateFails then (Outcome.error Err.zipCreate, w)
            else
              match w.disk.openRead env (FilePath w.rot 0) with
              | none => (Outcome.error Err.read, w)
              | some content =>
                  match copyLoop env (content.length + 1) 0
                      (List.replicate blockSize 0) content ⟨[], false⟩ with
                  | (Outcome.ok, iow) =>
                      if iow.failed || env.zipCloseFails then (Outcome.error Err.zipClose, w)
                      else
                        let entries := [(w.rot.Name, iow.bytes)]
                        let w : World :=
                          { w with
                            disk := { w.disk with
                              data := Function.update w.disk.data zipFile.ino (env.zipImage entries) }
                            log := w.log ++ [Event.archived zip_file_path entries] }
                        match w.disk.create env (FilePath w.rot 0) with
                        | none => (Outcome.error Err.create, w)
                        | some (current, disk) =>
                            sweep env budget 0
                              { w with
                                disk := disk
                                rot := { w.rot with current := some current, current_size := 0 } }
                  | (out, _) => (out, w)

/-- The second half of `WriteLine`: the newline is appended to the line, the
line is written to `rotator.current`, and the counter (a `uint64`) grows by
the length written. -/
def writeCurrent (env : Env) (w : World) (line : List Byte) : Outcome × World :=
  let line := line ++ [10]
  match w.rot.current with
  | none => (Outcome.error Err.write, w)
  | some current =>
      if current.closed || env.writeFails then (Outcome.error Err.write, w)
      else
        (Outcome.ok,
          { w with
            disk := w.disk.append current.ino line
            rot := { w.rot with
              current_size := (w.rot.current_size + line.length) % uint64Size } })

/-- The method `WriteLine`. -/
def WriteLine (budget : Nat) (env : Env) (w : World) (line : List Byte) : Outcome × World :=
  match shouldRotate w.rot with
  | none => (Outcome.crash, w)
  | some true =>
      match Rotate budget env w with
      | (Outcome.ok, w1) => writeCurrent env w1 line
      | failed => failed
  | some false => writeCurrent env w line

/-! ## Vocabulary of the statements -/

/-- A configuration that `CheckIfConfigSane` accepts and leaves as it is:
what the rotator holds once validation has succeeded. -/
def Validated (r : FileRotator) : Prop :=
  CheckIfConfigSane r = (none, r)

instance (r : FileRotator) : Decidable (Validated r) :=
  inferInstanceAs (Decidable (CheckIfConfigSane r = (none, r)))

/-- A configuration with a threshold of zero bytes. -/
def zeroThresholdConfig : FileRotator :=
  { Path := "/var/log/beat", Name := "beat.log", RotateEveryBytes := some 0,
    KeepFiles := none, current := none, current_size := 0 }

/-- The inode of a regular file. -/
def Node.ino? : Node → Option Nat
  | Node.dir => none
  | Node.file i => some i

/-- The inodes of the regular files of the tree. -/
def Disk.inodes (d : Disk) : List Nat := d.tree.filterMap (fun e => Node.ino? e.2)

/-- A well-formed file system: a path names one node, no two paths share a
file (there are no hard links), and `next` is above every inode in use. -/
def Disk.WF (d : Disk) : Prop :=
  (d.tree.map Prod.fst).Nodup ∧ d.inodes.Nodup ∧ ∀ i ∈ d.inodes, i < d.next

instance (d : Disk) : Decidable d.WF :=
  inferInstanceAs
    (Decidable ((d.tree.map Prod.fst).Nodup ∧ d.inodes.Nodup ∧ ∀ i ∈ d.inodes, i < d.next))

/-- The number of times `Rotate` was entered, by a trace. -/
def rotations (log : List Event) : Nat :=
  log.count Event.rotate

/-- The archives completed, by a trace: path and entries of each, in order. -/
def archivesMade : List Event → List (String × List (String × List Byte))
  | [] => []
  | Event.archived path entries :: log => (path, entries) :: archivesMade log
  | _ :: log => archivesMade log

/-- The calls of `os.Remove`, by a trace: path and success of each, in order. -/
def removals : List Event → List (String × Bool)
  | [] => []
  | Event.remove path ok :: log => (path, ok) :: removals log
  | _ :: log => removals log

/-- What a call added to the trace: the events of `after` that follow those
of `before`. -/
def since (before after : World) : List Event :=
  after.log.drop before.log.length

/-- The list `filePathList` of the retention loop: the walked paths that end
in ".zip". -/
def zipList (d : Disk) (root : String) : List String :=
  (d.walk root).filter (fun path => hasSuffix path ".zip")

/-- The name of `p` inside the directory `dir`, when `p` lies directly in it. -/
def nameIn (dir p : String) : Option String :=
  if isBelow dir p then
    let name := p.data.drop (dir.data.length + 1)
    if name.contains '/' then none else some (String.mk name)
  else none

/-- The entries, files and directories, that lie directly in `dir` and whose
name ends in ".zip". -/
def zipEntries (d : Disk) (dir : String) : List (String × Node) :=
  d.tree.filter (fun e =>
    match nameIn dir e.1 with
    | some name => hasSuffix name ".zip"
    | none => false)

/-- The regular files that lie directly in `dir` and whose name ends in ".zip". -/
def archiveFiles (d : Disk) (dir : String) : List (String × Node) :=
  d.tree.filter (fun e =>
    match e.2, nameIn dir e.1 with
    | Node.file _, some name => hasSuffix name ".zip"
    | _, _ => false)

/-- The rotator holds an open handle on the file that is at the base-name path. -/
def ActiveOpen (w : World) (current : File) : Prop :=
  w.rot.current = some current ∧ current.closed = false ∧
  w.disk.lookup (FilePath w.rot 0) = some (Node.file current.ino)

/-- The invariant of the rotator in its file system: the file system is
well-formed, and the file the rotator holds is the file at the base-name path
or a file that has no path any more (the retention loop has unlinked it), in
which case the base-name path does not exist. -/
def HandleInv (w : World) : Prop :=
  w.disk.WF ∧
  ∀ cur, w.rot.current = some cur →
    cur.ino < w.disk.next ∧
    (w.disk.lookup (FilePath w.rot 0) = some (Node.file cur.ino) ∨
      (w.disk.lookup (FilePath w.rot 0) = none ∧ cur.ino ∉ w.disk.inodes))

/-- The worlds a rotator reaches from a start with no file open, in a
well-formed file system, by calls of `WriteLine` and `Rotate`, whatever the
environment of each call and however each call ends. -/
inductive Reachable : World → Prop
  | start (w : World) (hwf : w.disk.WF) (hc : w.rot.current = none) : Reachable w
  | writeLine (w : World) (budget : Nat) (env : Env) (line : List Byte) :
      Reachable w → Reachable (WriteLine budget env w line).2
  | rotate (w : World) (budget : Nat) (env : Env) :
      Reachable w → Reachable (Rotate budget env w).2

/-! ## Worlds used as examples -/

/-- The bytes of an ASCII text. -/
def ascii (s : String) : List Byte :=
  s.data.map Char.toNat

/-- An environment in which no call fails and no read is short, at the given
clock reading.  The archive image is a stand-in: the bytes of the single
entry as they are. -/
def Env.calm (nanos : Int) : Env :=
  { nowNanos := nanos
    zipImage := fun entries =>
      match entries with
      | [(_, bytes)] => bytes
      | _ => []
    closeFails := false
    createFails := fun _ => false
    zipCreateFails := false
    openFails := false
    readFails := fun _ => false
    readShort := fun _ => 0
    entryWriteFails := fun _ => false
    zipCloseFails := false
    removeFails := fun _ _ => false
    writeFails := false }

/-- The scenario of the specification: directory /tmp/x, empty; name app.log;
threshold 10 bytes; two files kept; nothing written yet. -/
def freshWorld : World :=
  { rot := { Path := "/tmp/x", Name := "app.log", RotateEveryBytes := some 10,
             KeepFiles := some 2, current := none, current_size := 0 }
    disk := { tree := [("/tmp", Node.dir), ("/tmp/x", Node.dir)], data := fun _ => [], next := 0 }
    log := [] }

/-- The scenario after "hello" was written. -/
def afterHello : World :=
  (WriteLine 8 (Env.calm 1700000000000000000) freshWorld (ascii "hello")).2

/-- The scenario after "hello" and "world!" were written. -/
def afterWorld : World :=
  (WriteLine 8 (Env.calm 1700000001000000000) afterHello (ascii "world!")).2

/-- The clock reading of the third write of the scenario. -/
def thirdClock : Int := 1700000002000000000

/-- The scenario after a third line, "again", was written. -/
def afterThird : World :=
  (WriteLine 8 (Env.calm thirdClock) afterWorld (ascii "again")).2

/-- An environment in which no call fails and every read delivers at most four
bytes. -/
def Env.shortReads (nanos : Int) : Env :=
  { Env.calm nanos with readShort := fun _ => 4 }

/-- The scenario after "hello" and "world!", rotated by a direct call of
`Rotate` whose reads are short. -/
def afterRotate : World :=
  (Rotate 8 (Env.shortReads thirdClock) afterWorld).2

/-- A rotator whose base name ends in ".zip", before its first write, in an
empty directory. -/
def zipNamedWorld : World :=
  { rot := { Path := "/var/log/beat", Name := "beat.zip", RotateEveryBytes := some 10,
             KeepFiles := some 7, current := none, current_size := 0 }
    disk := { tree := [("/var/log", Node.dir), ("/var/log/beat", Node.dir)],
              data := fun _ => [], next := 0 }
    log := [] }

/-- The clock reading of a fourth call in the scenario. -/
def fourthClock : Int := 1700000003000000000

/-- The scenario after the third line, rotated once more by a direct call of
`Rotate`: a second archive is made and the retention loop has work to do. -/
def afterSweep : World :=
  (Rotate 8 (Env.calm fourthClock) afterThird).2

/-- A rotator at its threshold whose directory also holds a directory named
0old.zip that is not empty. -/
def stuckWorld : World :=
  { rot := { Path := "/tmp/x", Name := "app.log", RotateEveryBytes := some 10,
             KeepFiles := some 2, current := some ⟨0, false⟩, current_size := 13 }
    disk :=
      { tree := [("/tmp", Node.dir), ("/tmp/x", Node.dir), ("/tmp/x/app.log", Node.file 0),
                 ("/tmp/x/0old.zip", Node.dir), ("/tmp/x/0old.zip/notes.txt", Node.file 1)]
        data := fun i => if i = 0 then ascii "hello\nworld!\n" else []
        next := 2 }
    log := [] }

/-- The start of a retention loop in a directory that holds one archive and,
in a subdirectory, a file whose name ends in ".zip". -/
def nestedWorld : World :=
  { rot := { Path := "/tmp/x", Name := "app.log", RotateEveryBytes := some 10,
             KeepFiles := some 2, current := some ⟨0, false⟩, current_size := 0 }
    disk :=
      { tree := [("/tmp", Node.dir), ("/tmp/x", Node.dir), ("/tmp/x/app.log", Node.file 0),
                 ("/tmp/x/app.log-1700000002000.zip", Node.file 1),
                 ("/tmp/x/old", Node.dir), ("/tmp/x/old/saved.zip", Node.file 2)]
        data := fun _ => []
        next := 3 }
    log := [] }

/-- The start of a retention loop in a directory that holds two archives and,
in a subdirectory, a file whose name ends in ".zip". -/
def crowdedWorld : World :=
  { rot := { Path := "/tmp/x", Name := "app.log", RotateEveryBytes := some 10,
             KeepFiles := some 2, current := some ⟨0, false⟩, current_size := 0 }
    disk :=
      { tree := [("/tmp", Node.dir), ("/tmp/x", Node.dir), ("/tmp/x/app.log", Node.file 0),
                 ("/tmp/x/old", Node.dir), ("/tmp/x/old/saved.zip", Node.file 3),
                 ("/tmp/x/app.log-1700000002000.zip", Node.file 2),
                 ("/tmp/x/app.log-1700000001000.zip", Node.file 1)]
        data := fun _ => []
        next := 4 }
    log := [] }

/-- A configuration in which neither the threshold nor the count is set. -/
def unsetConfig : FileRotator :=
  { Path := "/var/log/beat", Name := "beat.log", RotateEveryBytes := none,
    KeepFiles := none, current := none, current_size := 0 }

/-! ## Further vocabulary and examples -/

/-- A configuration in which the threshold is set and the count is not. -/
def halfSetConfig : FileRotator :=
  { Path := "/var/log/beat", Name := "beat.log", RotateEveryBytes := some 4096,
    KeepFiles := none, current := none, current_size := 0 }

/-- The start of a retention loop in a directory that holds one archive, an
empty directory named 0empty.zip and, in a subdirectory, a file named jan.zip. -/
def deepWorld : World :=
  { rot := { Path := "/tmp/x", Name := "app.log", RotateEveryBytes := some 10,
             KeepFiles := some 2, current := some ⟨0, false⟩, current_size := 0 }
    disk :=
      { tree := [("/tmp", Node.dir), ("/tmp/x", Node.dir), ("/tmp/x/app.log", Node.file 0),
                 ("/tmp/x/0empty.zip", Node.dir),
                 ("/tmp/x/2019", Node.dir), ("/tmp/x/2019/jan.zip", Node.file 1),
                 ("/tmp/x/app.log-1700000002000.zip", Node.file 2)]
        data := fun _ => []
        next := 3 }
    log := [] }

/-- The number of reads of the copy loop that deliver bytes when no read
fails, from the k-th read on, with `remaining` bytes not yet delivered: the
loop makes that many reads and writes, and one more read, which reports EOF.
`budget` bounds the recursion; `remaining` is always enough. -/
def chunkCount (env : Env) : (budget k remaining : Nat) → Nat
  | 0, _, _ => 0
  | budget + 1, k, remaining =>
      if remaining = 0 then 0
      else 1 + chunkCount env budget (k + 1) (remaining - readLen env blockSize k remaining)

/-- An environment in which every write into the archive entry fails, as on a
full disk, and nothing else does. -/
def Env.fullDisk (nanos : Int) : Env :=
  { Env.calm nanos with entryWriteFails := fun _ => true }

/-- A run of `WriteLine` calls, each with its own budget, environment and
line, all of which return nil: the world the run leaves and, in call order,
the lines written since `Rotate` was last entered, given those written before
the run.  The result is `none` when a call does not return nil. -/
def writeLines : World → List (List Byte) → List (Nat × Env × List Byte) →
    Option (World × List (List Byte))
  | w, ls, [] => some (w, ls)
  | w, ls, (budget, env, line) :: calls =>
      match WriteLine budget env w line with
      | (Outcome.ok, w1) =>
          writeLines w1 ((if rotations (since w w1) = 0 then ls else []) ++ [line]) calls
      | _ => none

/-- The content of a file to which these lines were written, each followed by
a newline. -/
def linesContent (ls : List (List Byte)) : List Byte :=
  (ls.map (fun line => line ++ [10])).flatten

/-- The three writes of the scenario. -/
def scenarioCalls : List (Nat × Env × List Byte) :=
  [(8, Env.calm 1700000000000000000, ascii "hello"),
   (8, Env.calm 1700000001000000000, ascii "world!"),
   (8, Env.calm thirdClock, ascii "again")]

/-- What holds between two calls of `WriteLine`, `ls` being the lines written
since `Rotate` was last entered. -/
def CounterInv (w : World) (ls : List (List Byte)) : Prop :=
  ∃ cur, w.rot.current = some cur ∧ cur.closed = false ∧
    w.disk.data cur.ino = linesContent ls ∧
    w.rot.current_size = (linesContent ls).length % uint64Size ∧
    (hasSuffix w.rot.Name ".zip" = false →
      w.disk.lookup (FilePath w.rot 0) = some (Node.file cur.ino))

/-! ## Setting up the directory -/

/-- What a call of `CreateDirectory` cannot decide by itself. -/
structure DirEnv where
  /-- Whether `os.Stat` fails for a reason outside the model, such as a missing
  permission to search a directory above the path. -/
  statFails : Bool
  /-- Whether `os.Mkdir` of this path fails for a reason outside the model. -/
  mkdirFails : String → Bool

/-- What `os.Stat` returns, as the code tells the cases apart: the file info
of a node (`err == nil`), an error for which `os.IsNotExist` is true, or
another error. -/
inductive StatResult
  | found (node : Node)
  | notExist
  | failed
deriving DecidableEq, Repr

/-- The prefixes of a path that end before a separator, shortest first, the
empty prefix left out; `acc` is the part of the path already read. -/
def prefixesFrom (acc : List Char) : List Char → List String
  | [] => []
  | c :: cs =>
      if c = '/' ∧ acc ≠ [] then String.mk acc :: prefixesFrom (acc ++ [c]) cs
      else prefixesFrom (acc ++ [c]) cs

/-- The directories above a cleaned path, outermost first, the root left
out: /a and /a/b for /a/b/c. -/
def ancestors (p : String) : List String :=
  prefixesFrom [] p.data

namespace Disk

/-- The node at a path, the root and the working directory being directories
that always exist. -/
def nodeAt (d : Disk) (p : String) : Option Node :=
  if p = "/" ∨ p = "." then some Node.dir else d.lookup p

/-- The walk of `os.Stat` down the directories above a path: the error it
stops with, if any.  A directory that is missing gives ENOENT, for which
`os.IsNotExist` is true; a regular file in the place of a directory gives
ENOTDIR, for which it is false. -/
def resolve (d : Disk) : List String → Option StatResult
  | [] => none
  | q :: qs =>
      match d.nodeAt q with
      | some Node.dir => resolve d qs
      | some (Node.file _) => some StatResult.failed
      | none => some StatResult.notExist

/-- The call `os.Stat`. -/
def stat (env : DirEnv) (d : Disk) (p : String) : StatResult :=
  if env.statFails then StatResult.failed
  else
    match d.resolve (ancestors p) with
    | some failure => failure
    | none =>
        match d.nodeAt p with
        | some node => StatResult.found node
        | none => StatResult.notExist

/-- The work of `os.MkdirAll` on the directories above a path and the path
itself, outermost first: a directory that exists is passed, one that is
missing is made, and the call fails at a regular file and where `os.Mkdir`
fails.  What was made before a failure stays. -/
def mkdirChain (env : DirEnv) : Disk → List String → Bool × Disk
  | d, [] => (true, d)
  | d, q :: qs =>
      match d.nodeAt q with
      | some Node.dir => mkdirChain env d qs
      | some (Node.file _) => (false, d)
      | none =>
          if env.mkdirFails q = true ∨ q = "" then (false, d)
          else mkdirChain env { d with tree := d.tree ++ [(q, Node.dir)] } qs

/-- The call `os.MkdirAll`: whether it returned nil, and the file system it leaves. -/
def mkdirAll (env : DirEnv) (d : Disk) (p : String) : Bool × Disk :=
  mkdirChain env d (ancestors p ++ [p])

end Disk

/-- The method `CreateDirectory`: the error it returns, if any, and the world
it leaves. -/
def CreateDirectory (env : DirEnv) (w : World) : Option Err × World :=
  match w.disk.stat env w.rot.Path with
  | StatResult.found (Node.file _) => (some Err.notADirectory, w)
  | StatResult.found Node.dir => (none, w)
  | StatResult.notExist =>
      match w.disk.mkdirAll env w.rot.Path with
      | (true, disk) => (none, { w with disk := disk })
      | (false, disk) => (some Err.mkdir, { w with disk := disk })
  | StatResult.failed => (none, w)

/-- An environment in which neither `os.Stat` nor `os.Mkdir` fails. -/
def DirEnv.calm : DirEnv :=
  { statFails := false, mkdirFails := fun _ => false }

/-- A rotator whose `Path` lies below a regular file. -/
def underFileWorld : World :=
  { rot := { Path := "/tmp/x/app.log/logs", Name := "app.log", RotateEveryBytes := none,
             KeepFiles := none, current := none, current_size := 0 }
    disk := { tree := [("/tmp", Node.dir), ("/tmp/x", Node.dir), ("/tmp/x/app.log", Node.file 0)],
              data := fun _ => [], next := 1 }
    log := [] }

/-- A rotator whose `Path` and the directory above it are missing. -/
def noDirWorld : World :=
  { rot := { Path := "/var/log/beat/app", Name := "app.log", RotateEveryBytes := none,
             KeepFiles := none, current := none, current_size := 0 }
    disk := { tree := [("/var", Node.dir), ("/var/log", Node.dir)],
              data := fun _ => [], next := 0 }
    log := [] }

/-! ## The library function `filepath.Join` -/

/-- The elements of a path: what stands between its separators. -/
def splitSep : List Char → List (List Char)
  | [] => [[]]
  | c :: cs =>
      if c = '/' then [] :: splitSep cs
      else
        match splitSep cs with
        | [] => [[c]]
        | e :: es => (c :: e) :: es

/-- One step of `filepath.Clean`, on the next element of the path; `out` holds
the elements kept so far, the last one first.  An empty element and "." are
dropped; ".." takes back the element before it, is dropped at the root, and is
kept where there is nothing to take back. -/
def cleanStep (rooted : Bool) (out : List (List Char)) (e : List Char) : List (List Char) :=
  if e = [] ∨ e = ['.'] then out
  else if e = ['.', '.'] then
    match out with
    | top :: rest => if top = ['.', '.'] then e :: out else rest
    | [] => if rooted then [] else [e]
  else e :: out

/-- The elements put together again, one separator between two of them. -/
def joinSep : List (List Char) → List Char
  | [] => []
  | [e] => e
  | e :: es => e ++ '/' :: joinSep es

/-- The function `filepath.Clean`, for the separator '/'. -/
def filepathClean (p : String) : String :=
  let rooted : Bool := p.data.head? = some '/'
  let body := joinSep ((splitSep p.data).foldl (cleanStep rooted) []).reverse
  if rooted then String.mk ('/' :: body)
  else if body = [] then "." else String.mk body

/-- The function `filepath.Join` of two elements: empty elements are left out
and the rest, joined by separators, is cleaned. -/
def filepathJoin (dir name : String) : String :=
  if dir = "" then (if name = "" then "" else filepathClean name)
  else filepathClean (dir ++ "/" ++ name)

/-- A directory path in the form the model works with: as `filepath.Clean`
leaves it, and neither the root nor ".". -/
def CleanedDir (dir : String) : Prop :=
  filepathClean dir = dir ∧ dir ≠ "/" ∧ dir ≠ "."

instance (dir : String) : Decidable (CleanedDir dir) :=
  inferInstanceAs (Decidable (filepathClean dir = dir ∧ dir ≠ "/" ∧ dir ≠ "."))

/-- A plain file name: no separator in it, and not empty, "." or "..". -/
def PlainName (name : String) : Prop :=
  '/' ∉ name.data ∧ name ≠ "" ∧ name ≠ "." ∧ name ≠ ".."

instance (name : String) : Decidable (PlainName name) :=
  inferInstanceAs (Decidable ('/' ∉ name.data ∧ name ≠ "" ∧ name ≠ "." ∧ name ≠ ".."))

/-! ## The order of `sort.Strings` -/

theorem codesLE_total (a b : List Nat) : codesLE a b = true ∨ codesLE b a = true := by
  induction a generalizing b with
  | nil => left; rfl
  | cons x s ih =>
    cases b with
    | nil => right; rfl
    | cons y t =>
      simp only [codesLE, Bool.or_eq_true, Bool.and_eq_true, decide_eq_true_eq, beq_iff_eq]
      rcases Nat.lt_trichotomy x y with h | h | h
      · left; left; exact h
      · rcases ih t with h1 | h1
        · left; right; exact ⟨h, h1⟩
        · right; right; exact ⟨h.symm, h1⟩
      · right; left; exact h

theorem codesLE_trans {a b c : List Nat} (h1 : codesLE a b = true) (h2 : codesLE b c = true) :
    codesLE a c = true := by
  induction a generalizing b c with
  | nil => rfl
  | cons x s ih =>
    cases b with
    | nil => simp [codesLE] at h1
    | cons y t =>
      cases c with
      | nil => simp [codesLE] at h2
      | cons z u =>
        simp only [codesLE, Bool.or_eq_true, Bool.and_eq_true, decide_eq_true_eq, beq_iff_eq] at *
        rcases h1 with h1 | ⟨h1, h1r⟩
        · rcases h2 with h2 | ⟨h2, _⟩
          · left; omega
          · left; omega
        · rcases h2 with h2 | ⟨h2, h2r⟩
          · left; omega
          · right; exact ⟨by omega, ih h1r h2r⟩

theorem codesLE_antisymm {a b : List Nat} (h1 : codesLE a b = true) (h2 : codesLE b a = true) :
    a = b := by
  induction a generalizing b with
  | nil =>
    cases b with
    | nil => rfl
    | cons y t => simp [codesLE] at h2
  | cons x s ih =>
    cases b with
    | nil => simp [codesLE] at h1
    | cons y t =>
      simp only [codesLE, Bool.or_eq_true, Bool.and_eq_true, decide_eq_true_eq, beq_iff_eq] at *
      rcases h1 with h1 | ⟨h1, h1r⟩
      · rcases h2 with h2 | ⟨h2, _⟩ <;> omega
      · rcases h2 with h2 | ⟨_, h2r⟩
        · omega
        · rw [h1, ih h1r h2r]

theorem codes_injective {a b : String}
    (h : a.data.map Char.toNat = b.data.map Char.toNat) : a = b := by
  have hinj : Function.Injective Char.toNat := by
    intro x y hxy
    apply Char.ext
    exact UInt32.ext hxy
  exact String.ext (List.map_injective_iff.mpr hinj h)

theorem strLE_total (a b : String) : strLE a b ∨ strLE b a := codesLE_total _ _

theorem strLE_trans {a b c : String} (h1 : strLE a b) (h2 : strLE b c) : strLE a c :=
  codesLE_trans h1 h2

theorem strLE_antisymm {a b : String} (h1 : strLE a b) (h2 : strLE b a) : a = b :=
  codes_injective (codesLE_antisymm h1 h2)

theorem sortStrings_sorted (l : List String) : (sortStrings l).Sorted strLE := by
  haveI : IsTotal String strLE := ⟨strLE_total⟩
  haveI : IsTrans String strLE := ⟨fun _ _ _ h1 h2 => strLE_trans h1 h2⟩
  exact List.sorted_insertionSort strLE l

theorem sortStrings_perm (l : List String) : (sortStrings l).Perm l :=
  List.perm_insertionSort strLE l

/-- Two sorted lists with the same elements are the same list. -/
theorem sorted_unique {l₁ l₂ : List String} (hp : l₁.Perm l₂)
    (h1 : l₁.Sorted strLE) (h2 : l₂.Sorted strLE) : l₁ = l₂ := by
  haveI : IsAntisymm String strLE := ⟨fun _ _ h1 h2 => strLE_antisymm h1 h2⟩
  exact List.eq_of_perm_of_sorted hp h1 h2

/-! ## Paths -/

theorem hasSuffix_append (s t : String) : hasSuffix (s ++ t) t = true := by
  unfold hasSuffix
  rw [List.isSuffixOf_iff_suffix, String.data_append]
  exact List.suffix_append _ _

theorem hasSuffix_zipFilePath (env : Env) (r : FileRotator) :
    hasSuffix (zipFilePath env r) ".zip" = true := by
  unfold zipFilePath joinPath
  simp only [← String.append_assoc]
  exact hasSuffix_append _ _

theorem zipFilePath_ne_FilePath (env : Env) (r : FileRotator) :
    zipFilePath env r ≠ FilePath r 0 := by
  intro h
  have hl := congrArg String.length h
  unfold zipFilePath FilePath joinPath at hl
  simp [String.length_append] at hl
  have : (".zip" : String).length = 4 := by decide
  omega

/-- A suffix that does not contain the separator lies within the last
component of a path. -/
theorem suffix_of_sep {s a n : List Char} {c : Char} (hc : c ∉ s)
    (h : s <:+ a ++ c :: n) : s <:+ n := by
  have hn : n <:+ a ++ c :: n := by
    refine ⟨a ++ [c], ?_⟩
    simp
  by_cases hle : s.length ≤ n.length
  · exact List.suffix_of_suffix_length_le h hn hle
  · exfalso
    have hcn : (c :: n) <:+ a ++ c :: n := List.suffix_append _ _
    have h2 : (c :: n) <:+ s :=
      List.suffix_of_suffix_length_le hcn h (by simp only [List.length_cons]; omega)
    exact hc (h2.subset (List.mem_cons_self _ _))

/-- A joined path ends in ".zip" exactly when the file name does. -/
theorem hasSuffix_joinPath (dir name : String) :
    hasSuffix (joinPath dir name) ".zip" = hasSuffix name ".zip" := by
  unfold hasSuffix joinPath
  rw [Bool.eq_iff_iff, List.isSuffixOf_iff_suffix, List.isSuffixOf_iff_suffix]
  simp only [String.data_append]
  constructor
  · intro h
    have h' : (".zip" : String).data <:+ dir.data ++ '/' :: name.data := by
      simpa using h
    exact suffix_of_sep (by decide) h'
  · intro h
    exact h.trans (List.suffix_append _ _)

theorem FilePath_zero (r : FileRotator) : FilePath r 0 = joinPath r.Path r.Name := by
  unfold FilePath
  simp

theorem lookup_mem {l : List (String × Node)} {p : String} {n : Node}
    (h : l.lookup p = some n) : (p, n) ∈ l := by
  induction l with
  | nil => simp [List.lookup] at h
  | cons e l ih =>
    obtain ⟨q, m⟩ := e
    by_cases hq : p = q
    · subst hq
      simp [List.lookup] at h
      simp [h]
    · have : (p == q) = false := by simpa using hq
      simp [List.lookup, this] at h
      exact List.mem_cons_of_mem _ (ih h)

theorem mem_lookup {l : List (String × Node)} {p : String} {n : Node}
    (hnd : (l.map Prod.fst).Nodup) (h : (p, n) ∈ l) : l.lookup p = some n := by
  induction l with
  | nil => simp at h
  | cons e l ih =>
    obtain ⟨q, m⟩ := e
    simp only [List.map_cons, List.nodup_cons, List.mem_map, not_exists, not_and] at hnd
    rcases List.mem_cons.mp h with h1 | h1
    · cases h1
      simp [List.lookup]
    · have hq : p ≠ q := by
        intro hpq
        subst hpq
        exact hnd.1 (p, n) h1 rfl
      have : (p == q) = false := by simpa using hq
      simp only [List.lookup, this]
      exact ih hnd.2 h1

theorem lookup_none_iff {l : List (String × Node)} {p : String} :
    l.lookup p = none ↔ p ∉ l.map Prod.fst := by
  induction l with
  | nil => simp [List.lookup]
  | cons e l ih =>
    obtain ⟨q, m⟩ := e
    by_cases hq : p = q
    · subst hq
      simp [List.lookup]
    · have : (p == q) = false := by simpa using hq
      simp only [List.lookup, this, ih, List.map_cons, List.mem_cons, hq, false_or]

theorem lookup_append_fresh {l : List (String × Node)} {p q : String} {n : Node}
    (hp : l.lookup p = none) :
    (l ++ [(p, n)]).lookup q = if q = p then some n else l.lookup q := by
  induction l with
  | nil =>
    by_cases hq : q = p
    · subst hq; simp [List.lookup]
    · have : (q == p) = false := by simpa using hq
      simp [List.lookup, this, hq]
  | cons e l ih =>
    obtain ⟨a, m⟩ := e
    have hpa : p ≠ a := by
      intro h; subst h; simp [List.lookup] at hp
    have hpa' : (p == a) = false := by simpa using hpa
    simp only [List.lookup, hpa'] at hp
    by_cases hq : q = a
    · subst hq
      have : q ≠ p := fun h => hpa h.symm
      simp [List.lookup, this]
    · have : (q == a) = false := by simpa using hq
      simp only [List.cons_append, List.lookup, this]
      exact ih hp

theorem lookup_filter_ne {l : List (String × Node)} {p q : String} :
    (l.filter (fun e => e.1 != p)).lookup q = if q = p then none else l.lookup q := by
  induction l with
  | nil => simp [List.lookup]
  | cons e l ih =>
    obtain ⟨a, m⟩ := e
    by_cases ha : a = p
    · subst ha
      simp only [List.filter, bne_self_eq_false]
      rw [ih]
      by_cases hq : q = a
      · simp [hq]
      · have : (q == a) = false := by simpa using hq
        simp [hq, List.lookup, this]
    · have hap : (a != p) = true := by simpa using ha
      simp only [List.filter, hap]
      by_cases hq : q = a
      · subst hq
        simp [List.lookup, ha]
      · have : (q == a) = false := by simpa using hq
        simp only [List.lookup, this]
        exact ih

/-! ## The copy loop -/

theorem blockSize_pos : 0 < blockSize := by decide

theorem readLen_le (env : Env) (size k remaining : Nat) :
    readLen env size k remaining ≤ size ∧ readLen env size k remaining ≤ remaining := by
  unfold readLen
  simp only
  split <;> omega

theorem readLen_pos (env : Env) {size remaining : Nat} (k : Nat)
    (hb : 0 < size) (hr : 0 < remaining) : 0 < readLen env size k remaining := by
  unfold readLen
  simp only
  split
  · omega
  · rename_i h
    omega

theorem EntryWriter.write_failed (env : Env) (k : Nat) (z : EntryWriter) (chunk : List Byte)
    (h : z.failed = true) : (z.write env k chunk).failed = true := by
  unfold EntryWriter.write
  simp [h]

theorem EntryWriter.write_ok (env : Env) (k : Nat) (z : EntryWriter) (chunk : List Byte)
    (h : (z.write env k chunk).failed = false) :
    z.failed = false ∧ (z.write env k chunk).bytes = z.bytes ++ chunk := by
  unfold EntryWriter.write at h ⊢
  split at h
  · simp at h
  · rename_i hc
    simp only [Bool.or_eq_true, not_or, Bool.not_eq_true] at hc
    simp [hc.1, hc.2]

/-- A write into the entry that failed is never forgotten. -/
theorem copyLoop_failed (env : Env) (budget k : Nat) (bytes rest : List Byte)
    (iow : EntryWriter) (h : iow.failed = true) :
    (copyLoop env budget k bytes rest iow).2.failed = true := by
  induction budget generalizing k bytes rest iow with
  | zero => simpa [copyLoop] using h
  | succ n ih =>
    unfold copyLoop
    split
    · exact h
    · split
      · exact h
      · simp only
        split
        · exact ih _ _ _ _ (EntryWriter.write_failed _ _ _ _ h)
        · exact ih _ _ _ _ (EntryWriter.write_failed _ _ _ _ h)

/-- What the buffer holds after a read is what the loop writes: the bytes just
read, whether the buffer was filled or not. -/
theorem chunk_written (size n : Nat) (bytes rest : List Byte)
    (hlen : bytes.length = size) (hn : n ≤ size) (hr : n ≤ rest.length) :
    (rest.take n ++ bytes.drop n).length = size ∧
    (n ≥ size → rest.take n ++ bytes.drop n = rest.take n) ∧
    (rest.take n ++ bytes.drop n).take n = rest.take n := by
  refine ⟨?_, ?_, ?_⟩
  · simp [List.length_append, List.length_take, List.length_drop]
    omega
  · intro h
    have : bytes.drop n = [] := by
      apply List.drop_eq_nil_of_le
      omega
    simp [this]
  · have hl : (rest.take n).length = n := by simp [List.length_take]; omega
    rw [List.take_append_of_le_length (by omega)]
    rw [List.take_of_length_le (by omega)]

/-- When the loop ends without an error and no write has failed, the entry has
received everything that was left to read, in order. -/
theorem copyLoop_ok (env : Env) (budget k : Nat) (bytes rest : List Byte)
    (iow out : EntryWriter) (hlen : bytes.length = blockSize)
    (h : copyLoop env budget k bytes rest iow = (Outcome.ok, out))
    (hout : out.failed = false) :
    iow.failed = false ∧ out.bytes = iow.bytes ++ rest := by
  induction budget generalizing k bytes rest iow with
  | zero => simp [copyLoop] at h
  | succ n ih =>
    unfold copyLoop at h
    split at h
    · cases h
    · split at h
      · rename_i hemp
        simp only [Prod.mk.injEq, true_and] at h
        subst h
        have : rest = [] := by simpa using hemp
        simp [this, hout]
      · simp only at h
        obtain ⟨hle1, hle2⟩ := readLen_le env blockSize k rest.length
        obtain ⟨hbuf, hfull, hpart⟩ := chunk_written blockSize _ bytes rest hlen hle1 hle2
        split at h
        · rename_i hge
          obtain ⟨hw, hb⟩ := ih _ _ _ _ hbuf h
          obtain ⟨h1, h2⟩ := EntryWriter.write_ok _ _ _ _ hw
          refine ⟨h1, ?_⟩
          rw [hb, h2, hfull hge, List.append_assoc, List.take_append_drop]
        · obtain ⟨hw, hb⟩ := ih _ _ _ _ hbuf h
          obtain ⟨h1, h2⟩ := EntryWriter.write_ok _ _ _ _ hw
          refine ⟨h1, ?_⟩
          rw [hb, h2, hpart, List.append_assoc, List.take_append_drop]

/-- Every read delivers at least one byte, so a budget above the number of
bytes left is never used up. -/
theorem copyLoop_no_hang (env : Env) (budget k : Nat) (bytes rest : List Byte)
    (iow : EntryWriter) (hbudget : rest.length < budget) :
    (copyLoop env budget k bytes rest iow).1 ≠ Outcome.hang := by
  induction budget generalizing k bytes rest iow with
  | zero => omega
  | succ n ih =>
    unfold copyLoop
    split
    · simp
    · split
      · simp
      · rename_i hemp
        have hpos : 0 < rest.length := by
          cases rest with
          | nil => simp at hemp
          | cons a t => simp
        have := readLen_pos env k blockSize_pos hpos
        simp only
        split
        · apply ih
          simp [List.length_drop]
          omega
        · apply ih
          simp [List.length_drop]
          omega

/-- With no failing read and no failing write the loop copies everything. -/
theorem copyLoop_total (env : Env) (budget k : Nat) (bytes rest : List Byte)
    (iow : EntryWriter) (hlen : bytes.length = blockSize)
    (hbudget : rest.length < budget)
    (hr : ∀ j, env.readFails j = false) (hw : ∀ j, env.entryWriteFails j = false)
    (hi : iow.failed = false) :
    copyLoop env budget k bytes rest iow = (Outcome.ok, ⟨iow.bytes ++ rest, false⟩) := by
  induction budget generalizing k bytes rest iow with
  | zero => omega
  | succ n ih =>
    unfold copyLoop
    simp only [hr, Bool.false_eq_true, ↓reduceIte]
    split
    · rename_i hemp
      have : rest = [] := by simpa using hemp
      subst this
      cases iow
      simp_all
    · rename_i hemp
      have hpos : 0 < rest.length := by
        cases rest with
        | nil => simp at hemp
        | cons a t => simp
      have hrp := readLen_pos env k blockSize_pos hpos
      obtain ⟨hle1, hle2⟩ := readLen_le env blockSize k rest.length
      obtain ⟨hbuf, hfull, hpart⟩ := chunk_written blockSize _ bytes rest hlen hle1 hle2
      have hwr : ∀ chunk, iow.write env k chunk = ⟨iow.bytes ++ chunk, false⟩ := by
        intro chunk
        unfold EntryWriter.write
        cases iow
        simp_all
      split
      · rename_i hge
        rw [ih _ _ _ _ hbuf (by simp [List.length_drop]; omega) (by rw [hwr])]
        rw [hwr, hfull hge]
        simp [List.append_assoc]
      · rw [ih _ _ _ _ hbuf (by simp [List.length_drop]; omega) (by rw [hwr])]
        rw [hwr, hpart]
        simp [List.append_assoc]

/-! ## System calls -/

theorem Disk.lookup_file_mem_inodes {d : Disk} {p : String} {i : Nat}
    (h : d.lookup p = some (Node.file i)) : i ∈ d.inodes := by
  unfold Disk.inodes
  rw [List.mem_filterMap]
  exact ⟨(p, Node.file i), lookup_mem h, rfl⟩

theorem inodes_nodup_inj {l : List (String × Node)} {p q : String} {i : Nat}
    (hnd : (l.filterMap (fun e => Node.ino? e.2)).Nodup)
    (hp : (p, Node.file i) ∈ l) (hq : (q, Node.file i) ∈ l) : p = q := by
  induction l with
  | nil => simp at hp
  | cons e l ih =>
    obtain ⟨a, m⟩ := e
    cases m with
    | dir =>
      simp only [List.filterMap_cons, Node.ino?] at hnd
      simp only [List.mem_cons, Prod.mk.injEq, reduceCtorEq, and_false, false_or] at hp hq
      exact ih hnd hp hq
    | file j =>
      simp only [List.filterMap_cons, Node.ino?, List.nodup_cons, List.mem_filterMap,
        not_exists, not_and] at hnd
      rcases List.mem_cons.mp hp with hp1 | hp1 <;> rcases List.mem_cons.mp hq with hq1 | hq1
      · cases hp1; cases hq1; rfl
      · cases hp1
        exact absurd rfl (hnd.1 (q, Node.file i) hq1)
      · cases hq1
        exact absurd rfl (hnd.1 (p, Node.file i) hp1)
      · exact ih hnd.2 hp1 hq1

/-- In a well-formed file system a file has one path. -/
theorem Disk.WF.no_links {d : Disk} (hwf : d.WF) {p q : String} {i : Nat}
    (hp : d.lookup p = some (Node.file i)) (hq : d.lookup q = some (Node.file i)) : p = q :=
  inodes_nodup_inj hwf.2.1 (lookup_mem hp) (lookup_mem hq)

theorem Disk.WF.lt_next {d : Disk} (hwf : d.WF) {p : String} {i : Nat}
    (hp : d.lookup p = some (Node.file i)) : i < d.next :=
  hwf.2.2 i (Disk.lookup_file_mem_inodes hp)

/-- What a successful `os.Create` does. -/
theorem Disk.create_some {env : Env} {d d' : Disk} {p : String} {f : File}
    (h : d.create env p = some (f, d')) :
    f.closed = false ∧ d'.data = Function.update d.data f.ino [] ∧
    d'.lookup p = some (Node.file f.ino) ∧
    (∀ q, q ≠ p → d'.lookup q = d.lookup q) ∧
    ((d.lookup p = some (Node.file f.ino) ∧ d'.tree = d.tree ∧ d'.next = d.next) ∨
     (d.lookup p = none ∧ f.ino = d.next ∧ d'.tree = d.tree ++ [(p, Node.file d.next)] ∧
       d'.next = d.next + 1)) := by
  unfold Disk.create at h
  split at h
  · cases h
  · split at h
    · cases h
    · rename_i i hl
      simp only [Option.some.injEq, Prod.mk.injEq] at h
      obtain ⟨hf, hd⟩ := h
      subst hf hd
      refine ⟨rfl, rfl, hl, fun q _ => rfl, Or.inl ⟨hl, rfl, rfl⟩⟩
    · rename_i hl
      split at h
      · simp only [Option.some.injEq, Prod.mk.injEq] at h
        obtain ⟨hf, hd⟩ := h
        subst hf hd
        have hl' : d.tree.lookup p = none := hl
        refine ⟨rfl, rfl, ?_, ?_, Or.inr ⟨hl, rfl, rfl, rfl⟩⟩
        · simp only [Disk.lookup]
          rw [lookup_append_fresh hl']
          simp
        · intro q hq
          simp only [Disk.lookup]
          rw [lookup_append_fresh hl']
          simp [hq]
      · cases h

/-- What `os.Remove` does: on success every entry of the path is gone, on
failure nothing changes; file contents are never touched. -/
theorem Disk.remove_spec (env : Env) (k : Nat) (d : Disk) (p : String) :
    (d.remove env k p).2.data = d.data ∧ (d.remove env k p).2.next = d.next ∧
    (d.remove env k p).2.tree =
      if (d.remove env k p).1 then d.tree.filter (fun e => e.1 != p) else d.tree := by
  unfold Disk.remove
  split
  · simp
  · split
    · simp
    · simp
    · split <;> simp

theorem Disk.remove_ok {env : Env} {k : Nat} {d : Disk} {p : String}
    (h : (d.remove env k p).1 = true) :
    p ∈ d.tree.map Prod.fst ∧ (d.lookup p = some Node.dir → d.hasChild p = false) := by
  unfold Disk.remove at h
  split at h
  · simp at h
  · split at h
    · simp at h
    · rename_i i hl
      refine ⟨?_, ?_⟩
      · have := lookup_mem hl
        exact List.mem_map.mpr ⟨_, this, rfl⟩
      · intro hd; rw [hd] at hl; cases hl
    · rename_i hl
      split at h
      · simp at h
      · rename_i hc
        refine ⟨?_, ?_⟩
        · have := lookup_mem hl
          exact List.mem_map.mpr ⟨_, this, rfl⟩
        · intro _; simpa using hc

/-! ## The retention loop -/

theorem removals_append (a b : List Event) : removals (a ++ b) = removals a ++ removals b := by
  induction a with
  | nil => rfl
  | cons e a ih => cases e <;> simp [removals, ih]

theorem archivesMade_append (a b : List Event) :
    archivesMade (a ++ b) = archivesMade a ++ archivesMade b := by
  induction a with
  | nil => rfl
  | cons e a ih => cases e <;> simp [archivesMade, ih]

theorem rotations_append (a b : List Event) : rotations (a ++ b) = rotations a + rotations b := by
  simp [rotations, List.count_append]

/-- The events that record the given calls of `os.Remove`. -/
theorem removals_map (rs : List (String × Bool)) :
    removals (rs.map (fun x => Event.remove x.1 x.2)) = rs ∧
    archivesMade (rs.map (fun x => Event.remove x.1 x.2)) = [] ∧
    rotations (rs.map (fun x => Event.remove x.1 x.2)) = 0 := by
  induction rs with
  | nil => exact ⟨rfl, rfl, rfl⟩
  | cons x rs ih =>
    obtain ⟨h1, h2, h3⟩ := ih
    refine ⟨?_, ?_, ?_⟩
    · simp [removals, h1]
    · simp [archivesMade, h2]
    · simp only [rotations] at h3 ⊢
      simp [List.count_cons, h3]

theorem mem_zipList_of_sorted_head {d : Disk} {root first : String} {rest : List String}
    (h : sortStrings ((d.walk root).filter (fun path => hasSuffix path ".zip")) = first :: rest) :
    first ∈ d.walk root ∧ hasSuffix first ".zip" = true := by
  have hm : first ∈ sortStrings ((d.walk root).filter (fun path => hasSuffix path ".zip")) := by
    rw [h]; exact List.mem_cons_self _ _
  have := (sortStrings_perm _).mem_iff.mp hm
  simpa [List.mem_filter] using this

/-- The frame of the retention loop: it only calls `os.Remove`, on paths that
end in ".zip"; the tree it leaves is the tree it found without the entries
removed with success; the rotator and all file contents are untouched. -/
theorem sweep_frame (env : Env) (budget k : Nat) (w : World) :
    ∃ rs : List (String × Bool),
      (sweep env budget k w).2.log = w.log ++ rs.map (fun x => Event.remove x.1 x.2) ∧
      (sweep env budget k w).2.rot = w.rot ∧
      (sweep env budget k w).2.disk.data = w.disk.data ∧
      (sweep env budget k w).2.disk.next = w.disk.next ∧
      (sweep env budget k w).2.disk.tree =
        w.disk.tree.filter (fun e => !(rs.any (fun x => x.2 && x.1 == e.1))) ∧
      (∀ x ∈ rs, hasSuffix x.1 ".zip" = true) := by
  induction budget generalizing k w with
  | zero => exact ⟨[], by simp [sweep]⟩
  | succ n ih =>
    unfold sweep
    simp only
    split
    · exact ⟨[], by simp⟩
    · split
      · exact ⟨[], by simp⟩
      · split
        · exact ⟨[], by simp⟩
        · rename_i first rest hsort
          obtain ⟨hd, hn, ht⟩ := Disk.remove_spec env k w.disk first
          obtain ⟨rs, h1, h2, h3, h4, h5, h6⟩ := ih (k + 1)
            { w with disk := (w.disk.remove env k first).2,
                     log := w.log ++ [Event.remove first (w.disk.remove env k first).1] }
          refine ⟨(first, (w.disk.remove env k first).1) :: rs, ?_, ?_, ?_, ?_, ?_, ?_⟩
          · rw [h1]; simp
          · rw [h2]
          · rw [h3, hd]
          · rw [h4, hn]
          · rw [h5]
            simp only [ht]
            cases hok : (w.disk.remove env k first).1
            · simp
            · simp only [↓reduceIte, List.filter_filter, List.any_cons, Bool.true_and]
              apply List.filter_congr
              intro e _
              by_cases he : e.1 = first
              · simp [he]
              · have h1 : (e.1 != first) = true := by simpa using he
                have h2 : (first == e.1) = false := by simpa using fun h => he h.symm
                simp [h1, h2]
          · intro x hx
            rcases List.mem_cons.mp hx with hx | hx
            · subst hx
              exact (mem_zipList_of_sorted_head hsort).2
            · exact h6 x hx

/-- When the retention loop returns, the list it last built is shorter than
`KeepFiles`. -/
theorem sweep_ok_bound (env : Env) (budget k : Nat) (w w' : World)
    (h : sweep env budget k w = (Outcome.ok, w')) :
    ∃ keep, w.rot.KeepFiles = some keep ∧
      ((zipList w'.disk w.rot.Path).length : Int) < keep := by
  induction budget generalizing k w with
  | zero => simp [sweep] at h
  | succ n ih =>
    unfold sweep at h
    simp only at h
    split at h
    · cases h
    · rename_i keep hk
      split at h
      · rename_i hlt
        simp only [Prod.mk.injEq, true_and] at h
        subst h
        exact ⟨keep, hk, hlt⟩
      · split at h
        · cases h
        · have := ih _ _ h
          exact this

/-! ## The structure of `Rotate` -/

theorem since_append (w w' : World) (l : List Event) (h : w'.log = w.log ++ l) :
    since w w' = l := by
  simp [since, h]

/-- The first rotation: with no file open, `Rotate` only creates the file. -/
theorem Rotate_first {budget : Nat} {env : Env} {w : World} (hc : w.rot.current = none) :
    Rotate budget env w =
      match w.disk.create env (FilePath w.rot 0) with
      | none => (Outcome.error Err.create, { w with log := w.log ++ [Event.rotate] })
      | some (current, disk) =>
          (Outcome.ok,
            { rot := { w.rot with current := some current, current_size := 0 }
              disk := disk
              log := w.log ++ [Event.rotate] }) := by
  unfold Rotate
  simp only [hc]

/-- A later rotation that returns nil went through every step. -/
theorem Rotate_next_ok {budget : Nat} {env : Env} {w w' : World} {old : File}
    (hc : w.rot.current = some old) (h : Rotate budget env w = (Outcome.ok, w')) :
    old.closed = false ∧
    ∃ zipFile d1 content iow cur d2,
      w.disk.create env (zipFilePath env w.rot) = some (zipFile, d1) ∧
      d1.openRead env (FilePath w.rot 0) = some content ∧
      copyLoop env (content.length + 1) 0 (List.replicate blockSize 0)
        content ⟨[], false⟩ = (Outcome.ok, iow) ∧
      iow.failed = false ∧
      Disk.create env
        { d1 with
          data := (Function.update d1.data zipFile.ino (env.zipImage [(w.rot.Name, iow.bytes)])) }
        (FilePath w.rot 0) = some (cur, d2) ∧
      sweep env budget 0
        { rot := { w.rot with current := some cur, current_size := 0 }
          disk := d2
          log := w.log ++ [Event.rotate] ++
            [Event.archived (zipFilePath env w.rot) [(w.rot.Name, iow.bytes)]] } =
        (Outcome.ok, w') := by
  unfold Rotate at h
  simp only [hc] at h
  split at h
  · cases h
  · rename_i hclose
    simp only [Bool.or_eq_true, not_or, Bool.not_eq_true] at hclose
    refine ⟨hclose.1, ?_⟩
    split at h
    · cases h
    · rename_i zipFile d1 hzip
      split at h
      · cases h
      · split at h
        · cases h
        · rename_i content hopen
          split at h
          · rename_i iow hcopy
            split at h
            · cases h
            · rename_i hfail
              simp only [Bool.or_eq_true, not_or, Bool.not_eq_true] at hfail
              split at h
              · cases h
              · rename_i cur d2 hcreate
                exact ⟨zipFile, d1, content, iow, cur, d2, hzip, hopen, hcopy, hfail.1, hcreate, h⟩
          · rename_i o iw hno heq
            simp only [Prod.mk.injEq] at h
            exact absurd h.1 hno

/-- A later rotation in which every step before the retention loop succeeds
continues as the retention loop. -/
theorem Rotate_next_run {budget : Nat} {env : Env} {w : World} {old zipFile cur : File}
    {d1 d2 : Disk} {content : List Byte} {iow : EntryWriter}
    (hc : w.rot.current = some old) (hclosed : old.closed = false)
    (hclose : env.closeFails = false)
    (hzip : w.disk.create env (zipFilePath env w.rot) = some (zipFile, d1))
    (hentry : env.zipCreateFails = false)
    (hopen : d1.openRead env (FilePath w.rot 0) = some content)
    (hcopy : copyLoop env (content.length + 1) 0 (List.replicate blockSize 0)
        content ⟨[], false⟩ = (Outcome.ok, iow))
    (hfail : iow.failed = false) (hzc : env.zipCloseFails = false)
    (hcreate : Disk.create env
        { d1 with
          data := (Function.update d1.data zipFile.ino (env.zipImage [(w.rot.Name, iow.bytes)])) }
        (FilePath w.rot 0) = some (cur, d2)) :
    Rotate budget env w =
      sweep env budget 0
        { rot := { w.rot with current := some cur, current_size := 0 }
          disk := d2
          log := w.log ++ [Event.rotate] ++
            [Event.archived (zipFilePath env w.rot) [(w.rot.Name, iow.bytes)]] } := by
  unfold Rotate
  simp only [hc, hclosed, hclose, Bool.or_self, Bool.false_eq_true, ↓reduceIte]
  have hz : Disk.create env w.disk (zipFilePath env
      { w.rot with current := some { old with closed := true } }) = some (zipFile, d1) := hzip
  simp only [hz, hentry, Bool.false_eq_true, ↓reduceIte]
  have ho : Disk.openRead env d1 (FilePath
      { w.rot with current := some { old with closed := true } } 0) = some content := hopen
  simp only [ho, hcopy, hfail, hzc, Bool.or_self, Bool.false_eq_true, ↓reduceIte]
  have hcr : Disk.create env
      { d1 with
        data := (Function.update d1.data zipFile.ino (env.zipImage [(w.rot.Name, iow.bytes)])) }
      (FilePath { w.rot with current := some { old with closed := true } } 0) = some (cur, d2) :=
    hcreate
  simp only [hcr]
  rfl

/-- Whatever happens, `Rotate` adds to the trace, and enters itself once. -/
theorem Rotate_log (budget : Nat) (env : Env) (w : World) :
    ∃ l, (Rotate budget env w).2.log = w.log ++ Event.rotate :: l ∧ rotations l = 0 := by
  unfold Rotate
  simp only
  split
  · split
    · exact ⟨[], by simp, rfl⟩
    · exact ⟨[], by simp, rfl⟩
  · split
    · exact ⟨[], by simp, rfl⟩
    · split
      · exact ⟨[], by simp, rfl⟩
      · split
        · exact ⟨[], by simp, rfl⟩
        · split
          · exact ⟨[], by simp, rfl⟩
          · split
            · split
              · exact ⟨[], by simp, rfl⟩
              · split
                · refine ⟨[Event.archived _ _], List.append_assoc _ _ _, ?_⟩
                  simp [rotations]
                · rename_i cur d2 _
                  obtain ⟨rs, h1, _⟩ := sweep_frame env budget 0 _
                  rw [h1]
                  refine ⟨Event.archived _ _ :: rs.map (fun x => Event.remove x.1 x.2),
                    by simp only [List.append_assoc]; rfl, ?_⟩
                  have := (removals_map rs).2.2
                  simp only [rotations] at this ⊢
                  simp [List.count_cons, this]
            · exact ⟨[], by simp, rfl⟩

/-! ## The write path -/

theorem shouldRotate_eq (r : FileRotator) (t : Nat) (ht : r.RotateEveryBytes = some t) :
    shouldRotate r = some (decide (r.current = none ∨ t ≤ r.current_size)) := by
  unfold shouldRotate
  cases hc : r.current with
  | none => simp
  | some f =>
    simp only [ht]
    by_cases h : t ≤ r.current_size
    · simp [h]
    · simp [h]

theorem writeCurrent_log (env : Env) (w : World) (line : List Byte) :
    (writeCurrent env w line).2.log = w.log := by
  unfold writeCurrent
  simp only
  split
  · rfl
  · split <;> rfl

theorem WriteLine_log (budget : Nat) (env : Env) (w : World) (line : List Byte) :
    (WriteLine budget env w line).2.log =
      if shouldRotate w.rot = some true then (Rotate budget env w).2.log else w.log := by
  unfold WriteLine
  split
  · rename_i h; simp [h]
  · rename_i h
    simp only [h, ↓reduceIte]
    split
    · rename_i w1 hr
      rw [writeCurrent_log, hr]
    · rfl
  · rename_i h
    simp only [h, Option.some.injEq, Bool.false_eq_true, ↓reduceIte]
    exact writeCurrent_log env w line

/-- What a later rotation that returns nil has done, when it starts with the
active file open in a well-formed file system: it archived the content of the
active file under the timestamped name, in one entry named `Name`; it emptied
the active file and holds a new open handle on it; after that it only removed
paths. -/
theorem Rotate_next_spec {budget : Nat} {env : Env} {w w' : World} {cur : File}
    (hwf : w.disk.WF) (hopen : ActiveOpen w cur)
    (h : Rotate budget env w = (Outcome.ok, w')) :
    ∃ rs : List (String × Bool),
      w'.rot = { w.rot with current := some ⟨cur.ino, false⟩, current_size := 0 } ∧
      w'.disk.data cur.ino = [] ∧
      w'.log = w.log ++ [Event.rotate,
        Event.archived (zipFilePath env w.rot) [(w.rot.Name, w.disk.data cur.ino)]] ++
        rs.map (fun x => Event.remove x.1 x.2) ∧
      (∀ x ∈ rs, hasSuffix x.1 ".zip" = true) := by
  obtain ⟨hc, hcl, hlook⟩ := hopen
  obtain ⟨_, zipFile, d1, content, iow, cur', d2, hzip, hread, hcopy, hfail, hcreate, hsweep⟩ :=
    Rotate_next_ok hc h
  obtain ⟨_, hd1, _, hl1, hcase1⟩ := Disk.create_some hzip
  have hne : FilePath w.rot 0 ≠ zipFilePath env w.rot := fun e => zipFilePath_ne_FilePath env w.rot e.symm
  have hino : zipFile.ino ≠ cur.ino := by
    rcases hcase1 with ⟨hz, _, _⟩ | ⟨_, hz, _, _⟩
    · intro e
      rw [e] at hz
      exact hne (hwf.no_links hlook hz)
    · have := hwf.lt_next hlook
      omega
  have hlook1 : d1.lookup (FilePath w.rot 0) = some (Node.file cur.ino) := by
    rw [hl1 _ hne]; exact hlook
  have hcontent : content = w.disk.data cur.ino := by
    unfold Disk.openRead at hread
    split at hread
    · cases hread
    · rw [hlook1] at hread
      simp only [Option.some.injEq] at hread
      rw [← hread, hd1, Function.update_noteq (Ne.symm hino)]
  have hbytes : iow.bytes = content :=
    (copyLoop_ok env _ _ _ _ _ _ (List.length_replicate _ _) hcopy hfail).2
  obtain ⟨hcl', hd2, _, _, hcase2⟩ := Disk.create_some hcreate
  have hcur' : cur'.ino = cur.ino := by
    rcases hcase2 with ⟨hz, _, _⟩ | ⟨hz, _, _, _⟩
    · have hz' : d1.lookup (FilePath w.rot 0) = some (Node.file cur'.ino) := hz
      rw [hlook1] at hz'
      simp only [Option.some.injEq, Node.file.injEq] at hz'
      exact hz'.symm
    · have hz' : d1.lookup (FilePath w.rot 0) = none := hz
      rw [hlook1] at hz'
      cases hz'
  obtain ⟨rs, h1, h2, h3, _, _, h6⟩ := sweep_frame env budget 0
    { rot := { w.rot with current := some cur', current_size := 0 }
      disk := d2
      log := w.log ++ [Event.rotate] ++
        [Event.archived (zipFilePath env w.rot) [(w.rot.Name, iow.bytes)]] }
  rw [hsweep] at h1 h2 h3
  simp only at h1 h2 h3
  refine ⟨rs, ?_, ?_, ?_, h6⟩
  · rw [h2]
    have : cur' = ⟨cur.ino, false⟩ := by
      cases cur'
      simp only at hcur' hcl'
      simp [hcur', hcl']
    rw [this]
  · rw [h3, hd2, hcur']
    simp
  · rw [h1, hbytes, hcontent]
    simp

/-! ## The write path, continued -/

/-- A `WriteLine` that rotates and returns nil: the rotation returned nil and
the write that followed it did. -/
theorem WriteLine_rotate_ok {budget : Nat} {env : Env} {w w' : World} {line : List Byte}
    (hs : shouldRotate w.rot = some true)
    (hok : WriteLine budget env w line = (Outcome.ok, w')) :
    ∃ w1, Rotate budget env w = (Outcome.ok, w1) ∧ writeCurrent env w1 line = (Outcome.ok, w') := by
  unfold WriteLine at hok
  simp only [hs] at hok
  split at hok
  · rename_i w1 hr
    exact ⟨w1, hr, hok⟩
  · rename_i hne
    exact (hne w' hok).elim

/-- A write that returns nil appended the line and a newline to the open file
and added their length to the counter. -/
theorem writeCurrent_ok {env : Env} {w w' : World} {line : List Byte}
    (hok : writeCurrent env w line = (Outcome.ok, w')) :
    ∃ current, w.rot.current = some current ∧ current.closed = false ∧
      w' = { w with
        disk := w.disk.append current.ino (line ++ [10])
        rot := { w.rot with
          current_size := (w.rot.current_size + (line.length + 1)) % uint64Size } } := by
  unfold writeCurrent at hok
  simp only at hok
  split at hok
  · cases hok
  · rename_i current hc
    split at hok
    · cases hok
    · rename_i hcl
      simp only [Bool.or_eq_true, not_or, Bool.not_eq_true] at hcl
      simp only [Prod.mk.injEq, true_and] at hok
      refine ⟨current, hc, hcl.1, ?_⟩
      rw [← hok]
      simp

/-! ## Archive files and the list of the retention loop -/

theorem hasSuffix_of_nameIn {dir p name : String} (h : nameIn dir p = some name)
    (hs : hasSuffix name ".zip" = true) : hasSuffix p ".zip" = true ∧ isBelow dir p = true := by
  unfold nameIn at h
  split at h
  · rename_i hb
    simp only at h
    split at h
    · cases h
    · simp only [Option.some.injEq] at h
      subst h
      refine ⟨?_, hb⟩
      unfold hasSuffix at hs ⊢
      rw [List.isSuffixOf_iff_suffix] at hs ⊢
      exact hs.trans (List.drop_suffix _ _)
  · cases h

/-- The entries of the directory whose name ends in ".zip" are among the paths
the retention loop counts. -/
theorem zipEntries_length_le (d : Disk) (dir : String) :
    (zipEntries d dir).length ≤ (zipList d dir).length := by
  have h1 : (zipEntries d dir).length ≤
      (d.tree.filter (fun e => isBelow dir e.1 && hasSuffix e.1 ".zip")).length := by
    apply List.Sublist.length_le
    unfold zipEntries
    apply List.monotone_filter_right
    intro e he
    split at he
    · rename_i name hn
      have := hasSuffix_of_nameIn hn he
      simp [this.1, this.2]
    · cases he
  have h2 : (d.tree.filter (fun e => isBelow dir e.1 && hasSuffix e.1 ".zip")).length =
      (((d.tree.map Prod.fst).filter (isBelow dir)).filter
        (fun path => hasSuffix path ".zip")).length := by
    rw [List.filter_filter, List.filter_map, List.length_map]
    congr 1
    apply List.filter_congr
    intro e _
    simp [Bool.and_comm]
  have h3 : (((d.tree.map Prod.fst).filter (isBelow dir)).filter
      (fun path => hasSuffix path ".zip")).length ≤ (zipList d dir).length := by
    unfold zipList Disk.walk
    rw [List.filter_cons]
    split
    · simp
    · exact le_refl _
  omega

/-- The archive files of a directory are among its entries whose name ends in
".zip". -/
theorem archiveFiles_length_le (d : Disk) (dir : String) :
    (archiveFiles d dir).length ≤ (zipEntries d dir).length := by
  apply List.Sublist.length_le
  unfold archiveFiles zipEntries
  apply List.monotone_filter_right
  intro e he
  split at he
  · rename_i name hn
    simp only [hn]
    exact he
  · cases he

/-! ## The first rotation -/

/-- The list the retention loop would build, after `os.Create` of a path:
the list before, and the path at its end when it is new, lies below the root
and ends in ".zip". -/
theorem zipList_create {env : Env} {d d' : Disk} {p : String} {f : File} (root : String)
    (h : d.create env p = some (f, d')) :
    zipList d' root = zipList d root ∨
    (zipList d' root = zipList d root ++ [p] ∧ hasSuffix p ".zip" = true) := by
  obtain ⟨_, _, _, _, hcase⟩ := Disk.create_some h
  rcases hcase with ⟨_, ht, _⟩ | ⟨_, _, ht, _⟩
  · left
    unfold zipList Disk.walk
    rw [ht]
  · by_cases hp : (isBelow root p && hasSuffix p ".zip") = true
    · right
      simp only [Bool.and_eq_true] at hp
      refine ⟨?_, hp.2⟩
      unfold zipList Disk.walk
      rw [ht]
      simp only [List.map_append, List.map_cons, List.map_nil, List.filter_append,
        ← List.cons_append]
      simp [List.filter_cons, hp.1, hp.2]
    · left
      unfold zipList Disk.walk
      rw [ht]
      simp only [List.map_append, List.map_cons, List.map_nil, List.filter_append,
        ← List.cons_append]
      simp only [Bool.and_eq_true, not_and, Bool.not_eq_true] at hp
      by_cases hb : isBelow root p = true
      · simp [List.filter_cons, hb, hp hb]
      · simp [List.filter_cons, hb]

/-- What a first rotation that returns nil has done. -/
theorem Rotate_first_spec {budget : Nat} {env : Env} {w w' : World}
    (hc : w.rot.current = none) (hok : Rotate budget env w = (Outcome.ok, w')) :
    ∃ cur, w'.rot = { w.rot with current := some cur, current_size := 0 } ∧
      cur.closed = false ∧
      w'.disk.lookup (FilePath w.rot 0) = some (Node.file cur.ino) ∧
      w'.disk.data cur.ino = [] ∧
      w'.log = w.log ++ [Event.rotate] ∧
      (∀ q, q ≠ FilePath w.rot 0 → w'.disk.lookup q = w.disk.lookup q) ∧
      (zipList w'.disk w.rot.Path).filter (fun q => q != FilePath w.rot 0) =
        (zipList w.disk w.rot.Path).filter (fun q => q != FilePath w.rot 0) ∧
      (hasSuffix (FilePath w.rot 0) ".zip" = false →
        zipList w'.disk w.rot.Path = zipList w.disk w.rot.Path) := by
  rw [Rotate_first hc] at hok
  split at hok
  · cases hok
  · rename_i cur d hcreate
    simp only [Prod.mk.injEq, true_and] at hok
    subst hok
    obtain ⟨hcl, hd, hl, hq, _⟩ := Disk.create_some hcreate
    refine ⟨cur, rfl, hcl, hl, by simp [hd], rfl, hq, ?_, ?_⟩
    · rcases zipList_create w.rot.Path hcreate with hz | ⟨hz, _⟩
      · simp only [hz]
      · simp only [hz, List.filter_append]
        simp
    · intro hs
      rcases zipList_create w.rot.Path hcreate with hz | ⟨_, hz⟩
      · exact hz
      · rw [hs] at hz
        cases hz

/-! ## A retention loop that makes no progress -/

theorem Disk.remove_nonempty_dir (env : Env) (k : Nat) (d : Disk) (p : String)
    (hl : d.lookup p = some Node.dir) (hc : d.hasChild p = true) :
    d.remove env k p = (false, d) := by
  unfold Disk.remove
  split
  · rfl
  · simp [hl, hc]

/-- A retention loop whose first candidate cannot be removed never ends: each
round finds the same list and tries the same path again. -/
theorem sweep_stuck (env : Env) (rot : FileRotator) (disk : Disk) (keep : Int)
    (first : String) (rest : List String)
    (hk : rot.KeepFiles = some keep)
    (hlen : ¬ ((zipList disk rot.Path).length : Int) < keep)
    (hsort : sortStrings (zipList disk rot.Path) = first :: rest)
    (hrm : ∀ k, disk.remove env k first = (false, disk))
    (budget k : Nat) (log : List Event) :
    sweep env budget k ⟨rot, disk, log⟩ =
      (Outcome.hang, ⟨rot, disk, log ++ List.replicate budget (Event.remove first false)⟩) := by
  induction budget generalizing k log with
  | zero => simp [sweep]
  | succ n ih =>
    unfold sweep
    simp only [hk]
    have hlen' : ¬ (((disk.walk rot.Path).filter
        (fun path => hasSuffix path ".zip")).length : Int) < keep := hlen
    have hsort' : sortStrings ((disk.walk rot.Path).filter
        (fun path => hasSuffix path ".zip")) = first :: rest := hsort
    simp only [hlen', ↓reduceIte, hsort', hrm]
    rw [ih]
    simp [List.replicate_succ]

/-- With no step budget `Rotate` stops where its retention loop would begin;
with a budget it goes on from there. -/
theorem Rotate_reaches_sweep (budget : Nat) (env : Env) (w : World)
    (h : (Rotate 0 env w).1 = Outcome.hang) :
    Rotate budget env w = sweep env budget 0 (Rotate 0 env w).2 := by
  unfold Rotate at h ⊢
  simp only at h ⊢
  split at h
  · split at h <;> cases h
  · split at h
    · cases h
    · rename_i hclose
      split at h
      · cases h
      · split at h
        · cases h
        · rename_i hentry
          split at h
          · cases h
          · rename_i content hopen
            split at h
            · split at h
              · cases h
              · rename_i hzc
                split at h
                · cases h
                · simp only [if_neg hclose, if_neg hentry, if_neg hzc, sweep]
            · rename_i o iw hno heq
              have := copyLoop_no_hang env (content.length + 1) 0
                (List.replicate blockSize 0) content ⟨[], false⟩ (Nat.lt_succ_self _)
              rw [heq] at this
              simp only at h this
              exact absurd h this

theorem removals_replicate (n : Nat) (p : String) (ok : Bool) :
    removals (List.replicate n (Event.remove p ok)) = List.replicate n (p, ok) := by
  induction n with
  | zero => rfl
  | succ n ih => simp [List.replicate_succ, removals, ih]

/-! ## A retention loop whose deletions succeed -/

theorem isBelow_irrefl (root : String) : isBelow root root = false := by
  unfold isBelow
  rw [Bool.eq_false_iff]
  intro h
  rw [List.isPrefixOf_iff_prefix] at h
  have := h.length_le
  simp [String.data_append] at this

theorem map_fst_filter_ne (l : List (String × Node)) (p : String) :
    (l.filter (fun e => e.1 != p)).map Prod.fst = (l.map Prod.fst).filter (fun q => q != p) := by
  induction l with
  | nil => rfl
  | cons e l ih =>
    by_cases h : (e.1 != p) = true
    · simp [List.filter_cons, h, ih]
    · simp [List.filter_cons, h, ih]

/-- The list the retention loop builds has no path twice. -/
theorem zipList_nodup (d : Disk) (root : String) (hnd : (d.tree.map Prod.fst).Nodup) :
    (zipList d root).Nodup := by
  unfold zipList Disk.walk
  apply List.Nodup.filter
  rw [List.nodup_cons]
  refine ⟨?_, hnd.filter _⟩
  intro h
  have := (List.mem_filter.mp h).2
  rw [isBelow_irrefl] at this
  cases this

/-- After a path other than the root has been unlinked, the list is the old
list without it. -/
theorem zipList_unlink (d : Disk) (root p : String) (hp : p ≠ root) :
    zipList { d with tree := d.tree.filter (fun e => e.1 != p) } root =
      (zipList d root).filter (fun q => q != p) := by
  unfold zipList Disk.walk
  have hr : (root != p) = true := by simpa using fun h => hp h.symm
  have e : ∀ l : List String,
      (root :: l).filter (fun q => q != p) = root :: l.filter (fun q => q != p) := by
    intro l
    rw [List.filter_cons, if_pos hr]
  rw [map_fst_filter_ne, List.filter_comm (fun q => q != p)
    (fun path => hasSuffix path ".zip"), e,
    List.filter_comm (fun q => q != p) (isBelow root)]

/-- A list of two or more paths holds a path below the root. -/
theorem hasChild_of_two (d : Disk) (root : String) (h : 2 ≤ (zipList d root).length) :
    d.hasChild root = true := by
  unfold zipList Disk.walk at h
  have hlen : 1 ≤ (((d.tree.map Prod.fst).filter (isBelow root)).filter
      (fun path => hasSuffix path ".zip")).length := by
    rw [List.filter_cons] at h
    split at h
    · simp only [List.length_cons] at h; omega
    · omega
  obtain ⟨q, hq⟩ := List.exists_mem_of_length_pos (by omega : 0 <
    (((d.tree.map Prod.fst).filter (isBelow root)).filter
      (fun path => hasSuffix path ".zip")).length)
  have hq1 := (List.mem_filter.mp (List.mem_filter.mp hq).1)
  obtain ⟨e, he, hfst⟩ := List.mem_map.mp hq1.1
  unfold Disk.hasChild
  rw [List.any_eq_true]
  exact ⟨e, he, by rw [hfst]; exact hq1.2⟩

/-- Once the smallest path is gone, sorting what is left gives the rest of the
sorted list. -/
theorem sortStrings_without_first {l rest : List String} {first : String} (hnd : l.Nodup)
    (hsort : sortStrings l = first :: rest) :
    sortStrings (l.filter (fun q => q != first)) = rest ∧ first ∉ rest := by
  have hnd' : (first :: rest).Nodup := by
    rw [← hsort]; exact (sortStrings_perm l).nodup_iff.mpr hnd
  have hnot : first ∉ rest := (List.nodup_cons.mp hnd').1
  refine ⟨?_, hnot⟩
  apply sorted_unique
  · have h1 : (sortStrings (l.filter (fun q => q != first))).Perm
        (l.filter (fun q => q != first)) := sortStrings_perm _
    have h2 : (l.filter (fun q => q != first)).Perm
        ((first :: rest).filter (fun q => q != first)) := by
      rw [← hsort]
      exact ((sortStrings_perm l).filter _).symm
    have h3 : (first :: rest).filter (fun q => q != first) = rest := by
      simp only [List.filter_cons, bne_self_eq_false, Bool.false_eq_true, ↓reduceIte]
      apply List.filter_eq_self.mpr
      intro q hq
      have : q ≠ first := by
        intro h
        subst h
        exact hnot hq
      simpa using this
    rw [h3] at h2
    exact h1.trans h2
  · exact sortStrings_sorted _
  · have := sortStrings_sorted l
    rw [hsort] at this
    exact this.tail

theorem sweep_done (env : Env) (budget k : Nat) (w : World) (keep : Int)
    (hk : w.rot.KeepFiles = some keep)
    (hlt : ((zipList w.disk w.rot.Path).length : Int) < keep) :
    sweep env (budget + 1) k w = (Outcome.ok, w) := by
  unfold zipList at hlt
  unfold sweep
  simp only [hk, hlt, ↓reduceIte]

theorem sweep_round (env : Env) (budget k : Nat) (w : World) (keep : Int)
    (first : String) (rest : List String)
    (hk : w.rot.KeepFiles = some keep)
    (hge : ¬ ((zipList w.disk w.rot.Path).length : Int) < keep)
    (hsort : sortStrings (zipList w.disk w.rot.Path) = first :: rest) :
    sweep env (budget + 1) k w =
      sweep env budget (k + 1)
        { w with disk := (w.disk.remove env k first).2,
                 log := w.log ++ [Event.remove first (w.disk.remove env k first).1] } := by
  unfold zipList at hge hsort
  rw [sweep]
  simp only [hk, hge, ↓reduceIte, hsort]

/-! ## Well-formed file systems stay well-formed -/

/-- Well-formedness is a matter of the tree and the inode counter only. -/
theorem Disk.WF_congr {d d' : Disk} (ht : d'.tree = d.tree) (hn : d'.next = d.next)
    (h : d.WF) : d'.WF := by
  unfold Disk.WF Disk.inodes at h ⊢
  rw [ht, hn]
  exact h

theorem Disk.create_WF {env : Env} {d d' : Disk} {p : String} {f : File}
    (h : d.create env p = some (f, d')) (hwf : d.WF) : d'.WF ∧ f.ino < d'.next := by
  obtain ⟨_, _, _, _, hcase⟩ := Disk.create_some h
  rcases hcase with ⟨hl, ht, hn⟩ | ⟨hl, hf, ht, hn⟩
  · refine ⟨Disk.WF_congr ht hn hwf, ?_⟩
    rw [hn]
    exact hwf.lt_next hl
  · refine ⟨?_, by omega⟩
    obtain ⟨h1, h2, h3⟩ := hwf
    unfold Disk.WF Disk.inodes at *
    rw [ht, hn]
    refine ⟨?_, ?_, ?_⟩
    · rw [List.map_append, List.nodup_append]
      refine ⟨h1, by simp, ?_⟩
      intro a ha hb
      simp only [List.map_cons, List.map_nil, List.mem_singleton] at hb
      subst hb
      exact (lookup_none_iff.mp hl) ha
    · rw [List.filterMap_append, List.nodup_append]
      refine ⟨h2, by simp [Node.ino?], ?_⟩
      intro a ha hb
      simp only [List.filterMap_cons, Node.ino?, List.filterMap_nil, List.mem_singleton] at hb
      subst hb
      exact absurd (h3 _ ha) (lt_irrefl _)
    · intro i hi
      rw [List.filterMap_append, List.mem_append] at hi
      rcases hi with hi | hi
      · exact Nat.lt_succ_of_lt (h3 i hi)
      · simp only [List.filterMap_cons, Node.ino?, List.filterMap_nil, List.mem_singleton] at hi
        omega

theorem Disk.filter_WF {d : Disk} (q : String × Node → Bool) (hwf : d.WF) :
    Disk.WF { d with tree := d.tree.filter q } := by
  obtain ⟨h1, h2, h3⟩ := hwf
  unfold Disk.WF Disk.inodes at *
  have hsub : (d.tree.filter q).Sublist d.tree := List.filter_sublist _
  refine ⟨(hsub.map _).nodup h1, (hsub.filterMap _).nodup h2, ?_⟩
  intro i hi
  exact h3 i ((hsub.filterMap _).subset hi)

theorem Disk.remove_WF (env : Env) (k : Nat) (d : Disk) (p : String) (hwf : d.WF) :
    (d.remove env k p).2.WF := by
  obtain ⟨_, hn, ht⟩ := Disk.remove_spec env k d p
  split at ht
  · exact Disk.WF_congr (d := { d with tree := d.tree.filter (fun e => e.1 != p) }) ht hn
      (Disk.filter_WF _ hwf)
  · exact Disk.WF_congr ht hn hwf

theorem sweep_WF (env : Env) (budget k : Nat) (w : World) (hwf : w.disk.WF) :
    (sweep env budget k w).2.disk.WF := by
  obtain ⟨rs, _, _, _, hn, ht, _⟩ := sweep_frame env budget k w
  exact Disk.WF_congr (d := { w.disk with tree := w.disk.tree.filter _ }) ht hn
    (Disk.filter_WF _ hwf)

/-- Whatever `Rotate` does and however it ends, it leaves a well-formed file
system well-formed. -/
theorem Rotate_WF (budget : Nat) (env : Env) (w : World) (hwf : w.disk.WF) :
    (Rotate budget env w).2.disk.WF := by
  unfold Rotate
  simp only
  split
  · split
    · exact hwf
    · rename_i hcreate
      exact (Disk.create_WF hcreate hwf).1
  · split
    · exact hwf
    · split
      · exact hwf
      · rename_i zipFile d1 hzip
        have h1 := (Disk.create_WF hzip hwf).1
        split
        · exact h1
        · split
          · exact h1
          · split
            · split
              · exact h1
              · rename_i iow _ _
                have h1' : ∀ image : List Byte,
                    Disk.WF { d1 with data := (Function.update d1.data zipFile.ino image) } :=
                  fun _ => Disk.WF_congr rfl rfl h1
                split
                · exact h1' _
                · rename_i hcreate
                  exact sweep_WF env budget 0 _ (Disk.create_WF hcreate (h1' _)).1
            · exact h1

theorem writeCurrent_WF (env : Env) (w : World) (line : List Byte) (hwf : w.disk.WF) :
    (writeCurrent env w line).2.disk.WF := by
  unfold writeCurrent
  simp only
  split
  · exact hwf
  · split
    · exact hwf
    · exact Disk.WF_congr rfl rfl hwf

/-- Whatever `WriteLine` does and however it ends, it leaves a well-formed
file system well-formed. -/
theorem WriteLine_WF (budget : Nat) (env : Env) (w : World) (line : List Byte)
    (hwf : w.disk.WF) : (WriteLine budget env w line).2.disk.WF := by
  unfold WriteLine
  split
  · exact hwf
  · split
    · rename_i w1 hr
      have := Rotate_WF budget env w hwf
      rw [hr] at this
      exact writeCurrent_WF env w1 line this
    · exact Rotate_WF budget env w hwf
  · exact writeCurrent_WF env w line hwf

/-! ## The rotator and its file -/

theorem lookup_filter_key (l : List (String × Node)) (q : String → Bool) (p : String) :
    (l.filter (fun e => q e.1)).lookup p = if q p = true then l.lookup p else none := by
  induction l with
  | nil => simp [List.lookup]
  | cons e l ih =>
    obtain ⟨a, m⟩ := e
    by_cases hpa : p = a
    · subst hpa
      by_cases hq : q p = true
      · simp [List.filter_cons, hq, List.lookup]
      · simp only [List.filter_cons, hq, Bool.false_eq_true, ↓reduceIte]
        rw [ih]
        simp [hq]
    · have hb : (p == a) = false := by simpa using hpa
      by_cases hqa : q a = true
      · simp only [List.filter_cons, hqa, ↓reduceIte, List.lookup, hb]
        exact ih
      · simp only [List.filter_cons, hqa, Bool.false_eq_true, ↓reduceIte, List.lookup, hb]
        exact ih

/-- The retention loop keeps the invariant: if it unlinks the base-name path,
the file behind it has no other path. -/
theorem sweep_HandleInv (env : Env) (budget k : Nat) (w : World) (cur : File)
    (hwf : w.disk.WF) (hc : w.rot.current = some cur) (hlt : cur.ino < w.disk.next)
    (hl : w.disk.lookup (FilePath w.rot 0) = some (Node.file cur.ino)) :
    HandleInv (sweep env budget k w).2 := by
  obtain ⟨rs, _, hrot, _, hn, ht, _⟩ := sweep_frame env budget k w
  refine ⟨sweep_WF env budget k w hwf, ?_⟩
  intro c hcur
  rw [hrot, hc] at hcur
  simp only [Option.some.injEq] at hcur
  subst hcur
  rw [hn, hrot]
  refine ⟨hlt, ?_⟩
  by_cases hq : (!(rs.any (fun x => x.2 && x.1 == FilePath w.rot 0))) = true
  · left
    unfold Disk.lookup at hl ⊢
    rw [ht, lookup_filter_key w.disk.tree
      (fun p => !(rs.any (fun x => x.2 && x.1 == p))) (FilePath w.rot 0), if_pos hq]
    exact hl
  · right
    constructor
    · unfold Disk.lookup
      rw [ht, lookup_filter_key w.disk.tree
        (fun p => !(rs.any (fun x => x.2 && x.1 == p))) (FilePath w.rot 0), if_neg hq]
    · intro hmem
      unfold Disk.inodes at hmem
      rw [ht, List.mem_filterMap] at hmem
      obtain ⟨e, he, hino⟩ := hmem
      obtain ⟨he1, he2⟩ := List.mem_filter.mp he
      obtain ⟨a, m⟩ := e
      cases m with
      | dir => simp [Node.ino?] at hino
      | file i =>
        simp only [Node.ino?, Option.some.injEq] at hino
        subst hino
        have := inodes_nodup_inj hwf.2.1 he1 (lookup_mem hl)
        simp only at this he2
        subst this
        exact hq he2


/-- Where a later rotation can end: before the active file is created anew,
with the old file closed and at most the archive file added to the tree; or
in the retention loop, with the active file created anew. -/
theorem Rotate_next_cases (budget : Nat) (env : Env) (w : World) (old : File)
    (hc : w.rot.current = some old) :
    ((Rotate budget env w).2.rot =
        { w.rot with current := some { old with closed := true } } ∧
      ((Rotate budget env w).2.disk = w.disk ∨
        ∃ zipFile d1 data, w.disk.create env (zipFilePath env w.rot) = some (zipFile, d1) ∧
          (Rotate budget env w).2.disk = { d1 with data := data })) ∨
    (∃ zipFile d1 data cur d2 log,
      w.disk.create env (zipFilePath env w.rot) = some (zipFile, d1) ∧
      Disk.create env { d1 with data := data } (FilePath w.rot 0) = some (cur, d2) ∧
      Rotate budget env w =
        sweep env budget 0
          ⟨{ w.rot with current := some cur, current_size := 0 }, d2, log⟩) := by
  unfold Rotate
  simp only [hc]
  split
  · exact Or.inl ⟨rfl, Or.inl rfl⟩
  · split
    · exact Or.inl ⟨rfl, Or.inl rfl⟩
    · rename_i zipFile d1 hzip
      split
      · exact Or.inl ⟨rfl, Or.inr ⟨zipFile, d1, d1.data, hzip, rfl⟩⟩
      · split
        · exact Or.inl ⟨rfl, Or.inr ⟨zipFile, d1, d1.data, hzip, rfl⟩⟩
        · split
          · split
            · exact Or.inl ⟨rfl, Or.inr ⟨zipFile, d1, d1.data, hzip, rfl⟩⟩
            · split
              · exact Or.inl ⟨rfl, Or.inr ⟨zipFile, d1, _, hzip, rfl⟩⟩
              · rename_i cur d2 hcreate
                exact Or.inr ⟨zipFile, d1, _, cur, d2, _, hzip, hcreate, rfl⟩
          · exact Or.inl ⟨rfl, Or.inr ⟨zipFile, d1, d1.data, hzip, rfl⟩⟩

/-- Creating another path leaves a file linked where it was, or without a path. -/
theorem Disk.create_other {env : Env} {d d' : Disk} {p q : String} {f : File} {i : Nat}
    (h : d.create env p = some (f, d')) (hq : q ≠ p) (hi : i < d.next)
    (hcase : d.lookup q = some (Node.file i) ∨ (d.lookup q = none ∧ i ∉ d.inodes)) :
    i < d'.next ∧
    (d'.lookup q = some (Node.file i) ∨ (d'.lookup q = none ∧ i ∉ d'.inodes)) := by
  obtain ⟨_, _, _, hl, hc⟩ := Disk.create_some h
  rw [hl q hq]
  rcases hc with ⟨_, ht, hn⟩ | ⟨_, _, ht, hn⟩
  · refine ⟨by omega, ?_⟩
    unfold Disk.inodes at hcase ⊢
    rw [ht]
    exact hcase
  · refine ⟨by omega, ?_⟩
    rcases hcase with hcase | ⟨h1, h2⟩
    · exact Or.inl hcase
    · right
      refine ⟨h1, ?_⟩
      unfold Disk.inodes at h2 ⊢
      rw [ht, List.filterMap_append, List.mem_append]
      rintro (hm | hm)
      · exact h2 hm
      · simp only [List.filterMap_cons, Node.ino?, List.filterMap_nil,
          List.mem_singleton] at hm
        omega

/-- Whatever `Rotate` does and however it ends, it keeps the invariant. -/
theorem Rotate_HandleInv (budget : Nat) (env : Env) (w : World) (h : HandleInv w) :
    HandleInv (Rotate budget env w).2 := by
  obtain ⟨hwf, hcur⟩ := h
  cases hc : w.rot.current with
  | none =>
    rw [Rotate_first hc]
    split
    · refine ⟨hwf, ?_⟩
      intro c hc'
      simp only [hc] at hc'
      cases hc'
    · rename_i cur d hcreate
      obtain ⟨hwf', hlt⟩ := Disk.create_WF hcreate hwf
      obtain ⟨_, _, hl, _, _⟩ := Disk.create_some hcreate
      refine ⟨hwf', ?_⟩
      intro c hc'
      simp only [Option.some.injEq] at hc'
      subst hc'
      exact ⟨hlt, Or.inl hl⟩
  | some old =>
    obtain ⟨hlt, hcase⟩ := hcur old hc
    have hne : FilePath w.rot 0 ≠ zipFilePath env w.rot :=
      fun e => zipFilePath_ne_FilePath env w.rot e.symm
    rcases Rotate_next_cases budget env w old hc with
      ⟨hrot, hdisk⟩ | ⟨zipFile, d1, data, cur, d2, log, hzip, hcreate, hrun⟩
    · refine ⟨Rotate_WF budget env w hwf, ?_⟩
      intro c hc'
      rw [hrot] at hc' ⊢
      simp only [Option.some.injEq] at hc'
      subst hc'
      have hfp : FilePath { w.rot with current := some { old with closed := true } } 0 =
          FilePath w.rot 0 := rfl
      rw [hfp]
      rcases hdisk with hd | ⟨zipFile, d1, data, hzip, hd⟩
      · rw [hd]
        exact ⟨hlt, hcase⟩
      · rw [hd]
        have hkeep := Disk.create_other hzip hne hlt hcase
        exact hkeep
    · rw [hrun]
      have hwf1 : Disk.WF { d1 with data := data } :=
        Disk.WF_congr rfl rfl (Disk.create_WF hzip hwf).1
      obtain ⟨hwf2, hlt2⟩ := Disk.create_WF hcreate hwf1
      obtain ⟨_, _, hl2, _, _⟩ := Disk.create_some hcreate
      exact sweep_HandleInv env budget 0 _ cur hwf2 rfl hlt2 hl2

theorem writeCurrent_HandleInv (env : Env) (w : World) (line : List Byte) (h : HandleInv w) :
    HandleInv (writeCurrent env w line).2 := by
  unfold writeCurrent
  simp only
  split
  · exact h
  · split
    · exact h
    · exact h

/-- Whatever `WriteLine` does and however it ends, it keeps the invariant. -/
theorem WriteLine_HandleInv (budget : Nat) (env : Env) (w : World) (line : List Byte)
    (h : HandleInv w) : HandleInv (WriteLine budget env w line).2 := by
  unfold WriteLine
  split
  · exact h
  · split
    · rename_i w1 hr
      have := Rotate_HandleInv budget env w h
      rw [hr] at this
      exact writeCurrent_HandleInv env w1 line this
    · exact Rotate_HandleInv budget env w h
  · exact writeCurrent_HandleInv env w line h

/-- Every world the rotator reaches satisfies the invariant. -/
theorem Reachable.handleInv {w : World} (h : Reachable w) : HandleInv w := by
  induction h with
  | start w hwf hc =>
    refine ⟨hwf, ?_⟩
    intro c hc'
    rw [hc] at hc'
    cases hc'
  | writeLine w budget env line _ ih => exact WriteLine_HandleInv budget env w line ih
  | rotate w budget env _ ih => exact Rotate_HandleInv budget env w ih

/-- In a world that satisfies the invariant, a later rotation that returns nil
began with the active file open: the handle was open and the base-name path
led to its file. -/
theorem ActiveOpen_of_Rotate_ok {budget : Nat} {env : Env} {w w' : World} {cur : File}
    (hinv : HandleInv w) (hc : w.rot.current = some cur)
    (hok : Rotate budget env w = (Outcome.ok, w')) : ActiveOpen w cur := by
  obtain ⟨hclosed, zipFile, d1, content, iow, cur', d2, hzip, hread, _⟩ := Rotate_next_ok hc hok
  refine ⟨hc, hclosed, ?_⟩
  have hne : FilePath w.rot 0 ≠ zipFilePath env w.rot :=
    fun e => zipFilePath_ne_FilePath env w.rot e.symm
  obtain ⟨_, hcase⟩ := hinv.2 cur hc
  rcases hcase with h1 | ⟨h1, _⟩
  · exact h1
  · exfalso
    obtain ⟨_, _, _, hl, _⟩ := Disk.create_some hzip
    unfold Disk.openRead at hread
    split at hread
    · cases hread
    · rw [hl _ hne, h1] at hread
      cases hread

/-- The scenario's world after two writes is one the rotator reaches. -/
theorem afterWorld_reachable : Reachable afterWorld :=
  Reachable.writeLine afterHello 8 (Env.calm 1700000001000000000) (ascii "world!")
    (Reachable.writeLine freshWorld 8 (Env.calm 1700000000000000000) (ascii "hello")
      (Reachable.start freshWorld (by decide) (by decide)))

/-! ## Names of files -/

/-- Two names that continue a common beginning with different characters are
different paths. -/
theorem joinPath_ne_of_next_char (dir name a b : String) (x y : Char) (hxy : x ≠ y)
    (ha : a.data.head? = some x) (hb : b.data.head? = some y) :
    joinPath dir (name ++ a) ≠ joinPath dir (name ++ b) := by
  intro h
  have hd := congrArg String.data h
  unfold joinPath at hd
  simp only [String.data_append, List.append_assoc] at hd
  have h1 := List.append_cancel_left (List.append_cancel_left (List.append_cancel_left hd))
  rw [h1, hb] at ha
  simp only [Option.some.injEq] at ha
  exact hxy ha.symm

/-- Whatever happens, `Rotate` completes at most one archive: the one at the
timestamped path, with one entry, named `Name`. -/
theorem Rotate_archives (budget : Nat) (env : Env) (w : World) :
    ∃ l, (Rotate budget env w).2.log = w.log ++ l ∧
      (archivesMade l = [] ∨
        ∃ bytes, archivesMade l = [(zipFilePath env w.rot, [(w.rot.Name, bytes)])]) := by
  unfold Rotate
  simp only
  split
  · split
    · exact ⟨[Event.rotate], rfl, Or.inl rfl⟩
    · exact ⟨[Event.rotate], rfl, Or.inl rfl⟩
  · split
    · exact ⟨[Event.rotate], rfl, Or.inl rfl⟩
    · split
      · exact ⟨[Event.rotate], rfl, Or.inl rfl⟩
      · split
        · exact ⟨[Event.rotate], rfl, Or.inl rfl⟩
        · split
          · exact ⟨[Event.rotate], rfl, Or.inl rfl⟩
          · split
            · split
              · exact ⟨[Event.rotate], rfl, Or.inl rfl⟩
              · rename_i iow _ _
                split
                · exact ⟨[Event.rotate, Event.archived _ _], List.append_assoc _ _ _,
                    Or.inr ⟨iow.bytes, rfl⟩⟩
                · obtain ⟨rs, h1, _⟩ := sweep_frame env budget 0 _
                  rw [h1]
                  refine ⟨[Event.rotate, Event.archived _ _] ++
                    rs.map (fun x => Event.remove x.1 x.2),
                    by simp only [List.append_assoc]; rfl, Or.inr ⟨iow.bytes, ?_⟩⟩
                  rw [archivesMade_append, (removals_map rs).2.1]
                  rfl
            · exact ⟨[Event.rotate], rfl, Or.inl rfl⟩

/-- The decimal form of the milliseconds of a clock that is not before the epoch. -/
theorem zipFilePath_millis (env : Env) (r : FileRotator) (t : Nat)
    (h0 : 0 ≤ env.nowNanos) (ht : env.nowNanos / 1000000 = t) :
    zipFilePath env r = r.Path ++ "/" ++ (r.Name ++ "-" ++ toString t ++ ".zip") := by
  unfold zipFilePath joinPath
  have : Int.tdiv env.nowNanos 1000000 = (t : Int) := by
    rw [← ht]
    exact Int.tdiv_eq_ediv h0 (by decide)
  simp only [this]
  rfl

/-- Whatever happens, `Rotate` calls `os.Remove` only on paths that end in ".zip". -/
theorem Rotate_removals (budget : Nat) (env : Env) (w : World) :
    ∃ l, (Rotate budget env w).2.log = w.log ++ l ∧
      ∀ x ∈ removals l, hasSuffix x.1 ".zip" = true := by
  have hno : ∀ x ∈ removals [Event.rotate], hasSuffix x.1 ".zip" = true := by
    intro x hx; simp [removals] at hx
  unfold Rotate
  simp only
  split
  · split
    · exact ⟨[Event.rotate], rfl, hno⟩
    · exact ⟨[Event.rotate], rfl, hno⟩
  · split
    · exact ⟨[Event.rotate], rfl, hno⟩
    · split
      · exact ⟨[Event.rotate], rfl, hno⟩
      · split
        · exact ⟨[Event.rotate], rfl, hno⟩
        · split
          · exact ⟨[Event.rotate], rfl, hno⟩
          · split
            · split
              · exact ⟨[Event.rotate], rfl, hno⟩
              · split
                · refine ⟨[Event.rotate, Event.archived _ _], List.append_assoc _ _ _, ?_⟩
                  intro x hx; simp [removals] at hx
                · obtain ⟨rs, h1, _, _, _, _, h6⟩ := sweep_frame env budget 0 _
                  rw [h1]
                  refine ⟨[Event.rotate, Event.archived _ _] ++
                    rs.map (fun x => Event.remove x.1 x.2),
                    by simp only [List.append_assoc]; rfl, ?_⟩
                  rw [removals_append, (removals_map rs).1]
                  intro x hx
                  simp only [removals, List.nil_append] at hx
                  exact h6 x hx
            · exact ⟨[Event.rotate], rfl, hno⟩

theorem Disk.create_tree_mono {env : Env} {d d' : Disk} {p : String} {f : File}
    (h : d.create env p = some (f, d')) : ∀ e ∈ d.tree, e ∈ d'.tree := by
  intro e he
  rcases (Disk.create_some h).2.2.2.2 with ⟨_, ht, _⟩ | ⟨_, _, ht, _⟩
  · rw [ht]; exact he
  · rw [ht]; exact List.mem_append_left _ he

/-- The retention loop keeps every entry whose path does not end in ".zip". -/
theorem sweep_keeps (env : Env) (budget k : Nat) (w : World) :
    ∀ e ∈ w.disk.tree, hasSuffix e.1 ".zip" = false → e ∈ (sweep env budget k w).2.disk.tree := by
  intro e he hs
  obtain ⟨rs, _, _, _, _, ht, h6⟩ := sweep_frame env budget k w
  rw [ht, List.mem_filter]
  refine ⟨he, ?_⟩
  simp only [Bool.not_eq_true_eq_eq_false, List.any_eq_false, Bool.and_eq_true, beq_iff_eq, not_and]
  intro x hx _ hxe
  have := h6 x hx
  rw [hxe, hs] at this
  cases this

/-- Whatever happens, `Rotate` keeps every entry whose path does not end in ".zip". -/
theorem Rotate_keeps (budget : Nat) (env : Env) (w : World) :
    ∀ e ∈ w.disk.tree, hasSuffix e.1 ".zip" = false →
      e ∈ (Rotate budget env w).2.disk.tree := by
  intro e he hs
  cases hc : w.rot.current with
  | none =>
    rw [Rotate_first hc]
    split
    · exact he
    · rename_i cur d2 hcreate
      exact Disk.create_tree_mono hcreate e he
  | some old =>
    rcases Rotate_next_cases budget env w old hc with ⟨_, hd | ⟨zipFile, d1, data, hzip, hd⟩⟩ |
      ⟨zipFile, d1, data, cur, d2, log, hzip, hcreate, hrun⟩
    · rw [hd]; exact he
    · rw [hd]; exact Disk.create_tree_mono hzip e he
    · rw [hrun]
      apply sweep_keeps
      · exact Disk.create_tree_mono hcreate e (Disk.create_tree_mono hzip e he)
      · exact hs

theorem mem_zipList (d : Disk) (root p : String) :
    p ∈ zipList d root ↔
      (p = root ∨ (p ∈ d.tree.map Prod.fst ∧ isBelow root p = true)) ∧
        hasSuffix p ".zip" = true := by
  unfold zipList Disk.walk
  simp only [List.mem_filter, List.mem_cons]

theorem zipList_remove_subset (env : Env) (k : Nat) (d : Disk) (first root : String) :
    ∀ p ∈ zipList (d.remove env k first).2 root, p ∈ zipList d root := by
  intro p hp
  rw [mem_zipList] at hp ⊢
  refine ⟨?_, hp.2⟩
  rcases hp.1 with h | ⟨h1, h2⟩
  · exact Or.inl h
  · refine Or.inr ⟨?_, h2⟩
    rw [(Disk.remove_spec env k d first).2.2] at h1
    split at h1
    · rw [map_fst_filter_ne] at h1
      exact (List.mem_filter.mp h1).1
    · exact h1

/-- Every path the retention loop calls `os.Remove` on is a walked path that
ends in ".zip", as the walk finds them when the loop starts. -/
theorem sweep_removals_mem (env : Env) (budget k : Nat) (w : World) :
    ∀ x ∈ removals (since w (sweep env budget k w).2), x.1 ∈ zipList w.disk w.rot.Path := by
  induction budget generalizing k w with
  | zero =>
    intro x hx
    simp [sweep, since, removals] at hx
  | succ b ih =>
    intro x hx
    cases hk : w.rot.KeepFiles with
    | none =>
      have : sweep env (b + 1) k w = (Outcome.crash, w) := by
        unfold sweep; simp only [hk]
      rw [this] at hx
      simp [since, removals] at hx
    | some keep =>
      by_cases hlt : ((zipList w.disk w.rot.Path).length : Int) < keep
      · rw [sweep_done env b k w keep hk hlt] at hx
        simp [since, removals] at hx
      · cases hsort : sortStrings (zipList w.disk w.rot.Path) with
        | nil =>
          have : sweep env (b + 1) k w = (Outcome.crash, w) := by
            unfold sweep
            simp only [hk]
            have hlt' : ¬ (((w.disk.walk w.rot.Path).filter
                (fun path => hasSuffix path ".zip")).length : Int) < keep := hlt
            rw [if_neg hlt']
            have h' : sortStrings ((w.disk.walk w.rot.Path).filter
                (fun path => hasSuffix path ".zip")) = [] := hsort
            rw [h']
          rw [this] at hx
          simp [since, removals] at hx
        | cons first rest =>
          rw [sweep_round env b k w keep first rest hk hlt hsort] at hx
          obtain ⟨rs, hlog, _⟩ := sweep_frame env b (k + 1)
            { w with disk := (w.disk.remove env k first).2,
                     log := w.log ++ [Event.remove first (w.disk.remove env k first).1] }
          have hsince : since w (sweep env b (k + 1)
              { w with disk := (w.disk.remove env k first).2,
                       log := w.log ++ [Event.remove first (w.disk.remove env k first).1] }).2 =
              Event.remove first (w.disk.remove env k first).1 ::
                rs.map (fun x => Event.remove x.1 x.2) := by
            apply since_append
            rw [hlog]
            simp
          have hsince1 : since
              { w with disk := (w.disk.remove env k first).2,
                       log := w.log ++ [Event.remove first (w.disk.remove env k first).1] }
              (sweep env b (k + 1)
              { w with disk := (w.disk.remove env k first).2,
                       log := w.log ++ [Event.remove first (w.disk.remove env k first).1] }).2 =
                rs.map (fun x => Event.remove x.1 x.2) := since_append _ _ _ hlog
          have hih := ih (k + 1)
            { w with disk := (w.disk.remove env k first).2,
                     log := w.log ++ [Event.remove first (w.disk.remove env k first).1] }
          rw [hsince1] at hih
          rw [hsince] at hx
          simp only [removals, List.mem_cons] at hx
          rcases hx with hx | hx
          · rw [hx]
            have := mem_zipList_of_sorted_head hsort
            exact List.mem_filter.mpr ⟨this.1, this.2⟩
          · exact zipList_remove_subset env k w.disk first w.rot.Path _ (hih x hx)

theorem zipEntries_mem_zipList (d : Disk) (dir : String) :
    ∀ e ∈ zipEntries d dir, e.1 ∈ zipList d dir := by
  intro e he
  unfold zipEntries at he
  rw [List.mem_filter] at he
  obtain ⟨hmem, hq⟩ := he
  split at hq
  · rename_i name hname
    obtain ⟨h1, h2⟩ := hasSuffix_of_nameIn hname hq
    rw [mem_zipList]
    exact ⟨Or.inr ⟨List.mem_map_of_mem _ hmem, h2⟩, h1⟩
  · cases hq

theorem EntryWriter.write_failed_eq (env : Env) (k : Nat) (z : EntryWriter) (chunk : List Byte) :
    (z.write env k chunk).failed = (z.failed || env.entryWriteFails k) := by
  cases hz : z.failed <;> cases he : env.entryWriteFails k <;>
    simp [EntryWriter.write, hz, he]

/-- How the copy loop ends: with a read error when one of the reads it makes
fails, and else at EOF, the entry writer having failed when one of the writes
it makes fails. -/
theorem copyLoop_outcome (env : Env) (b : Nat) :
    ∀ (k : Nat) (bytes rest : List Byte) (iow : EntryWriter), rest.length ≤ b →
      ((∃ j, j ≤ chunkCount env b k rest.length ∧ env.readFails (k + j) = true) →
        (copyLoop env (b + 1) k bytes rest iow).1 = Outcome.error Err.read) ∧
      ((∀ j, j ≤ chunkCount env b k rest.length → env.readFails (k + j) = false) →
        (copyLoop env (b + 1) k bytes rest iow).1 = Outcome.ok ∧
        ((copyLoop env (b + 1) k bytes rest iow).2.failed = true ↔
          (iow.failed = true ∨
            ∃ j, j < chunkCount env b k rest.length ∧ env.entryWriteFails (k + j) = true))) := by
  induction b with
  | zero =>
    intro k bytes rest iow hlen
    have hrest : rest = [] := List.length_eq_zero.mp (by omega)
    subst hrest
    constructor
    · rintro ⟨j, hj, hf⟩
      simp only [chunkCount, Nat.le_zero_eq] at hj
      subst hj
      simp only [copyLoop, Nat.add_zero] at hf ⊢
      simp only [hf, ↓reduceIte]
    · intro hall
      have h0 := hall 0 (Nat.zero_le _)
      simp only [Nat.add_zero] at h0
      simp only [copyLoop, h0, Bool.false_eq_true, ↓reduceIte, List.isEmpty_nil, chunkCount,
        Nat.not_lt_zero, false_and, exists_false, or_false, and_self]
  | succ b ih =>
    intro k bytes rest iow hlen
    by_cases hk : env.readFails k = true
    · constructor
      · intro _
        simp only [copyLoop, hk, ↓reduceIte]
      · intro hall
        have h0 := hall 0 (Nat.zero_le _)
        simp only [Nat.add_zero] at h0
        rw [h0] at hk
        cases hk
    · simp only [Bool.not_eq_true] at hk
      by_cases hrest : rest = []
      · subst hrest
        constructor
        · rintro ⟨j, hj, hf⟩
          simp only [chunkCount, List.length_nil, ↓reduceIte, Nat.le_zero_eq] at hj
          subst hj
          simp only [Nat.add_zero] at hf
          rw [hf] at hk
          cases hk
        · intro _
          simp only [copyLoop, hk, Bool.false_eq_true, ↓reduceIte, List.isEmpty_nil, chunkCount,
            List.length_nil, Nat.not_lt_zero, false_and, exists_false, or_false, and_self]
      · have hpos : 0 < rest.length := List.length_pos.mpr hrest
        have hne : ¬ rest.length = 0 := by omega
        have hemp : rest.isEmpty = false := by
          cases rest with
          | nil => exact absurd rfl hrest
          | cons a l => rfl
        have hr := readLen_pos env k blockSize_pos hpos
        have hr2 := (readLen_le env blockSize k rest.length).2
        have hcc : chunkCount env (b + 1) k rest.length =
            1 + chunkCount env b (k + 1)
              (rest.drop (readLen env blockSize k rest.length)).length := by
          simp only [chunkCount, hne, ↓reduceIte, List.length_drop]
        have hdrop : (rest.drop (readLen env blockSize k rest.length)).length ≤ b := by
          rw [List.length_drop]; omega
        -- one round of the loop, whatever the chunk written
        have hstep : ∃ chunk bytes',
            copyLoop env (b + 1 + 1) k bytes rest iow =
              copyLoop env (b + 1) (k + 1) bytes'
                (rest.drop (readLen env blockSize k rest.length)) (iow.write env k chunk) := by
          by_cases hfull : readLen env blockSize k rest.length ≥ blockSize
          · refine ⟨rest.take (readLen env blockSize k rest.length) ++
                bytes.drop (readLen env blockSize k rest.length),
              rest.take (readLen env blockSize k rest.length) ++
                bytes.drop (readLen env blockSize k rest.length), ?_⟩
            rw [copyLoop]
            simp only [hk, Bool.false_eq_true, ↓reduceIte, hemp, hfull]
          · refine ⟨(rest.take (readLen env blockSize k rest.length) ++
                bytes.drop (readLen env blockSize k rest.length)).take
                  (readLen env blockSize k rest.length),
              rest.take (readLen env blockSize k rest.length) ++
                bytes.drop (readLen env blockSize k rest.length), ?_⟩
            rw [copyLoop]
            simp only [hk, Bool.false_eq_true, ↓reduceIte, hemp, hfull]
        obtain ⟨chunk, bytes', hstep⟩ := hstep
        rw [hstep, hcc]
        obtain ⟨ih1, ih2⟩ := ih (k + 1) bytes'
          (rest.drop (readLen env blockSize k rest.length)) (iow.write env k chunk) hdrop
        constructor
        · rintro ⟨j, hj, hf⟩
          apply ih1
          cases j with
          | zero =>
            simp only [Nat.add_zero] at hf
            rw [hf] at hk
            cases hk
          | succ j =>
            refine ⟨j, by omega, ?_⟩
            rw [← hf]
            congr 1
            omega
        · intro hall
          have hall' : ∀ j, j ≤ chunkCount env b (k + 1)
              (rest.drop (readLen env blockSize k rest.length)).length →
              env.readFails (k + 1 + j) = false := by
            intro j hj
            have := hall (j + 1) (by omega)
            rw [← this]
            congr 1
            omega
          obtain ⟨hok, hiff⟩ := ih2 hall'
          refine ⟨hok, ?_⟩
          rw [hiff, EntryWriter.write_failed_eq, Bool.or_eq_true]
          constructor
          · rintro ((h | h) | ⟨j, hj, hf⟩)
            · exact Or.inl h
            · exact Or.inr ⟨0, by omega, h⟩
            · refine Or.inr ⟨j + 1, by omega, ?_⟩
              rw [← hf]
              congr 1
              omega
          · rintro (h | ⟨j, hj, hf⟩)
            · exact Or.inl (Or.inl h)
            · cases j with
              | zero => exact Or.inl (Or.inr hf)
              | succ j =>
                refine Or.inr ⟨j, by omega, ?_⟩
                rw [← hf]
                congr 1
                omega

/-- The copy loop as `Rotate` starts it, on a file of the given content. -/
theorem copyLoop_start (env : Env) (content : List Byte) :
    ((∃ j, j ≤ chunkCount env content.length 0 content.length ∧ env.readFails j = true) →
      (copyLoop env (content.length + 1) 0 (List.replicate blockSize 0) content ⟨[], false⟩).1 =
        Outcome.error Err.read) ∧
    ((∀ j, j ≤ chunkCount env content.length 0 content.length → env.readFails j = false) →
      (copyLoop env (content.length + 1) 0 (List.replicate blockSize 0) content ⟨[], false⟩).1 =
        Outcome.ok ∧
      (((copyLoop env (content.length + 1) 0 (List.replicate blockSize 0) content
          ⟨[], false⟩).2.failed = true) ↔
        ∃ j, j < chunkCount env content.length 0 content.length ∧
          env.entryWriteFails j = true) ∧
      ((copyLoop env (content.length + 1) 0 (List.replicate blockSize 0) content
          ⟨[], false⟩).2.failed = false →
        (copyLoop env (content.length + 1) 0 (List.replicate blockSize 0) content
          ⟨[], false⟩).2.bytes = content)) := by
  have h := copyLoop_outcome env content.length 0 (List.replicate blockSize 0) content
    ⟨[], false⟩ (Nat.le_refl _)
  simp only [Nat.zero_add, Bool.false_eq_true, false_or] at h
  refine ⟨h.1, fun hall => ⟨(h.2 hall).1, (h.2 hall).2, fun hf => ?_⟩⟩
  have hok := (h.2 hall).1
  have := (copyLoop_ok env _ _ _ _ ⟨[], false⟩ _ (List.length_replicate _ _)
    (Prod.ext hok rfl) hf).2
  simpa using this

/-- A `Rotate` that returns nil leaves the rotator with an open handle on the
file at the base-name path, when `Name` does not end in ".zip". -/
theorem Rotate_ok_active {budget : Nat} {env : Env} {w w' : World}
    (hn : hasSuffix w.rot.Name ".zip" = false)
    (hok : Rotate budget env w = (Outcome.ok, w')) : ∃ cur, ActiveOpen w' cur := by
  have hfp : hasSuffix (FilePath w.rot 0) ".zip" = false := by
    rw [FilePath_zero, hasSuffix_joinPath]; exact hn
  cases hc : w.rot.current with
  | none =>
    obtain ⟨cur, h1, h2, h3, _⟩ := Rotate_first_spec hc hok
    refine ⟨cur, ?_, h2, ?_⟩
    · rw [h1]
    · have : FilePath w'.rot 0 = FilePath w.rot 0 := by rw [h1]; rfl
      rw [this]; exact h3
  | some old =>
    obtain ⟨_, zipFile, d1, content, iow, cur, d2, _, _, _, _, hcreate, hsweep⟩ :=
      Rotate_next_ok hc hok
    obtain ⟨hcl, _, hl2, _⟩ := Disk.create_some hcreate
    obtain ⟨rs2, _, hrot2, _, _, htree2, hzip2⟩ := sweep_frame env budget 0
      { rot := { w.rot with current := some cur, current_size := 0 }
        disk := d2
        log := w.log ++ [Event.rotate] ++
          [Event.archived (zipFilePath env w.rot) [(w.rot.Name, iow.bytes)]] }
    rw [hsweep] at hrot2 htree2
    simp only at hrot2 htree2
    refine ⟨cur, ?_, hcl, ?_⟩
    · rw [hrot2]
    · have : FilePath w'.rot 0 = FilePath w.rot 0 := by rw [hrot2]; rfl
      rw [this]
      unfold Disk.lookup
      rw [htree2, lookup_filter_key d2.tree (fun p => !(rs2.any (fun x => x.2 && x.1 == p))),
        if_pos]
      · exact hl2
      · simp only [Bool.not_eq_true_eq_eq_false, List.any_eq_false, Bool.and_eq_true,
          beq_iff_eq, not_and]
        intro x hx _ hxe
        have := hzip2 x hx
        rw [hxe, hfp] at this
        cases this

theorem linesContent_append (ls : List (List Byte)) (line : List Byte) :
    linesContent (ls ++ [line]) = linesContent ls ++ (line ++ [10]) := by
  simp [linesContent]

theorem writeCurrent_counter {env : Env} {w w' : World} {line : List Byte}
    {ls : List (List Byte)} (h : CounterInv w ls)
    (hok : writeCurrent env w line = (Outcome.ok, w')) : CounterInv w' (ls ++ [line]) := by
  obtain ⟨cur, hc, hcl, hdata, hsize, hlook⟩ := h
  obtain ⟨cur', hc', _, hw'⟩ := writeCurrent_ok hok
  rw [hc] at hc'
  cases hc'
  subst hw'
  refine ⟨cur, hc, hcl, ?_, ?_, hlook⟩
  · show Function.update w.disk.data cur.ino (w.disk.data cur.ino ++ (line ++ [10])) cur.ino = _
    rw [Function.update_same, hdata, linesContent_append]
  · show (w.rot.current_size + (line.length + 1)) % uint64Size = _
    rw [hsize, linesContent_append, List.length_append, List.length_append, List.length_singleton,
      Nat.mod_add_mod]

/-- One call of `WriteLine` that returns nil keeps the invariant of the counter. -/
theorem WriteLine_counter {budget : Nat} {env : Env} {w w' : World} {line : List Byte}
    {ls : List (List Byte)} (hinv : HandleInv w)
    (h : w.rot.current = none ∨ CounterInv w ls)
    (hok : WriteLine budget env w line = (Outcome.ok, w')) :
    CounterInv w' ((if rotations (since w w') = 0 then ls else []) ++ [line]) := by
  cases hs : shouldRotate w.rot with
  | none =>
    unfold WriteLine at hok
    simp only [hs] at hok
    cases hok
  | some b =>
    cases b with
    | false =>
      have hw : writeCurrent env w line = (Outcome.ok, w') := by
        unfold WriteLine at hok
        simp only [hs] at hok
        exact hok
      have hlog : w'.log = w.log := by
        have := writeCurrent_log env w line
        rw [hw] at this
        exact this
      have hrot : rotations (since w w') = 0 := by
        rw [since_append w w' [] (by rw [hlog]; simp)]
        rfl
      rw [if_pos hrot]
      rcases h with h | h
      · unfold shouldRotate at hs
        simp only [h] at hs
        cases hs
      · exact writeCurrent_counter h hw
    | true =>
      obtain ⟨w1, hr, hw⟩ := WriteLine_rotate_ok hs hok
      have hlog : w'.log = w1.log := by
        have := writeCurrent_log env w1 line
        rw [hw] at this
        exact this
      have hrot : ¬ rotations (since w w') = 0 := by
        obtain ⟨l, hl, _⟩ := Rotate_log budget env w
        rw [hr] at hl
        rw [since_append w w' (Event.rotate :: l) (by rw [hlog]; exact hl)]
        simp [rotations]
      rw [if_neg hrot]
      have hfresh : CounterInv w1 [] := by
        have hname : w1.rot.Name = w.rot.Name := by
          cases hc : w.rot.current with
          | none =>
            obtain ⟨cur, h1, _⟩ := Rotate_first_spec hc hr
            rw [h1]
          | some old =>
            obtain ⟨_, h1, _⟩ := Rotate_next_spec hinv.1 (ActiveOpen_of_Rotate_ok hinv hc hr) hr
            rw [h1]
        have hact : hasSuffix w1.rot.Name ".zip" = false → ∃ cur, ActiveOpen w1 cur := by
          intro hn
          rw [hname] at hn
          exact Rotate_ok_active hn hr
        cases hc : w.rot.current with
        | none =>
          obtain ⟨cur, h1, h2, _, h4, _⟩ := Rotate_first_spec hc hr
          refine ⟨cur, by rw [h1], h2, h4, by rw [h1]; rfl, ?_⟩
          intro hn
          obtain ⟨cur', a1, _, a3⟩ := hact hn
          rw [h1] at a1
          simp only [Option.some.injEq] at a1
          rw [a1]; exact a3
        | some old =>
          obtain ⟨_, h1, h2, _⟩ :=
            Rotate_next_spec hinv.1 (ActiveOpen_of_Rotate_ok hinv hc hr) hr
          refine ⟨⟨old.ino, false⟩, by rw [h1], rfl, h2, by rw [h1]; rfl, ?_⟩
          intro hn
          obtain ⟨cur', a1, _, a3⟩ := hact hn
          rw [h1] at a1
          simp only [Option.some.injEq] at a1
          rw [a1]; exact a3
      have := writeCurrent_counter hfresh hw
      simpa using this

/-- A run of calls that return nil keeps the invariant of the counter, and
the lines it reports are the last lines of those written. -/
theorem writeLines_counter (calls : List (Nat × Env × List Byte)) :
    ∀ (w w' : World) (ls ls' pre : List (List Byte)), HandleInv w →
      (w.rot.current = none ∨ CounterInv w ls) → ls <:+ pre →
      writeLines w ls calls = some (w', ls') →
      HandleInv w' ∧ (w'.rot.current = none ∨ CounterInv w' ls') ∧
        ls' <:+ pre ++ calls.map (fun c => c.2.2) ∧
        (calls ≠ [] → CounterInv w' ls' ∧ ls' ≠ []) := by
  induction calls with
  | nil =>
    intro w w' ls ls' pre hinv h hsuf hrun
    simp only [writeLines, Option.some.injEq, Prod.mk.injEq] at hrun
    obtain ⟨rfl, rfl⟩ := hrun
    exact ⟨hinv, h, by simpa using hsuf, fun hne => absurd rfl hne⟩
  | cons c calls ih =>
    intro w w' ls ls' pre hinv h hsuf hrun
    obtain ⟨budget, env, line⟩ := c
    rw [writeLines] at hrun
    split at hrun
    · rename_i w1 hok
      have hinv1 : HandleInv w1 := by
        have := WriteLine_HandleInv budget env w line hinv
        rw [hok] at this
        exact this
      have hc1 := WriteLine_counter hinv h hok
      have hsuf1 : (if rotations (since w w1) = 0 then ls else []) ++ [line] <:+
          pre ++ [line] := by
        split
        · obtain ⟨t, ht⟩ := hsuf
          exact ⟨t, by rw [← ht]; simp⟩
        · exact ⟨pre, by simp⟩
      obtain ⟨i1, i2, i3, i4⟩ := ih w1 w' _ ls' (pre ++ [line]) hinv1 (Or.inr hc1) hsuf1 hrun
      refine ⟨i1, i2, by simpa using i3, fun _ => ?_⟩
      cases calls with
      | nil =>
        simp only [writeLines, Option.some.injEq, Prod.mk.injEq] at hrun
        obtain ⟨rfl, rfl⟩ := hrun
        exact ⟨hc1, by simp⟩
      | cons c2 calls2 => exact i4 (by simp)
    · cases hrun

theorem Disk.nodeAt_append {d d' : Disk} {added : List (String × Node)} {q : String}
    {n : Node} (ht : d'.tree = d.tree ++ added) (h : d.nodeAt q = some n) :
    d'.nodeAt q = some n := by
  unfold Disk.nodeAt Disk.lookup at h ⊢
  split
  · rename_i hq; rw [if_pos hq] at h; exact h
  · rename_i hq
    rw [if_neg hq] at h
    rw [ht, List.lookup_append, h]
    rfl

theorem Disk.lookup_of_nodeAt_file {d : Disk} {q : String} {i : Nat}
    (h : d.nodeAt q = some (Node.file i)) : d.lookup q = some (Node.file i) := by
  unfold Disk.nodeAt at h
  split at h
  · cases h
  · exact h

theorem Disk.lookup_of_nodeAt_none {d : Disk} {q : String}
    (h : d.nodeAt q = none) : d.lookup q = none := by
  unfold Disk.nodeAt at h
  split at h
  · cases h
  · exact h

/-- What `os.MkdirAll` does: it only adds directories, at paths of the chain
that were missing; when it returns nil every path of the chain is a
directory; when it fails, a path of the chain is a regular file or could not
be made. -/
theorem Disk.mkdirChain_spec (env : DirEnv) (chain : List String) :
    ∀ d : Disk,
      (Disk.mkdirChain env d chain).2.data = d.data ∧
      (Disk.mkdirChain env d chain).2.next = d.next ∧
      (∃ added, (Disk.mkdirChain env d chain).2.tree = d.tree ++ added ∧
        ∀ e ∈ added, e.2 = Node.dir ∧ e.1 ∈ chain ∧ d.lookup e.1 = none) ∧
      ((Disk.mkdirChain env d chain).1 = true →
        ∀ q ∈ chain, (Disk.mkdirChain env d chain).2.nodeAt q = some Node.dir) ∧
      ((Disk.mkdirChain env d chain).1 = false →
        ∃ q ∈ chain, (∃ i, d.nodeAt q = some (Node.file i)) ∨
          (d.nodeAt q = none ∧ (env.mkdirFails q = true ∨ q = ""))) := by
  induction chain with
  | nil =>
    intro d
    refine ⟨rfl, rfl, ⟨[], by simp [Disk.mkdirChain], by simp⟩, ?_, ?_⟩
    · intro _ q hq; cases hq
    · intro h; simp [Disk.mkdirChain] at h
  | cons q qs ih =>
    intro d
    cases hq : d.nodeAt q with
    | some node =>
      cases node with
      | dir =>
        have hstep : Disk.mkdirChain env d (q :: qs) = Disk.mkdirChain env d qs := by
          rw [Disk.mkdirChain]; simp only [hq]
        rw [hstep]
        obtain ⟨h1, h2, ⟨added, h3, h4⟩, h5, h6⟩ := ih d
        refine ⟨h1, h2, ⟨added, h3, ?_⟩, ?_, ?_⟩
        · intro e he
          obtain ⟨a, b, c⟩ := h4 e he
          exact ⟨a, List.mem_cons_of_mem _ b, c⟩
        · intro hok q' hq'
          rcases List.mem_cons.mp hq' with rfl | hq'
          · exact Disk.nodeAt_append h3 hq
          · exact h5 hok q' hq'
        · intro hf
          obtain ⟨q', hq', hbad⟩ := h6 hf
          exact ⟨q', List.mem_cons_of_mem _ hq', hbad⟩
      | file i =>
        have hstep : Disk.mkdirChain env d (q :: qs) = (false, d) := by
          rw [Disk.mkdirChain]; simp only [hq]
        rw [hstep]
        refine ⟨rfl, rfl, ⟨[], by simp, by simp⟩, ?_, ?_⟩
        · intro h; cases h
        · intro _
          exact ⟨q, List.mem_cons_self _ _, Or.inl ⟨i, hq⟩⟩
    | none =>
      have hl : d.lookup q = none := Disk.lookup_of_nodeAt_none hq
      by_cases hfail : env.mkdirFails q = true ∨ q = ""
      · have hstep : Disk.mkdirChain env d (q :: qs) = (false, d) := by
          rw [Disk.mkdirChain]; simp only [hq, hfail, ↓reduceIte]
        rw [hstep]
        refine ⟨rfl, rfl, ⟨[], by simp, by simp⟩, ?_, ?_⟩
        · intro h; cases h
        · intro _
          exact ⟨q, List.mem_cons_self _ _, Or.inr ⟨hq, hfail⟩⟩
      · have hstep : Disk.mkdirChain env d (q :: qs) =
            Disk.mkdirChain env { d with tree := d.tree ++ [(q, Node.dir)] } qs := by
          rw [Disk.mkdirChain]; simp only [hq, hfail, ↓reduceIte]
        rw [hstep]
        obtain ⟨h1, h2, ⟨added, h3, h4⟩, h5, h6⟩ :=
          ih { d with tree := d.tree ++ [(q, Node.dir)] }
        have hl1 : ∀ p, Disk.lookup { d with tree := d.tree ++ [(q, Node.dir)] } p =
            if p = q then some Node.dir else d.lookup p := by
          intro p
          exact lookup_append_fresh hl
        refine ⟨h1, h2, ⟨(q, Node.dir) :: added, ?_, ?_⟩, ?_, ?_⟩
        · rw [h3]; simp
        · intro e he
          rcases List.mem_cons.mp he with rfl | he
          · exact ⟨rfl, List.mem_cons_self _ _, hl⟩
          · obtain ⟨a, b, c⟩ := h4 e he
            refine ⟨a, List.mem_cons_of_mem _ b, ?_⟩
            rw [hl1] at c
            split at c
            · cases c
            · exact c
        · intro hok q' hq'
          rcases List.mem_cons.mp hq' with rfl | hq'
          · apply Disk.nodeAt_append h3
            unfold Disk.nodeAt
            split
            · rfl
            · rw [hl1, if_pos rfl]
          · exact h5 hok q' hq'
        · intro hf
          obtain ⟨q', hq', hbad⟩ := h6 hf
          refine ⟨q', List.mem_cons_of_mem _ hq', ?_⟩
          have hback : ∀ n, n ≠ some Node.dir →
              Disk.nodeAt { d with tree := d.tree ++ [(q, Node.dir)] } q' = n →
              d.nodeAt q' = n := by
            intro n hn h
            unfold Disk.nodeAt at h ⊢
            split
            · rename_i hroot
              rw [if_pos hroot] at h
              exact absurd h.symm hn
            · rename_i hroot
              rw [if_neg hroot, hl1] at h
              split at h
              · exact absurd h.symm hn
              · exact h
          rcases hbad with ⟨i, hi⟩ | ⟨hnone, hbad⟩
          · exact Or.inl ⟨i, hback _ (by simp) hi⟩
          · exact Or.inr ⟨hback _ (by simp) hnone, hbad⟩

theorem Disk.resolve_dirs (d : Disk) (chain : List String)
    (h : ∀ q ∈ chain, d.nodeAt q = some Node.dir) : d.resolve chain = none := by
  induction chain with
  | nil => rfl
  | cons q qs ih =>
    rw [Disk.resolve]
    simp only [h q (List.mem_cons_self _ _)]
    exact ih (fun q' hq' => h q' (List.mem_cons_of_mem _ hq'))

/-! ## The model of `filepath.Join` and the library function -/

theorem splitSep_ne_nil (s : List Char) : splitSep s ≠ [] := by
  cases s with
  | nil => simp [splitSep]
  | cons c cs =>
    rw [splitSep]
    split
    · simp
    · split <;> simp

theorem splitSep_append_sep (a b : List Char) :
    splitSep (a ++ '/' :: b) = splitSep a ++ splitSep b := by
  induction a with
  | nil => simp [splitSep]
  | cons c cs ih =>
    rw [List.cons_append, splitSep, splitSep, ih]
    by_cases hc : c = '/'
    · simp only [hc, ↓reduceIte, List.cons_append]
    · simp only [hc, ↓reduceIte]
      cases hs : splitSep cs with
      | nil => exact absurd hs (splitSep_ne_nil cs)
      | cons e es => simp

theorem splitSep_plain (s : List Char) (h : '/' ∉ s) : splitSep s = [s] := by
  induction s with
  | nil => rfl
  | cons c cs ih =>
    simp only [List.mem_cons, not_or] at h
    have hc : ¬ c = '/' := fun e => h.1 e.symm
    rw [splitSep, ih h.2, if_neg hc]

theorem joinSep_snoc (l : List (List Char)) (x : List Char) (h : l ≠ []) :
    joinSep (l ++ [x]) = joinSep l ++ '/' :: x := by
  induction l with
  | nil => exact absurd rfl h
  | cons e es ih =>
    cases es with
    | nil => simp [joinSep]
    | cons e2 es2 =>
      have := ih (by simp)
      show e ++ '/' :: joinSep (e2 :: es2 ++ [x]) = (e ++ '/' :: joinSep (e2 :: es2)) ++ '/' :: x
      rw [this]
      simp

/-- For a cleaned directory and a plain name, `filepath.Join` is the two
joined by one separator. -/
theorem filepathJoin_cleaned (dir name : String) (hdir : CleanedDir dir)
    (h1 : '/' ∉ name.data) (h2 : name ≠ "") (h3 : name ≠ ".") (h4 : name ≠ "..") :
    filepathJoin dir name = joinPath dir name := by
  obtain ⟨hclean, hroot, hdot⟩ := hdir
  have hne : dir ≠ "" := by
    intro h
    rw [h] at hclean
    revert hclean
    decide
  have hdata : dir.data ≠ [] := fun h => hne (String.ext h)
  have hn2 : name.data ≠ [] := fun h => h2 (String.ext h)
  have hn3 : name.data ≠ ['.'] := fun h => h3 (String.ext h)
  have hn4 : name.data ≠ ['.', '.'] := fun h => h4 (String.ext h)
  have hjoin : (dir ++ "/" ++ name).data = dir.data ++ '/' :: name.data := by
    simp [String.data_append]
  have hhead : (dir.data ++ '/' :: name.data).head? = dir.data.head? := by
    cases hd : dir.data with
    | nil => exact absurd hd hdata
    | cons c cs => rfl
  unfold filepathJoin joinPath
  rw [if_neg hne]
  unfold filepathClean at hclean ⊢
  rw [hjoin, hhead, splitSep_append_sep, splitSep_plain _ h1]
  simp only [List.foldl_append, List.foldl_cons, List.foldl_nil]
  have hstep : ∀ out, cleanStep (decide (dir.data.head? = some '/')) out name.data =
      name.data :: out := by
    intro out
    unfold cleanStep
    simp [hn2, hn3, hn4]
  rw [hstep, List.reverse_cons]
  simp only at hclean
  generalize hS : (List.foldl (cleanStep (decide (dir.data.head? = some '/'))) []
    (splitSep dir.data)).reverse = S at hclean ⊢
  by_cases hr : decide (dir.data.head? = some '/') = true
  · rw [if_pos hr] at hclean ⊢
    have hSne : S ≠ [] := by
      intro h
      rw [h] at hclean
      exact hroot hclean.symm
    apply String.ext
    rw [joinSep_snoc S _ hSne, hjoin]
    have := congrArg String.data hclean
    simp only at this
    rw [← this]
    simp
  · rw [if_neg hr] at hclean ⊢
    by_cases hb : joinSep S = []
    · rw [if_pos hb] at hclean
      exact absurd hclean.symm hdot
    · rw [if_neg hb] at hclean
      have hSne : S ≠ [] := by
        intro h
        rw [h] at hb
        exact hb rfl
      have hnb : ¬ joinSep (S ++ [name.data]) = [] := by
        rw [joinSep_snoc S _ hSne]
        simp
      rw [if_neg hnb]
      apply String.ext
      rw [joinSep_snoc S _ hSne, hjoin]
      have := congrArg String.data hclean
      simp only at this
      rw [← this]

theorem digitChar_ne_sep (d : Nat) (h : d < 10) : Nat.digitChar d ≠ '/' := by
  interval_cases d <;> decide

theorem toDigitsCore_no_sep (fuel : Nat) :
    ∀ (n : Nat) (ds : List Char), '/' ∉ ds → '/' ∉ Nat.toDigitsCore 10 fuel n ds := by
  induction fuel with
  | zero => intro n ds h; exact h
  | succ f ih =>
    intro n ds h
    rw [Nat.toDigitsCore]
    have hd : '/' ∉ Nat.digitChar (n % 10) :: ds := by
      simp only [List.mem_cons, not_or]
      exact ⟨fun e => digitChar_ne_sep _ (Nat.mod_lt _ (by decide)) e.symm, h⟩
    split
    · exact hd
    · exact ih _ _ hd

/-- The decimal form of a number holds no separator. -/
theorem toString_nat_no_sep (n : Nat) : '/' ∉ (toString n).data := by
  show '/' ∉ (Nat.repr n).data
  unfold Nat.repr Nat.toDigits
  rw [List.asString]
  exact toDigitsCore_no_sep _ _ _ (by simp)

theorem toString_int_no_sep (n : Int) : '/' ∉ (toString n).data := by
  cases n with
  | ofNat m => exact toString_nat_no_sep m
  | negSucc m =>
    show '/' ∉ ("-" ++ toString (m + 1)).data
    rw [String.data_append, List.mem_append, not_or]
    exact ⟨by decide, toString_nat_no_sep _⟩

/-- A file name made of a name without separator and an ending of the form
of the archive and numbered names is a plain name. -/
theorem plain_with_ending (name mid : String) (sep : Char) (hsep : sep ≠ '/')
    (hname : '/' ∉ name.data) (hmid : '/' ∉ mid.data) :
    '/' ∉ (name ++ String.singleton sep ++ mid ++ ".zip").data ∧
    name ++ String.singleton sep ++ mid ++ ".zip" ≠ "" ∧
    name ++ String.singleton sep ++ mid ++ ".zip" ≠ "." ∧
    name ++ String.singleton sep ++ mid ++ ".zip" ≠ ".." := by
  have hd : (name ++ String.singleton sep ++ mid ++ ".zip").data =
      name.data ++ [sep] ++ mid.data ++ ['.', 'z', 'i', 'p'] := by
    simp only [String.data_append]
    rfl
  have hlen : 5 ≤ (name ++ String.singleton sep ++ mid ++ ".zip").data.length := by
    rw [hd]
    simp only [List.length_append, List.length_cons, List.length_nil]
    omega
  refine ⟨?_, ?_, ?_, ?_⟩
  · rw [hd]
    simp only [List.mem_append, not_or, List.mem_singleton]
    exact ⟨⟨⟨hname, fun e => hsep e.symm⟩, hmid⟩, by decide⟩
  · intro h; rw [h] at hlen; revert hlen; decide
  · intro h; rw [h] at hlen; revert hlen; decide
  · intro h; rw [h] at hlen; revert hlen; decide

/-- The archive name and the numbered names, joined to a cleaned directory by
`filepath.Join`, are the directory, one separator and the name. -/
theorem filepathJoin_ending (dir name mid : String) (sep : Char) (hsep : sep ≠ '/')
    (hdir : CleanedDir dir) (hname : '/' ∉ name.data) (hmid : '/' ∉ mid.data) :
    filepathJoin dir (name ++ String.singleton sep ++ mid ++ ".zip") =
      joinPath dir (name ++ String.singleton sep ++ mid ++ ".zip") := by
  obtain ⟨h1, h2, h3, h4⟩ := plain_with_ending name mid sep hsep hname hmid
  exact filepathJoin_cleaned dir _ hdir h1 h2 h3 h4

/-! # The claims -/

/-! ## C1: rotation at the threshold -/

/-- C1: in every state of the rotator (a world that satisfies its invariant, as
every world it reaches does) with a threshold T set, a file open and the
counter at T or above, a `WriteLine` that returns nil has entered `Rotate`
exactly once and completed exactly one archive, which holds the content the
active file had, in one entry; afterwards the file the rotator writes to
contains the line and a newline and nothing else, and the counter is the
length of the line plus one.  (A Go slice is shorter than 2^64 bytes.) -/
theorem WriteLine_rotates_at_threshold (budget : Nat) (env : Env) (w w' : World) (cur : File)
    (line : List Byte) (threshold : Nat)
    (ht : w.rot.RotateEveryBytes = some threshold) (hinv : HandleInv w)
    (hc : w.rot.current = some cur)
    (hsize : threshold ≤ w.rot.current_size) (hlen : line.length + 1 < uint64Size)
    (hok : WriteLine budget env w line = (Outcome.ok, w')) :
    rotations (since w w') = 1 ∧
    archivesMade (since w w') =
      [(zipFilePath env w.rot, [(w.rot.Name, w.disk.data cur.ino)])] ∧
    (∃ cur', w'.rot.current = some cur' ∧ cur'.closed = false ∧
      w'.disk.data cur'.ino = line ++ [10]) ∧
    w'.rot.current_size = line.length + 1 := by
  have hs : shouldRotate w.rot = some true := by
    rw [shouldRotate_eq w.rot threshold ht]; simp [hsize]
  obtain ⟨w1, hr, hw⟩ := WriteLine_rotate_ok hs hok
  obtain ⟨rs, h1, h2, h3, _⟩ :=
    Rotate_next_spec hinv.1 (ActiveOpen_of_Rotate_ok hinv hc hr) hr
  obtain ⟨c, hc1, hcl, hw'⟩ := writeCurrent_ok hw
  rw [h1] at hc1
  simp only [Option.some.injEq] at hc1
  subst hc1
  have hlog : since w w' =
      [Event.rotate,
        Event.archived (zipFilePath env w.rot) [(w.rot.Name, w.disk.data cur.ino)]] ++
        rs.map (fun x => Event.remove x.1 x.2) := by
    apply since_append
    rw [hw']
    simp only [h3, List.append_assoc]
  obtain ⟨_, ha, hr0⟩ := removals_map rs
  refine ⟨?_, ?_, ⟨⟨cur.ino, false⟩, ?_, rfl, ?_⟩, ?_⟩
  · simp only [hlog, rotations_append, hr0]
    simp [rotations]
  · simp only [hlog, archivesMade_append, ha]
    simp [archivesMade]
  · rw [hw']; simp [h1]
  · rw [hw']; simp [Disk.append, h2]
  · rw [hw']
    simp only [h1, zero_add]
    exact Nat.mod_eq_of_lt hlen

/-- C1 at work: the third write of the scenario, made with the counter at 13. -/
theorem WriteLine_rotates_at_threshold_witness :
    afterWorld.disk.data 0 = ascii "hello\nworld!\n" ∧
    rotations (since afterWorld afterThird) = 1 ∧
    archivesMade (since afterWorld afterThird) =
      [(zipFilePath (Env.calm thirdClock) afterWorld.rot,
        [(afterWorld.rot.Name, afterWorld.disk.data 0)])] ∧
    (∃ cur', afterThird.rot.current = some cur' ∧ cur'.closed = false ∧
      afterThird.disk.data cur'.ino = ascii "again" ++ [10]) ∧
    afterThird.rot.current_size = (ascii "again").length + 1 :=
  ⟨by decide,
    WriteLine_rotates_at_threshold 8 (Env.calm thirdClock) afterWorld afterThird ⟨0, false⟩
      (ascii "again") 10 (by decide) afterWorld_reachable.handleInv (by decide)
      (by decide) (by decide) (Prod.ext (by decide) rfl)⟩

/-! ## C2: the archive holds what the active file held -/

/-- C2: in every state of the rotator (a world that satisfies its invariant, as
every world it reaches does), a later rotation that returns nil has written
into the single entry of its archive exactly the bytes the active file held
when the rotation began, whatever their number and however the reads were cut
into chunks; and when no read and no write into the entry fails, the copy loop
ends and has written all of them. -/
theorem Rotate_archive_round_trip (budget : Nat) (env : Env) (w w' : World) (cur : File)
    (hinv : HandleInv w) (hc : w.rot.current = some cur)
    (hok : Rotate budget env w = (Outcome.ok, w')) :
    archivesMade (since w w') =
      [(zipFilePath env w.rot, [(w.rot.Name, w.disk.data cur.ino)])] ∧
    ((∀ k, env.readFails k = false) → (∀ k, env.entryWriteFails k = false) →
      copyLoop env ((w.disk.data cur.ino).length + 1) 0
        (List.replicate blockSize 0) (w.disk.data cur.ino) ⟨[], false⟩ =
        (Outcome.ok, ⟨w.disk.data cur.ino, false⟩)) := by
  obtain ⟨rs, h1, h2, h3, _⟩ :=
    Rotate_next_spec hinv.1 (ActiveOpen_of_Rotate_ok hinv hc hok) hok
  refine ⟨?_, ?_⟩
  · have hlog : since w w' =
        [Event.rotate,
          Event.archived (zipFilePath env w.rot) [(w.rot.Name, w.disk.data cur.ino)]] ++
          rs.map (fun x => Event.remove x.1 x.2) := by
      apply since_append
      simp only [h3, List.append_assoc]
    obtain ⟨_, ha, _⟩ := removals_map rs
    simp only [hlog, archivesMade_append, ha]
    simp [archivesMade]
  · intro hr hwr
    exact copyLoop_total env _ _ _ _ _ (List.length_replicate _ _)
      (Nat.lt_succ_self _) hr hwr rfl

/-- C2 at work: the 13 bytes of the scenario, read four bytes at a time. -/
theorem Rotate_archive_round_trip_witness :
    archivesMade (since afterWorld afterRotate) =
      [("/tmp/x/app.log-1700000002000.zip", [("app.log", ascii "hello\nworld!\n")])] ∧
    archivesMade (since afterWorld afterRotate) =
      [(zipFilePath (Env.shortReads thirdClock) afterWorld.rot,
        [(afterWorld.rot.Name, afterWorld.disk.data 0)])] ∧
    ((∀ k, (Env.shortReads thirdClock).readFails k = false) →
      (∀ k, (Env.shortReads thirdClock).entryWriteFails k = false) →
      copyLoop (Env.shortReads thirdClock) ((afterWorld.disk.data 0).length + 1) 0
        (List.replicate blockSize 0) (afterWorld.disk.data 0) ⟨[], false⟩ =
        (Outcome.ok, ⟨afterWorld.disk.data 0, false⟩)) :=
  ⟨by decide,
    Rotate_archive_round_trip 8 (Env.shortReads thirdClock) afterWorld afterRotate ⟨0, false⟩
      afterWorld_reachable.handleInv (by decide) (Prod.ext (by decide) rfl)⟩

/-! ## C3: the retention bound -/

/-- C3: when a later rotation returns nil (its retention loop has ended), the
number of regular files directly in the configured directory whose name ends
in ".zip" is below `KeepFiles`, and so is the number of all entries directly
in it, directories included, whose name ends so.  This holds whether each
deletion succeeded or not: the loop only ends when its own count is below
`KeepFiles`. -/
theorem retention_bound (budget : Nat) (env : Env) (w w' : World) (old : File) (keep : Int)
    (hk : w.rot.KeepFiles = some keep) (hc : w.rot.current = some old)
    (hok : Rotate budget env w = (Outcome.ok, w')) :
    ((archiveFiles w'.disk w.rot.Path).length : Int) < keep ∧
    ((zipEntries w'.disk w.rot.Path).length : Int) < keep := by
  obtain ⟨_, zipFile, d1, content, iow, cur, d2, _, _, _, _, _, hsweep⟩ := Rotate_next_ok hc hok
  obtain ⟨keep', hk', hlt⟩ := sweep_ok_bound env budget 0 _ w' hsweep
  simp only at hk' hlt
  rw [hk] at hk'
  cases hk'
  have h1 := archiveFiles_length_le w'.disk w.rot.Path
  have h2 := zipEntries_length_le w'.disk w.rot.Path
  constructor <;> omega

/-- C3 at work: the scenario's fourth call makes a second archive, the loop
deletes the older one, and one archive is left where two may be kept. -/
theorem retention_bound_witness :
    removals (since afterThird afterSweep) = [("/tmp/x/app.log-1700000002000.zip", true)] ∧
    (archiveFiles afterSweep.disk "/tmp/x").map Prod.fst =
      ["/tmp/x/app.log-1700000003000.zip"] ∧
    ((archiveFiles afterSweep.disk afterThird.rot.Path).length : Int) < 2 ∧
    ((zipEntries afterSweep.disk afterThird.rot.Path).length : Int) < 2 :=
  ⟨by decide, by decide,
    retention_bound 8 (Env.calm fourthClock) afterThird afterSweep ⟨0, false⟩ 2
      (by decide) (by decide) (Prod.ext (by decide) rfl)⟩

/-! ## C4: validation of the configuration -/

/-- C4: `CheckIfConfigSane` returns an error exactly when `Name` is empty or the
retained count (the given `KeepFiles`, or the default 7 when it is nil) is
below 2 or at least 1024.  In particular `KeepFiles` 1 and 1024 are rejected,
2 and 1023 are accepted with a non-empty name, and an empty name is rejected
whatever the other fields are. -/
theorem CheckIfConfigSane_error_iff :
    (∀ r : FileRotator, (CheckIfConfigSane r).1 ≠ none ↔
        (r.Name = "" ∨ r.KeepFiles.getD 7 < 2 ∨ r.KeepFiles.getD 7 ≥ 1024)) ∧
    (∀ r : FileRotator, r.KeepFiles = some 1 → (CheckIfConfigSane r).1 ≠ none) ∧
    (∀ r : FileRotator, r.KeepFiles = some 1024 → (CheckIfConfigSane r).1 ≠ none) ∧
    (∀ r : FileRotator, r.Name ≠ "" → r.KeepFiles = some 2 → (CheckIfConfigSane r).1 = none) ∧
    (∀ r : FileRotator, r.Name ≠ "" → r.KeepFiles = some 1023 →
        (CheckIfConfigSane r).1 = none) ∧
    (∀ r : FileRotator, r.Name = "" → (CheckIfConfigSane r).1 = some Err.noName) := by
  have key : ∀ r : FileRotator, (CheckIfConfigSane r).1 ≠ none ↔
      (r.Name = "" ∨ r.KeepFiles.getD 7 < 2 ∨ r.KeepFiles.getD 7 ≥ 1024) := by
    intro r
    obtain ⟨p, n, t, k, c, s⟩ := r
    have hlen : n.length = 0 ↔ n = "" := by
      rw [← String.length_data, List.length_eq_zero]
      constructor
      · intro h; exact String.ext h
      · intro h; rw [h]
    unfold CheckIfConfigSane
    by_cases hn : n = ""
    · simp [hn]
    · have hn' : ¬ n.length = 0 := fun h => hn (hlen.mp h)
      cases k <;> cases t <;>
        simp [hn, hn', DefaultKeepFiles, RotatorMaxFiles] <;>
        split <;> simp_all
  refine ⟨key, ?_, ?_, ?_, ?_, ?_⟩
  · intro r h; rw [key, h]; right; left; decide
  · intro r h; rw [key, h]; right; right; decide
  · intro r hn h
    by_contra hc
    have := (key r).mp hc
    rw [h] at this
    rcases this with h1 | h1 | h1
    · exact hn h1
    · exact absurd h1 (by decide)
    · exact absurd h1 (by decide)
  · intro r hn h
    by_contra hc
    have := (key r).mp hc
    rw [h] at this
    rcases this with h1 | h1 | h1
    · exact hn h1
    · exact absurd h1 (by decide)
    · exact absurd h1 (by decide)
  · intro r h
    unfold CheckIfConfigSane
    simp [h]

/-! ## C5: the scenario of the specification -/

/-- C5, as stated, fails: in the scenario the second write does not rotate.
After "hello" the counter is 6, below the threshold 10, and that is what the
trigger looks at; so "world!" is appended, in every environment, and after the
two writes there is no archive and app.log holds both lines. -/
theorem scenario_second_write_appends :
    (WriteLine 8 (Env.calm 1700000000000000000) freshWorld (ascii "hello")).1 = Outcome.ok ∧
    afterHello.rot.current_size = 6 ∧
    (∀ budget env,
      rotations (since afterHello (WriteLine budget env afterHello (ascii "world!")).2) = 0) ∧
    (WriteLine 8 (Env.calm 1700000001000000000) afterHello (ascii "world!")).1 = Outcome.ok ∧
    archivesMade afterWorld.log = [] ∧
    zipList afterWorld.disk "/tmp/x" = [] ∧
    afterWorld.disk.lookup "/tmp/x/app.log" = some (Node.file 0) ∧
    afterWorld.rot.current = some ⟨0, false⟩ ∧
    afterWorld.disk.data 0 = ascii "hello\nworld!\n" ∧
    afterWorld.disk.data 0 ≠ ascii "world!\n" := by
  refine ⟨by decide, by decide, ?_, by decide, by decide, by decide, by decide, by decide,
    by decide, by decide⟩
  intro budget env
  have hf : shouldRotate afterHello.rot = some false := by decide
  rw [since, WriteLine_log, hf]
  simp [rotations]

/-- C5, amended: in the scenario, after "hello" and "world!" there is no archive
and app.log contains "hello\nworld!\n", 13 bytes; the counter has then reached
the threshold, and it is the third write that rotates first: the file
containing "hello\nworld!\n" is archived as app.log-<ts>.zip, in one entry
named app.log, and the fresh app.log contains exactly the third line. -/
theorem scenario_third_write_rotates :
    archivesMade afterWorld.log = [] ∧
    afterWorld.disk.data 0 = ascii "hello\nworld!\n" ∧
    afterWorld.rot.current_size = 13 ∧
    (WriteLine 8 (Env.calm thirdClock) afterWorld (ascii "again")).1 = Outcome.ok ∧
    rotations (since afterWorld afterThird) = 1 ∧
    archivesMade (since afterWorld afterThird) =
      [("/tmp/x/app.log-1700000002000.zip", [("app.log", ascii "hello\nworld!\n")])] ∧
    (archiveFiles afterThird.disk "/tmp/x").map Prod.fst =
      ["/tmp/x/app.log-1700000002000.zip"] ∧
    afterThird.disk.lookup "/tmp/x/app.log" = some (Node.file 0) ∧
    afterThird.rot.current = some ⟨0, false⟩ ∧
    afterThird.disk.data 0 = ascii "again\n" ∧
    afterThird.rot.current_size = 6 := by
  refine ⟨by decide, by decide, by decide, by decide, by decide, by decide, by decide,
    by decide, by decide, by decide, by decide⟩

/-! ## C6: the first write -/

/-- C6, as stated, fails: the first write of a rotator whose base name ends in
".zip" returns nil and adds a path ending in ".zip" to the directory, the
base-name file itself. -/
theorem first_write_adds_zip_path :
    zipNamedWorld.rot.current = none ∧
    (WriteLine 8 (Env.calm 1700000000000000000) zipNamedWorld (ascii "hello")).1 = Outcome.ok ∧
    zipList zipNamedWorld.disk "/var/log/beat" = [] ∧
    zipList (WriteLine 8 (Env.calm 1700000000000000000) zipNamedWorld (ascii "hello")).2.disk
      "/var/log/beat" = ["/var/log/beat/beat.zip"] ∧
    (archiveFiles zipNamedWorld.disk "/var/log/beat").length = 0 ∧
    (archiveFiles (WriteLine 8 (Env.calm 1700000000000000000) zipNamedWorld
      (ascii "hello")).2.disk "/var/log/beat").length = 1 := by
  refine ⟨by decide, by decide, by decide, by decide, by decide, by decide⟩

/-- C6, amended: with no file open, a `WriteLine` that returns nil, and likewise
a `Rotate` that returns nil, has created (or emptied) the base-name file and
done nothing else to the file system: it completed no archive and called no
`os.Remove` (the trace only records that `Rotate` was entered), every other
path is as it was, and the paths ending in ".zip" other than the base-name
path itself are the same as before, all of them when `Name` does not end in
".zip".  After `Rotate` the file is empty and the counter is 0;
after `WriteLine` the file holds the line and a newline and the counter is the
length of the line plus one. -/
theorem first_write_creates_no_archive (budget : Nat) (env : Env) (w : World)
    (line : List Byte) (hc : w.rot.current = none) (hlen : line.length + 1 < uint64Size) :
    (∀ w', Rotate budget env w = (Outcome.ok, w') →
      ∃ cur, w'.rot.current = some cur ∧ cur.closed = false ∧
        w'.disk.lookup (FilePath w.rot 0) = some (Node.file cur.ino) ∧
        w'.disk.data cur.ino = [] ∧ w'.rot.current_size = 0 ∧
        since w w' = [Event.rotate] ∧
        (∀ q, q ≠ FilePath w.rot 0 → w'.disk.lookup q = w.disk.lookup q) ∧
        (zipList w'.disk w.rot.Path).filter (fun q => q != FilePath w.rot 0) =
          (zipList w.disk w.rot.Path).filter (fun q => q != FilePath w.rot 0) ∧
        (hasSuffix w.rot.Name ".zip" = false →
          zipList w'.disk w.rot.Path = zipList w.disk w.rot.Path)) ∧
    (∀ w', WriteLine budget env w line = (Outcome.ok, w') →
      ∃ cur, w'.rot.current = some cur ∧ cur.closed = false ∧
        w'.disk.lookup (FilePath w.rot 0) = some (Node.file cur.ino) ∧
        w'.disk.data cur.ino = line ++ [10] ∧ w'.rot.current_size = line.length + 1 ∧
        since w w' = [Event.rotate] ∧
        (∀ q, q ≠ FilePath w.rot 0 → w'.disk.lookup q = w.disk.lookup q) ∧
        (zipList w'.disk w.rot.Path).filter (fun q => q != FilePath w.rot 0) =
          (zipList w.disk w.rot.Path).filter (fun q => q != FilePath w.rot 0) ∧
        (hasSuffix w.rot.Name ".zip" = false →
          zipList w'.disk w.rot.Path = zipList w.disk w.rot.Path)) := by
  refine ⟨?_, ?_⟩
  · intro w' hok
    obtain ⟨cur, h1, h2, h3, h4, h5, h6, h7, h8⟩ := Rotate_first_spec hc hok
    rw [FilePath_zero, hasSuffix_joinPath] at h8
    refine ⟨cur, by rw [h1], h2, h3, h4, by rw [h1], since_append _ _ _ h5, h6, h7, h8⟩
  · intro w' hok
    have hs : shouldRotate w.rot = some true := by
      unfold shouldRotate; simp [hc]
    obtain ⟨w1, hr, hw⟩ := WriteLine_rotate_ok hs hok
    obtain ⟨cur, h1, h2, h3, h4, h5, h6, h7, h8⟩ := Rotate_first_spec hc hr
    obtain ⟨c, hcur, _, hw'⟩ := writeCurrent_ok hw
    rw [FilePath_zero, hasSuffix_joinPath] at h8
    rw [h1] at hcur
    simp only [Option.some.injEq] at hcur
    subst hcur
    refine ⟨cur, ?_, h2, ?_, ?_, ?_, ?_, ?_, ?_, ?_⟩
    · rw [hw']; simp [h1]
    · rw [hw']; exact h3
    · rw [hw']; simp [Disk.append, h4]
    · rw [hw']
      simp only [h1, zero_add]
      exact Nat.mod_eq_of_lt hlen
    · apply since_append
      rw [hw']; exact h5
    · rw [hw']; exact h6
    · rw [hw']; exact h7
    · rw [hw']; exact h8

/-- C6 at work: the first write of the scenario. -/
theorem first_write_creates_no_archive_witness :
    afterHello.disk.tree = freshWorld.disk.tree ++ [("/tmp/x/app.log", Node.file 0)] ∧
    ∃ cur, afterHello.rot.current = some cur ∧ cur.closed = false ∧
      afterHello.disk.lookup (FilePath freshWorld.rot 0) = some (Node.file cur.ino) ∧
      afterHello.disk.data cur.ino = ascii "hello" ++ [10] ∧
      afterHello.rot.current_size = (ascii "hello").length + 1 ∧
      since freshWorld afterHello = [Event.rotate] ∧
      (∀ q, q ≠ FilePath freshWorld.rot 0 →
        afterHello.disk.lookup q = freshWorld.disk.lookup q) ∧
      (zipList afterHello.disk freshWorld.rot.Path).filter
          (fun q => q != FilePath freshWorld.rot 0) =
        (zipList freshWorld.disk freshWorld.rot.Path).filter
          (fun q => q != FilePath freshWorld.rot 0) ∧
      (hasSuffix freshWorld.rot.Name ".zip" = false →
        zipList afterHello.disk freshWorld.rot.Path =
          zipList freshWorld.disk freshWorld.rot.Path) :=
  ⟨by decide,
    (first_write_creates_no_archive 8 (Env.calm 1700000000000000000) freshWorld (ascii "hello")
      (by decide) (by decide)).2 afterHello (Prod.ext (by decide) rfl)⟩

/-! ## C7: a retention loop that cannot delete -/

/-- C7 fails on the code: a `WriteLine` at the threshold, in a directory that
also holds a directory 0old.zip that is not empty, never returns.  The
rotation archives the active file and empties it; then every round of the
retention loop counts two paths, tries to remove 0old.zip, fails, and starts
again.  Whatever the number of rounds allowed, the loop is still running, the
only thing it has done is to fail that many times, and the line is not
written. -/
theorem WriteLine_hangs_when_remove_fails (budget : Nat) :
    (WriteLine budget (Env.calm thirdClock) stuckWorld (ascii "again")).1 = Outcome.hang ∧
    removals (since stuckWorld
      (WriteLine budget (Env.calm thirdClock) stuckWorld (ascii "again")).2) =
      List.replicate budget ("/tmp/x/0old.zip", false) ∧
    archivesMade (since stuckWorld
      (WriteLine budget (Env.calm thirdClock) stuckWorld (ascii "again")).2) =
      [("/tmp/x/app.log-1700000002000.zip", [("app.log", ascii "hello\nworld!\n")])] ∧
    (WriteLine budget (Env.calm thirdClock) stuckWorld (ascii "again")).2.disk.data 0 = [] := by
  have hs : shouldRotate stuckWorld.rot = some true := by decide
  have h0 : (Rotate 0 (Env.calm thirdClock) stuckWorld).1 = Outcome.hang := by decide
  have hr := Rotate_reaches_sweep budget (Env.calm thirdClock) stuckWorld h0
  have hrm : ∀ k, (Rotate 0 (Env.calm thirdClock) stuckWorld).2.disk.remove
      (Env.calm thirdClock) k "/tmp/x/0old.zip" =
      (false, (Rotate 0 (Env.calm thirdClock) stuckWorld).2.disk) := by
    intro k
    exact Disk.remove_nonempty_dir _ _ _ _ (by decide) (by decide)
  have hst := sweep_stuck (Env.calm thirdClock)
    (Rotate 0 (Env.calm thirdClock) stuckWorld).2.rot
    (Rotate 0 (Env.calm thirdClock) stuckWorld).2.disk 2 "/tmp/x/0old.zip"
    ["/tmp/x/app.log-1700000002000.zip"] (by decide) (by decide) (by decide) hrm budget 0
    (Rotate 0 (Env.calm thirdClock) stuckWorld).2.log
  have hrot : Rotate budget (Env.calm thirdClock) stuckWorld =
      (Outcome.hang,
        ⟨(Rotate 0 (Env.calm thirdClock) stuckWorld).2.rot,
          (Rotate 0 (Env.calm thirdClock) stuckWorld).2.disk,
          (Rotate 0 (Env.calm thirdClock) stuckWorld).2.log ++
            List.replicate budget (Event.remove "/tmp/x/0old.zip" false)⟩) := by
    rw [hr]
    exact hst
  have hw : WriteLine budget (Env.calm thirdClock) stuckWorld (ascii "again") =
      Rotate budget (Env.calm thirdClock) stuckWorld := by
    unfold WriteLine
    simp only [hs]
    rw [hrot]
  rw [hw, hrot]
  refine ⟨rfl, ?_, ?_, ?_⟩
  · have h1 : removals (Rotate 0 (Env.calm thirdClock) stuckWorld).2.log = [] := by decide
    rw [since_append stuckWorld _ _ rfl]
    simp only [removals_append, h1, removals_replicate]
    rfl
  · have h1 : archivesMade (Rotate 0 (Env.calm thirdClock) stuckWorld).2.log =
        [("/tmp/x/app.log-1700000002000.zip", [("app.log", ascii "hello\nworld!\n")])] := by
      decide
    have h2 : ∀ n, archivesMade (List.replicate n (Event.remove "/tmp/x/0old.zip" false)) = [] := by
      intro n
      induction n with
      | zero => rfl
      | succ n ih => simp [List.replicate_succ, archivesMade, ih]
    rw [since_append stuckWorld _ _ rfl]
    simp only [archivesMade_append, h1, h2]
    rfl
  · show (Rotate 0 (Env.calm thirdClock) stuckWorld).2.disk.data 0 = []
    decide

/-! ## C8: oldest-first eviction -/

/-- C8, as stated, fails: a directory that holds one archive directly, fewer
than the two to keep, loses it to the retention loop, because the loop also
counts the file saved.zip of a subdirectory. -/
theorem sweep_counts_nested_paths :
    nestedWorld.rot.KeepFiles = some 2 ∧
    (archiveFiles nestedWorld.disk "/tmp/x").map Prod.fst =
      ["/tmp/x/app.log-1700000002000.zip"] ∧
    (sweep (Env.calm fourthClock) 8 0 nestedWorld).1 = Outcome.ok ∧
    removals (since nestedWorld (sweep (Env.calm fourthClock) 8 0 nestedWorld).2) =
      [("/tmp/x/app.log-1700000002000.zip", true)] ∧
    archiveFiles (sweep (Env.calm fourthClock) 8 0 nestedWorld).2.disk "/tmp/x" = [] ∧
    zipList (sweep (Env.calm fourthClock) 8 0 nestedWorld).2.disk "/tmp/x" =
      ["/tmp/x/old/saved.zip"] := by
  refine ⟨by decide, by decide, by decide, by decide, by decide, by decide⟩

/-- C8, amended: the retention loop counts the paths ending in ".zip" that the
walk of the configured directory finds, at any depth below it (`zipList`).
With n such paths at its start, a `KeepFiles` of K (at least 2), and every
deletion succeeding, the loop ends, whatever the budget above n, and it has
deleted exactly the n+1-K smallest of these paths in the order of
`sort.Strings`, smallest first (none when n < K); every other entry of the
tree is in place. -/
theorem sweep_evicts_smallest (env : Env) (budget k : Nat) (w : World) (keep : Int)
    (hk : w.rot.KeepFiles = some keep) (h2 : 2 ≤ keep)
    (hnd : (w.disk.tree.map Prod.fst).Nodup)
    (hdir : w.disk.lookup w.rot.Path = some Node.dir)
    (hb : (zipList w.disk w.rot.Path).length < budget)
    (hall : ∀ x ∈ removals (since w (sweep env budget k w).2), x.2 = true) :
    (sweep env budget k w).1 = Outcome.ok ∧
    removals (since w (sweep env budget k w).2) =
      ((sortStrings (zipList w.disk w.rot.Path)).take
        ((zipList w.disk w.rot.Path).length + 1 - keep.toNat)).map (fun p => (p, true)) ∧
    (sweep env budget k w).2.disk.tree =
      w.disk.tree.filter (fun e =>
        decide (e.1 ∉ (sortStrings (zipList w.disk w.rot.Path)).take
          ((zipList w.disk w.rot.Path).length + 1 - keep.toNat))) ∧
    sortStrings (zipList (sweep env budget k w).2.disk w.rot.Path) =
      (sortStrings (zipList w.disk w.rot.Path)).drop
        ((zipList w.disk w.rot.Path).length + 1 - keep.toNat) := by
  induction budget generalizing k w with
  | zero => omega
  | succ b ih =>
    by_cases hlt : ((zipList w.disk w.rot.Path).length : Int) < keep
    · have hm : (zipList w.disk w.rot.Path).length + 1 - keep.toNat = 0 := by omega
      rw [sweep_done env b k w keep hk hlt, hm]
      refine ⟨rfl, ?_, ?_, ?_⟩
      · simp [since, removals]
      · simp
      · simp
    · have hlen : 2 ≤ (zipList w.disk w.rot.Path).length := by omega
      have hslen : (sortStrings (zipList w.disk w.rot.Path)).length =
          (zipList w.disk w.rot.Path).length := (sortStrings_perm _).length_eq
      obtain ⟨first, rest, hsort⟩ : ∃ first rest,
          sortStrings (zipList w.disk w.rot.Path) = first :: rest := by
        cases hs : sortStrings (zipList w.disk w.rot.Path) with
        | nil => rw [hs] at hslen; simp at hslen; omega
        | cons a l => exact ⟨a, l, rfl⟩
      have hround := sweep_round env b k w keep first rest hk hlt hsort
      rw [hround] at hall ⊢
      -- the trace of the rounds that follow
      obtain ⟨rs, hlog, hrot, _, _, _, _⟩ := sweep_frame env b (k + 1)
        { w with disk := (w.disk.remove env k first).2,
                 log := w.log ++ [Event.remove first (w.disk.remove env k first).1] }
      have hsince : since w (sweep env b (k + 1)
          { w with disk := (w.disk.remove env k first).2,
                   log := w.log ++ [Event.remove first (w.disk.remove env k first).1] }).2 =
          Event.remove first (w.disk.remove env k first).1 ::
            rs.map (fun x => Event.remove x.1 x.2) := by
        apply since_append
        rw [hlog]
        simp
      have hsince1 : since
          { w with disk := (w.disk.remove env k first).2,
                   log := w.log ++ [Event.remove first (w.disk.remove env k first).1] }
          (sweep env b (k + 1)
          { w with disk := (w.disk.remove env k first).2,
                   log := w.log ++ [Event.remove first (w.disk.remove env k first).1] }).2 =
            rs.map (fun x => Event.remove x.1 x.2) := since_append _ _ _ hlog
      have hrs := (removals_map rs).1
      rw [hsince] at hall ⊢
      simp only [removals, hrs, List.mem_cons, forall_eq_or_imp] at hall
      obtain ⟨hok, hall'⟩ := hall
      -- the first deletion succeeded
      obtain ⟨_, _, htree⟩ := Disk.remove_spec env k w.disk first
      rw [hok] at htree
      simp only [↓reduceIte] at htree
      obtain ⟨hmem, hchild⟩ := Disk.remove_ok hok
      have hne : first ≠ w.rot.Path := by
        intro h
        rw [h] at hchild
        have := hchild hdir
        rw [hasChild_of_two w.disk w.rot.Path hlen] at this
        cases this
      have hdisk : (w.disk.remove env k first).2 =
          { w.disk with tree := w.disk.tree.filter (fun e => e.1 != first) } := by
        obtain ⟨hd, hn, _⟩ := Disk.remove_spec env k w.disk first
        cases hrm : (w.disk.remove env k first).2 with
        | mk t dt nx =>
          rw [hrm] at hd hn htree
          simp only at hd hn htree
          rw [hd, hn, htree]
      have hzl : zipList (w.disk.remove env k first).2 w.rot.Path =
          (zipList w.disk w.rot.Path).filter (fun q => q != first) := by
        rw [hdisk]
        exact zipList_unlink w.disk w.rot.Path first hne
      have hzlnd := zipList_nodup w.disk w.rot.Path hnd
      obtain ⟨hsort1, hnot⟩ := sortStrings_without_first hzlnd hsort
      have hlen1 : (zipList (w.disk.remove env k first).2 w.rot.Path).length + 1 =
          (zipList w.disk w.rot.Path).length := by
        have h1 : (sortStrings (zipList (w.disk.remove env k first).2 w.rot.Path)).length =
            (zipList (w.disk.remove env k first).2 w.rot.Path).length :=
          (sortStrings_perm _).length_eq
        rw [hzl, hsort1] at h1
        rw [hzl, ← h1, ← hslen, hsort]
        simp
      have hm : (zipList w.disk w.rot.Path).length + 1 - keep.toNat =
          ((zipList (w.disk.remove env k first).2 w.rot.Path).length + 1 - keep.toNat) + 1 := by
        omega
      -- the rounds that follow, by induction
      have hnd1 : ((w.disk.remove env k first).2.tree.map Prod.fst).Nodup := by
        rw [htree, map_fst_filter_ne]
        exact hnd.filter _
      have hdir1 : (w.disk.remove env k first).2.lookup w.rot.Path = some Node.dir := by
        unfold Disk.lookup
        rw [htree, lookup_filter_ne, if_neg (fun h => hne h.symm)]
        exact hdir
      have hih := ih (k + 1)
        { w with disk := (w.disk.remove env k first).2,
                 log := w.log ++ [Event.remove first (w.disk.remove env k first).1] }
        hk hnd1 hdir1 (by simp only; omega)
        (by rw [hsince1, hrs]; exact hall')
      simp only at hih
      obtain ⟨i1, i2, i3, i4⟩ := hih
      rw [hsince1, hrs] at i2
      rw [hzl, hsort1] at i2 i3 i4
      rw [← hzl] at i2 i3 i4
      rw [hm, hsort]
      refine ⟨i1, ?_, ?_, ?_⟩
      · simp only [removals]
        rw [hrs, hok, i2]
        rfl
      · rw [i3, htree, List.filter_filter]
        apply List.filter_congr
        intro e _
        simp only [List.take_succ_cons, List.mem_cons, not_or, Bool.decide_and, Bool.and_comm]
        congr 1
        by_cases he : e.1 = first
        · simp [he]
        · simp [he]
      · rw [i4]
        rfl

/-- C8 at work: three paths counted, two to keep at most, so the two smallest
are deleted, which are the two archives. -/
theorem sweep_evicts_smallest_witness :
    sortStrings (zipList crowdedWorld.disk "/tmp/x") =
      ["/tmp/x/app.log-1700000001000.zip", "/tmp/x/app.log-1700000002000.zip",
        "/tmp/x/old/saved.zip"] ∧
    removals (since crowdedWorld (sweep (Env.calm fourthClock) 8 0 crowdedWorld).2) =
      [("/tmp/x/app.log-1700000001000.zip", true), ("/tmp/x/app.log-1700000002000.zip", true)] ∧
    ((sweep (Env.calm fourthClock) 8 0 crowdedWorld).1 = Outcome.ok ∧
    removals (since crowdedWorld (sweep (Env.calm fourthClock) 8 0 crowdedWorld).2) =
      ((sortStrings (zipList crowdedWorld.disk crowdedWorld.rot.Path)).take
        ((zipList crowdedWorld.disk crowdedWorld.rot.Path).length + 1 - (2 : Int).toNat)).map
        (fun p => (p, true)) ∧
    (sweep (Env.calm fourthClock) 8 0 crowdedWorld).2.disk.tree =
      crowdedWorld.disk.tree.filter (fun e =>
        decide (e.1 ∉ (sortStrings (zipList crowdedWorld.disk crowdedWorld.rot.Path)).take
          ((zipList crowdedWorld.disk crowdedWorld.rot.Path).length + 1 - (2 : Int).toNat))) ∧
    sortStrings (zipList (sweep (Env.calm fourthClock) 8 0 crowdedWorld).2.disk
        crowdedWorld.rot.Path) =
      (sortStrings (zipList crowdedWorld.disk crowdedWorld.rot.Path)).drop
        ((zipList crowdedWorld.disk crowdedWorld.rot.Path).length + 1 - (2 : Int).toNat)) :=
  ⟨by decide, by decide,
    sweep_evicts_smallest (Env.calm fourthClock) 8 0 crowdedWorld 2 (by decide) (by decide)
      (by decide) (by decide) (by decide) (by decide)⟩

/-! ## C9: the rotation trigger -/

/-- C9: with a threshold set, `shouldRotate` returns true exactly when no file
is open or the counter has reached the threshold, and false otherwise; the
counter it looks at is the one before the incoming line.  `WriteLine` enters
`Rotate` once when it returns true and not at all when it returns false.  So a
write with an open file and a counter below the threshold rotates nothing and
appends the line and its newline to the file that is open, whatever the
length of the line (the write itself succeeding). -/
theorem shouldRotate_trigger (budget : Nat) (env : Env) (w : World) (line : List Byte)
    (threshold : Nat) (ht : w.rot.RotateEveryBytes = some threshold) :
    (shouldRotate w.rot = some true ↔
      (w.rot.current = none ∨ threshold ≤ w.rot.current_size)) ∧
    (shouldRotate w.rot = some false ↔
      ¬ (w.rot.current = none ∨ threshold ≤ w.rot.current_size)) ∧
    rotations (since w (WriteLine budget env w line).2) =
      (if shouldRotate w.rot = some true then 1 else 0) ∧
    (∀ current, w.rot.current = some current → current.closed = false →
      w.rot.current_size < threshold → env.writeFails = false →
      WriteLine budget env w line =
        (Outcome.ok,
          { w with
            disk := w.disk.append current.ino (line ++ [10])
            rot := { w.rot with
              current_size := (w.rot.current_size + (line.length + 1)) % uint64Size } })) := by
  have hs := shouldRotate_eq w.rot threshold ht
  refine ⟨?_, ?_, ?_, ?_⟩
  · rw [hs]; simp
  · rw [hs]; simp
  · rw [since, WriteLine_log]
    split
    · obtain ⟨l, hl, hr⟩ := Rotate_log budget env w
      rw [hl]
      simp only [List.drop_left, rotations] at hr ⊢
      simp [List.count_cons, hr]
    · simp [rotations]
  · intro current hc hcl hlt hwf
    have hf : shouldRotate w.rot = some false := by
      rw [hs]; simp [hc]; omega
    unfold WriteLine
    simp only [hf]
    unfold writeCurrent
    simp [hc, hcl, hwf]

/-- C9 at work: the second write of the scenario, made with the counter at 6. -/
theorem shouldRotate_trigger_witness :
    afterHello.rot.current_size = 6 ∧
    ((shouldRotate afterHello.rot = some true ↔
      (afterHello.rot.current = none ∨ 10 ≤ afterHello.rot.current_size)) ∧
    (shouldRotate afterHello.rot = some false ↔
      ¬ (afterHello.rot.current = none ∨ 10 ≤ afterHello.rot.current_size)) ∧
    rotations (since afterHello
      (WriteLine 8 (Env.calm 1700000001000000000) afterHello (ascii "world!")).2) =
      (if shouldRotate afterHello.rot = some true then 1 else 0) ∧
    (∀ current, afterHello.rot.current = some current → current.closed = false →
      afterHello.rot.current_size < 10 → (Env.calm 1700000001000000000).writeFails = false →
      WriteLine 8 (Env.calm 1700000001000000000) afterHello (ascii "world!") =
        (Outcome.ok,
          { afterHello with
            disk := afterHello.disk.append current.ino (ascii "world!" ++ [10])
            rot := { afterHello.rot with
              current_size :=
                (afterHello.rot.current_size + ((ascii "world!").length + 1)) % uint64Size } }))) :=
  ⟨by decide,
    shouldRotate_trigger 8 (Env.calm 1700000001000000000) afterHello (ascii "world!") 10
      (by decide)⟩

/-! ## C10: what validation guarantees -/

/-- C10, as stated, fails: a configuration whose threshold is given as 0 is
accepted, and its threshold is still 0 afterwards. -/
theorem CheckIfConfigSane_accepts_zero_threshold :
    (CheckIfConfigSane zeroThresholdConfig).1 = none ∧
    (CheckIfConfigSane zeroThresholdConfig).2.Name ≠ "" ∧
    (CheckIfConfigSane zeroThresholdConfig).2.KeepFiles = some 7 ∧
    (CheckIfConfigSane zeroThresholdConfig).2.RotateEveryBytes = some 0 ∧
    ¬ (∃ t, (CheckIfConfigSane zeroThresholdConfig).2.RotateEveryBytes = some t ∧ 0 < t) := by
  refine ⟨by decide, by decide, by decide, by decide, ?_⟩
  rintro ⟨t, h1, h2⟩
  have h0 : (CheckIfConfigSane zeroThresholdConfig).2.RotateEveryBytes = some 0 := by decide
  rw [h0] at h1
  cases h1
  exact absurd h2 (by decide)

/-- C10, amended: a configuration that `CheckIfConfigSane` accepts has afterwards
a non-empty `Name`, a `KeepFiles` in [2, 1024) and a `RotateEveryBytes` that is
set: the given value, which the check does not look at, or 10 MiB when none was
given.  So the threshold is positive unless it was given as 0. -/
theorem CheckIfConfigSane_accepted_invariants (r : FileRotator)
    (h : (CheckIfConfigSane r).1 = none) :
    (CheckIfConfigSane r).2.Name ≠ "" ∧
    (∃ keep, (CheckIfConfigSane r).2.KeepFiles = some keep ∧ 2 ≤ keep ∧ keep < 1024) ∧
    (CheckIfConfigSane r).2.RotateEveryBytes = some (r.RotateEveryBytes.getD 10485760) ∧
    (r.RotateEveryBytes ≠ some 0 →
      ∃ t, (CheckIfConfigSane r).2.RotateEveryBytes = some t ∧ 0 < t) := by
  obtain ⟨p, n, t, k, c, s⟩ := r
  unfold CheckIfConfigSane at h ⊢
  by_cases hn : n.length = 0
  · simp [hn] at h
  · have hne : n ≠ "" := by
      intro h0; apply hn; rw [h0]; rfl
    cases k <;> cases t <;>
      simp [hn, DefaultKeepFiles, RotatorMaxFiles, DefaultRotateEveryBytes] at h ⊢
    · exact hne
    · rename_i t
      refine ⟨hne, ?_⟩
      intro h0; omega
    · rename_i k
      by_cases hk : k < 2 ∨ 1024 ≤ k
      · simp [hk] at h
      · simp [hk]
        refine ⟨hne, ?_⟩
        omega
    · rename_i k t
      by_cases hk : k < 2 ∨ 1024 ≤ k
      · simp [hk] at h
      · simp [hk]
        refine ⟨hne, by omega, ?_⟩
        intro h0; omega

/-- C10 at work: a configuration with neither value set gets both defaults. -/
theorem CheckIfConfigSane_accepted_invariants_witness :
    (CheckIfConfigSane unsetConfig).1 = none ∧
    (CheckIfConfigSane unsetConfig).2.Name ≠ "" ∧
    (∃ keep, (CheckIfConfigSane unsetConfig).2.KeepFiles = some keep ∧
      2 ≤ keep ∧ keep < 1024) ∧
    (CheckIfConfigSane unsetConfig).2.RotateEveryBytes =
      some (unsetConfig.RotateEveryBytes.getD 10485760) ∧
    (unsetConfig.RotateEveryBytes ≠ some 0 →
      ∃ t, (CheckIfConfigSane unsetConfig).2.RotateEveryBytes = some t ∧ 0 < t) :=
  ⟨by decide, CheckIfConfigSane_accepted_invariants unsetConfig (by decide)⟩

/-! ## C11: defaults -/

/-- C11: for every configuration with a non-empty name, after
`CheckIfConfigSane` a `RotateEveryBytes` that was not set is 10485760 (10 MiB)
and a `KeepFiles` that was not set is 7, whether the call then accepts the
configuration or not; a `RotateEveryBytes` or `KeepFiles` that was set, `Path`,
`Name`, the open file and the counter are left as they were. -/
theorem CheckIfConfigSane_defaults (r : FileRotator) (hn : r.Name ≠ "") :
    (r.RotateEveryBytes = none →
      (CheckIfConfigSane r).2.RotateEveryBytes = some 10485760) ∧
    (r.KeepFiles = none → (CheckIfConfigSane r).2.KeepFiles = some 7) ∧
    (∀ t, r.RotateEveryBytes = some t → (CheckIfConfigSane r).2.RotateEveryBytes = some t) ∧
    (∀ k, r.KeepFiles = some k → (CheckIfConfigSane r).2.KeepFiles = some k) ∧
    (CheckIfConfigSane r).2.Path = r.Path ∧
    (CheckIfConfigSane r).2.Name = r.Name ∧
    (CheckIfConfigSane r).2.current = r.current ∧
    (CheckIfConfigSane r).2.current_size = r.current_size := by
  obtain ⟨p, n, t, k, c, s⟩ := r
  have hlen : ¬ n.length = 0 := by
    intro h
    apply hn
    rw [← String.length_data, List.length_eq_zero] at h
    exact String.ext h
  unfold CheckIfConfigSane
  cases k <;> cases t <;>
    simp [hlen, DefaultKeepFiles, DefaultRotateEveryBytes, RotatorMaxFiles] <;>
    split <;> simp

/-- C11 at work: a threshold of 4096 bytes is kept and the count becomes 7. -/
theorem CheckIfConfigSane_defaults_witness :
    (CheckIfConfigSane halfSetConfig).2.RotateEveryBytes = some 4096 ∧
    (CheckIfConfigSane halfSetConfig).2.KeepFiles = some 7 ∧
    ((halfSetConfig.RotateEveryBytes = none →
      (CheckIfConfigSane halfSetConfig).2.RotateEveryBytes = some 10485760) ∧
    (halfSetConfig.KeepFiles = none → (CheckIfConfigSane halfSetConfig).2.KeepFiles = some 7) ∧
    (∀ t, halfSetConfig.RotateEveryBytes = some t →
      (CheckIfConfigSane halfSetConfig).2.RotateEveryBytes = some t) ∧
    (∀ k, halfSetConfig.KeepFiles = some k →
      (CheckIfConfigSane halfSetConfig).2.KeepFiles = some k) ∧
    (CheckIfConfigSane halfSetConfig).2.Path = halfSetConfig.Path ∧
    (CheckIfConfigSane halfSetConfig).2.Name = halfSetConfig.Name ∧
    (CheckIfConfigSane halfSetConfig).2.current = halfSetConfig.current ∧
    (CheckIfConfigSane halfSetConfig).2.current_size = halfSetConfig.current_size) :=
  ⟨by decide, by decide, CheckIfConfigSane_defaults halfSetConfig (by decide)⟩

/-! ## C12: validation twice -/

/-- C12: running `CheckIfConfigSane` on the configuration a first run has left
returns what the first run returned, error or nil, and leaves the
configuration as the first run left it. -/
theorem CheckIfConfigSane_idempotent (r : FileRotator) :
    CheckIfConfigSane (CheckIfConfigSane r).2 = CheckIfConfigSane r := by
  obtain ⟨p, n, t, k, c, s⟩ := r
  unfold CheckIfConfigSane
  by_cases hlen : n.length = 0
  · simp [hlen]
  · cases k <;> cases t <;>
      simp [hlen, DefaultKeepFiles, DefaultRotateEveryBytes, RotatorMaxFiles] <;>
      split <;> simp [*]

/-! ## C13: failures of a rotation -/

/-- C13: in a rotation with a file open, a failure of any step before the
retention loop makes `Rotate` return an error: closing the active file (or
finding it closed already); creating the archive file; creating the entry;
opening the active file for reading; one of the reads the copy loop makes;
one of the writes into the entry that it makes, or the closing of the
archive; creating the new active file.  And when `Rotate` returns an error,
the `WriteLine` that called it returns what `Rotate` returned, error and
state, whatever the line: it has not written the line. -/
theorem Rotate_failures_surface (budget : Nat) (env : Env) (w : World) (old : File)
    (hc : w.rot.current = some old) :
    ((old.closed = true ∨ env.closeFails = true) →
      (Rotate budget env w).1 = Outcome.error Err.close) ∧
    (old.closed = false → env.closeFails = false →
      (w.disk.create env (zipFilePath env w.rot) = none →
        (Rotate budget env w).1 = Outcome.error Err.create) ∧
      ∀ zipFile d1, w.disk.create env (zipFilePath env w.rot) = some (zipFile, d1) →
        (env.zipCreateFails = true →
          (Rotate budget env w).1 = Outcome.error Err.zipCreate) ∧
        (env.zipCreateFails = false →
          (d1.openRead env (FilePath w.rot 0) = none →
            (Rotate budget env w).1 = Outcome.error Err.read) ∧
          ∀ content, d1.openRead env (FilePath w.rot 0) = some content →
            ((∃ j, j ≤ chunkCount env content.length 0 content.length ∧
                env.readFails j = true) →
              (Rotate budget env w).1 = Outcome.error Err.read) ∧
            ((∀ j, j ≤ chunkCount env content.length 0 content.length →
                env.readFails j = false) →
              (((∃ j, j < chunkCount env content.length 0 content.length ∧
                  env.entryWriteFails j = true) ∨ env.zipCloseFails = true) →
                (Rotate budget env w).1 = Outcome.error Err.zipClose) ∧
              ((∀ j, j < chunkCount env content.length 0 content.length →
                  env.entryWriteFails j = false) →
                env.zipCloseFails = false →
                Disk.create env
                  { d1 with
                    data := (Function.update d1.data zipFile.ino
                      (env.zipImage [(w.rot.Name, content)])) }
                  (FilePath w.rot 0) = none →
                (Rotate budget env w).1 = Outcome.error Err.create)))) ∧
    (∀ e line, (Rotate budget env w).1 = Outcome.error e →
      shouldRotate w.rot = some true →
      WriteLine budget env w line = Rotate budget env w) := by
  refine ⟨?_, ?_, ?_⟩
  · intro h
    have h1 : (old.closed || env.closeFails) = true := by
      rcases h with h | h <;> simp [h]
    unfold Rotate
    simp only [hc, h1, ↓reduceIte]
  · intro hcl hcf
    have h1 : (old.closed || env.closeFails) = false := by simp [hcl, hcf]
    constructor
    · intro hz
      have hz1 : Disk.create env w.disk (zipFilePath env
          { w.rot with current := some { old with closed := true } }) = none := hz
      unfold Rotate
      simp only [hc, h1, Bool.false_eq_true, ↓reduceIte, hz1]
    · intro zipFile d1 hz
      have hz1 : Disk.create env w.disk (zipFilePath env
          { w.rot with current := some { old with closed := true } }) = some (zipFile, d1) := hz
      constructor
      · intro he
        unfold Rotate
        simp only [hc, h1, Bool.false_eq_true, ↓reduceIte, hz1, he]
      · intro he
        constructor
        · intro ho
          have ho1 : Disk.openRead env d1 (FilePath
              { w.rot with current := some { old with closed := true } } 0) = none := ho
          unfold Rotate
          simp only [hc, h1, Bool.false_eq_true, ↓reduceIte, hz1, he, ho1]
        · intro content ho
          have ho1 : Disk.openRead env d1 (FilePath
              { w.rot with current := some { old with closed := true } } 0) = some content := ho
          obtain ⟨hs1, hs2⟩ := copyLoop_start env content
          constructor
          · intro hr
            have hcopy : copyLoop env (content.length + 1) 0 (List.replicate blockSize 0)
                content ⟨[], false⟩ = (Outcome.error Err.read, (copyLoop env (content.length + 1)
                  0 (List.replicate blockSize 0) content ⟨[], false⟩).2) :=
              Prod.ext (hs1 hr) rfl
            unfold Rotate
            simp only [hc, h1, Bool.false_eq_true, ↓reduceIte, hz1, he, ho1]
            rw [hcopy]
          · intro hr
            obtain ⟨hok, hiff, hbytes⟩ := hs2 hr
            have hcopy : copyLoop env (content.length + 1) 0 (List.replicate blockSize 0)
                content ⟨[], false⟩ = (Outcome.ok, (copyLoop env (content.length + 1)
                  0 (List.replicate blockSize 0) content ⟨[], false⟩).2) :=
              Prod.ext hok rfl
            constructor
            · intro hw
              have h2 : ((copyLoop env (content.length + 1) 0 (List.replicate blockSize 0)
                  content ⟨[], false⟩).2.failed || env.zipCloseFails) = true := by
                rcases hw with hw | hw
                · rw [hiff.mpr hw]; rfl
                · rw [hw]; simp
              unfold Rotate
              simp only [hc, h1, Bool.false_eq_true, ↓reduceIte, hz1, he, ho1]
              rw [hcopy]
              simp only [h2, ↓reduceIte]
            · intro hw hzc hcr
              have hnf : (copyLoop env (content.length + 1) 0 (List.replicate blockSize 0)
                  content ⟨[], false⟩).2.failed = false := by
                cases hf : (copyLoop env (content.length + 1) 0 (List.replicate blockSize 0)
                  content ⟨[], false⟩).2.failed with
                | false => rfl
                | true =>
                  obtain ⟨j, hj, hjf⟩ := hiff.mp hf
                  rw [hw j hj] at hjf
                  cases hjf
              have hb := hbytes hnf
              have hcr1 : Disk.create env
                  { d1 with
                    data := (Function.update d1.data zipFile.ino
                      (env.zipImage [(w.rot.Name, (copyLoop env (content.length + 1) 0
                        (List.replicate blockSize 0) content ⟨[], false⟩).2.bytes)])) }
                  (FilePath { w.rot with current := some { old with closed := true } } 0) =
                  none := by
                rw [hb]; exact hcr
              unfold Rotate
              simp only [hc, h1, Bool.false_eq_true, ↓reduceIte, hz1, he, ho1]
              rw [hcopy]
              simp only [hnf, hzc, Bool.or_self, Bool.false_eq_true, ↓reduceIte, hcr1]
  · intro e line hr hs
    unfold WriteLine
    simp only [hs]
    split
    · rename_i w1 hok
      rw [hok] at hr
      cases hr
    · rfl

/-- C13 at work: the third write of the scenario on a full disk.  The write
into the entry fails, `Rotate` returns the error of closing the archive, and
`WriteLine` returns it; the file still holds the two lines and nothing else. -/
theorem Rotate_failures_surface_witness :
    afterWorld.rot.current = some ⟨0, false⟩ ∧
    0 < chunkCount (Env.fullDisk thirdClock) 13 0 13 ∧
    (Rotate 8 (Env.fullDisk thirdClock) afterWorld).1 = Outcome.error Err.zipClose ∧
    WriteLine 8 (Env.fullDisk thirdClock) afterWorld (ascii "again") =
      Rotate 8 (Env.fullDisk thirdClock) afterWorld ∧
    (WriteLine 8 (Env.fullDisk thirdClock) afterWorld (ascii "again")).2.disk.data 0 =
      ascii "hello\nworld!\n" :=
  ⟨by decide, by decide, by decide,
    (Rotate_failures_surface 8 (Env.fullDisk thirdClock) afterWorld ⟨0, false⟩
      (by decide)).2.2 Err.zipClose (ascii "again") (by decide) (by decide),
    by decide⟩

/-! ## C14: what the retention loop counts -/

/-- C14, as stated, fails: with two files to keep and one archive directly in
the directory, the retention loop counts three paths, the empty directory
0empty.zip and the file jan.zip of a subdirectory among them, and deletes
these two. -/
theorem sweep_deletes_directory_and_nested_file :
    deepWorld.rot.KeepFiles = some 2 ∧
    (archiveFiles deepWorld.disk "/tmp/x").map Prod.fst =
      ["/tmp/x/app.log-1700000002000.zip"] ∧
    deepWorld.disk.lookup "/tmp/x/0empty.zip" = some Node.dir ∧
    deepWorld.disk.lookup "/tmp/x/2019/jan.zip" = some (Node.file 1) ∧
    zipList deepWorld.disk "/tmp/x" =
      ["/tmp/x/0empty.zip", "/tmp/x/2019/jan.zip", "/tmp/x/app.log-1700000002000.zip"] ∧
    (sweep (Env.calm fourthClock) 8 0 deepWorld).1 = Outcome.ok ∧
    removals (since deepWorld (sweep (Env.calm fourthClock) 8 0 deepWorld).2) =
      [("/tmp/x/0empty.zip", true), ("/tmp/x/2019/jan.zip", true)] ∧
    (sweep (Env.calm fourthClock) 8 0 deepWorld).2.disk.lookup "/tmp/x/0empty.zip" = none ∧
    (sweep (Env.calm fourthClock) 8 0 deepWorld).2.disk.lookup "/tmp/x/2019/jan.zip" = none ∧
    (sweep (Env.calm fourthClock) 8 0 deepWorld).2.disk.lookup
      "/tmp/x/app.log-1700000002000.zip" = some (Node.file 2) := by
  refine ⟨by decide, by decide, by decide, by decide, by decide, by decide, by decide,
    by decide, by decide, by decide⟩

/-- C14, amended: the paths the retention loop counts are the paths the walk
of the configured directory visits that end in ".zip" (`zipList`): the
directory itself and every entry below it at any depth, directories as well as
files.  The entries directly in the directory whose name ends in ".zip" are
among them.  When their number is below `KeepFiles` the loop does nothing;
otherwise it calls `os.Remove` on the smallest of them.  Every path it calls
`os.Remove` on is one of them, and every entry that is not one of them is
still there when the loop stops. -/
theorem sweep_scope (env : Env) (budget k : Nat) (w : World) :
    (∀ p, p ∈ zipList w.disk w.rot.Path ↔
      (p = w.rot.Path ∨ (p ∈ w.disk.tree.map Prod.fst ∧ isBelow w.rot.Path p = true)) ∧
        hasSuffix p ".zip" = true) ∧
    (∀ e ∈ zipEntries w.disk w.rot.Path, e.1 ∈ zipList w.disk w.rot.Path) ∧
    (∀ keep, w.rot.KeepFiles = some keep →
      ((zipList w.disk w.rot.Path).length : Int) < keep →
      sweep env (budget + 1) k w = (Outcome.ok, w)) ∧
    (∀ keep first rest, w.rot.KeepFiles = some keep →
      ¬ ((zipList w.disk w.rot.Path).length : Int) < keep →
      sortStrings (zipList w.disk w.rot.Path) = first :: rest →
      (removals (since w (sweep env (budget + 1) k w).2)).head? =
        some (first, (w.disk.remove env k first).1)) ∧
    (∀ x ∈ removals (since w (sweep env budget k w).2), x.1 ∈ zipList w.disk w.rot.Path) ∧
    (∀ e ∈ w.disk.tree, e.1 ∉ zipList w.disk w.rot.Path →
      e ∈ (sweep env budget k w).2.disk.tree) := by
  refine ⟨mem_zipList w.disk w.rot.Path, zipEntries_mem_zipList w.disk w.rot.Path,
    fun keep hk hlt => sweep_done env budget k w keep hk hlt, ?_,
    sweep_removals_mem env budget k w, ?_⟩
  · intro keep first rest hk hge hsort
    rw [sweep_round env budget k w keep first rest hk hge hsort]
    obtain ⟨rs, hlog, _⟩ := sweep_frame env budget (k + 1)
      { w with disk := (w.disk.remove env k first).2,
               log := w.log ++ [Event.remove first (w.disk.remove env k first).1] }
    rw [since_append w _ (Event.remove first (w.disk.remove env k first).1 ::
        rs.map (fun x => Event.remove x.1 x.2)) (by rw [hlog]; simp)]
    rfl
  · intro e he hnot
    obtain ⟨rs, hlog, _, _, _, htree, _⟩ := sweep_frame env budget k w
    have hmem := sweep_removals_mem env budget k w
    rw [since_append w _ _ hlog, (removals_map rs).1] at hmem
    rw [htree, List.mem_filter]
    refine ⟨he, ?_⟩
    simp only [Bool.not_eq_true_eq_eq_false, List.any_eq_false, Bool.and_eq_true, beq_iff_eq,
      not_and]
    intro x hx _ hxe
    exact hnot (hxe ▸ hmem x hx)

/-! ## C15: the name of the archive and of its entry -/

/-- C15: take a cleaned `Path` and a `Name` without separator.  A rotation
with a file open, at a clock reading of t milliseconds since the epoch,
completes no archive but the one at `filepath.Join(Path, Name-t.zip)`, t in
decimal, which is `Path`, a separator and that name; the archive has one
entry, named `Name`, however the rotation ends; when the rotation returns nil
it has created the file at that path and completed that archive. -/
theorem Rotate_archive_naming (budget : Nat) (env : Env) (w : World) (old : File) (t : Nat)
    (hdir : CleanedDir w.rot.Path) (hname : '/' ∉ w.rot.Name.data)
    (hc : w.rot.current = some old)
    (h0 : 0 ≤ env.nowNanos) (ht : env.nowNanos / 1000000 = t) :
    filepathJoin w.rot.Path (w.rot.Name ++ "-" ++ toString t ++ ".zip") =
      w.rot.Path ++ "/" ++ (w.rot.Name ++ "-" ++ toString t ++ ".zip") ∧
    (archivesMade (since w (Rotate budget env w).2) = [] ∨
      ∃ bytes, archivesMade (since w (Rotate budget env w).2) =
        [(filepathJoin w.rot.Path (w.rot.Name ++ "-" ++ toString t ++ ".zip"),
          [(w.rot.Name, bytes)])]) ∧
    ((Rotate budget env w).1 = Outcome.ok →
      (∃ zipFile d1,
        w.disk.create env
            (filepathJoin w.rot.Path (w.rot.Name ++ "-" ++ toString t ++ ".zip")) =
          some (zipFile, d1) ∧
        d1.lookup (filepathJoin w.rot.Path (w.rot.Name ++ "-" ++ toString t ++ ".zip")) =
          some (Node.file zipFile.ino)) ∧
      ∃ bytes, archivesMade (since w (Rotate budget env w).2) =
        [(filepathJoin w.rot.Path (w.rot.Name ++ "-" ++ toString t ++ ".zip"),
          [(w.rot.Name, bytes)])]) := by
  have hj : filepathJoin w.rot.Path (w.rot.Name ++ "-" ++ toString t ++ ".zip") =
      w.rot.Path ++ "/" ++ (w.rot.Name ++ "-" ++ toString t ++ ".zip") :=
    filepathJoin_ending w.rot.Path w.rot.Name (toString t) '-' (by decide) hdir hname
      (toString_nat_no_sep t)
  refine ⟨hj, ?_⟩
  rw [hj, ← zipFilePath_millis env w.rot t h0 ht]
  constructor
  · obtain ⟨l, hl, h⟩ := Rotate_archives budget env w
    rw [since_append w _ l hl]
    exact h
  · intro hok
    have hok' : Rotate budget env w = (Outcome.ok, (Rotate budget env w).2) :=
      Prod.ext hok rfl
    obtain ⟨_, zipFile, d1, content, iow, cur, d2, hzip, _, _, _, _, hsweep⟩ :=
      Rotate_next_ok hc hok'
    refine ⟨⟨zipFile, d1, hzip, (Disk.create_some hzip).2.2.1⟩, iow.bytes, ?_⟩
    obtain ⟨rs, h1, _⟩ := sweep_frame env budget 0
      { rot := { w.rot with current := some cur, current_size := 0 }
        disk := d2
        log := w.log ++ [Event.rotate] ++
          [Event.archived (zipFilePath env w.rot) [(w.rot.Name, iow.bytes)]] }
    rw [hsweep] at h1
    rw [since_append w _ ([Event.rotate,
        Event.archived (zipFilePath env w.rot) [(w.rot.Name, iow.bytes)]] ++
        rs.map (fun x => Event.remove x.1 x.2)) (by rw [h1]; simp only [List.append_assoc]; rfl)]
    rw [archivesMade_append, (removals_map rs).2.1]
    rfl

/-- C15 at work: the rotation of the scenario at 1700000002000 ms. -/
theorem Rotate_archive_naming_witness :
    (Rotate 8 (Env.calm thirdClock) afterWorld).1 = Outcome.ok ∧
    filepathJoin "/tmp/x" "app.log-1700000002000.zip" = "/tmp/x/app.log-1700000002000.zip" ∧
    archivesMade (since afterWorld (Rotate 8 (Env.calm thirdClock) afterWorld).2) =
      [("/tmp/x/app.log-1700000002000.zip", [("app.log", ascii "hello\nworld!\n")])] ∧
    (filepathJoin afterWorld.rot.Path
        (afterWorld.rot.Name ++ "-" ++ toString 1700000002000 ++ ".zip") =
      afterWorld.rot.Path ++ "/" ++
        (afterWorld.rot.Name ++ "-" ++ toString 1700000002000 ++ ".zip") ∧
    (archivesMade (since afterWorld (Rotate 8 (Env.calm thirdClock) afterWorld).2) = [] ∨
      ∃ bytes, archivesMade (since afterWorld (Rotate 8 (Env.calm thirdClock) afterWorld).2) =
        [(filepathJoin afterWorld.rot.Path
            (afterWorld.rot.Name ++ "-" ++ toString 1700000002000 ++ ".zip"),
          [(afterWorld.rot.Name, bytes)])]) ∧
    ((Rotate 8 (Env.calm thirdClock) afterWorld).1 = Outcome.ok →
      (∃ zipFile d1,
        afterWorld.disk.create (Env.calm thirdClock) (filepathJoin afterWorld.rot.Path
            (afterWorld.rot.Name ++ "-" ++ toString 1700000002000 ++ ".zip")) =
          some (zipFile, d1) ∧
        d1.lookup (filepathJoin afterWorld.rot.Path
            (afterWorld.rot.Name ++ "-" ++ toString 1700000002000 ++ ".zip")) =
          some (Node.file zipFile.ino)) ∧
      ∃ bytes, archivesMade (since afterWorld (Rotate 8 (Env.calm thirdClock) afterWorld).2) =
        [(filepathJoin afterWorld.rot.Path
            (afterWorld.rot.Name ++ "-" ++ toString 1700000002000 ++ ".zip"),
          [(afterWorld.rot.Name, bytes)])])) :=
  ⟨by decide, by decide, by decide,
    Rotate_archive_naming 8 (Env.calm thirdClock) afterWorld ⟨0, false⟩ 1700000002000
      (by decide) (by decide) (by decide) (by decide) (by decide)⟩

/-! ## C16: setting up the directory -/

/-- C16: `CreateDirectory` returns an error when `os.Stat` finds `Path` and it
is not a directory, and changes nothing.  When `os.Stat` reports that `Path`
does not exist, it runs `os.MkdirAll` and returns an error exactly when that
fails: when it returns nil, `Path` and the directories above it are
directories; when it returns an error, one of them is a regular file or could
not be made; and only directories were added, at paths that were missing.  In
every other case, which are that `Path` is a directory and that `os.Stat`
fails with another error, it returns nil and changes nothing.  `os.Stat`
reports what is at `Path`, a node or none, when the directories above `Path`
exist and the call does not fail for a reason of its own. -/
theorem CreateDirectory_cases (env : DirEnv) (w : World) :
    (∀ i, w.disk.stat env w.rot.Path = StatResult.found (Node.file i) →
      CreateDirectory env w = (some Err.notADirectory, w)) ∧
    (w.disk.stat env w.rot.Path = StatResult.notExist →
      (CreateDirectory env w).2 = { w with disk := (w.disk.mkdirAll env w.rot.Path).2 } ∧
      (CreateDirectory env w).1 =
        (if (w.disk.mkdirAll env w.rot.Path).1 = true then none else some Err.mkdir) ∧
      ((CreateDirectory env w).1 = none →
        ∀ q ∈ ancestors w.rot.Path ++ [w.rot.Path],
          (CreateDirectory env w).2.disk.nodeAt q = some Node.dir) ∧
      ((CreateDirectory env w).1 ≠ none →
        ∃ q ∈ ancestors w.rot.Path ++ [w.rot.Path],
          (∃ i, w.disk.nodeAt q = some (Node.file i)) ∨
          (w.disk.nodeAt q = none ∧ (env.mkdirFails q = true ∨ q = ""))) ∧
      (∃ added, (CreateDirectory env w).2.disk.tree = w.disk.tree ++ added ∧
        ∀ e ∈ added, e.2 = Node.dir ∧ e.1 ∈ ancestors w.rot.Path ++ [w.rot.Path] ∧
          w.disk.lookup e.1 = none) ∧
      (CreateDirectory env w).2.disk.data = w.disk.data) ∧
    ((w.disk.stat env w.rot.Path = StatResult.found Node.dir ∨
        w.disk.stat env w.rot.Path = StatResult.failed) →
      CreateDirectory env w = (none, w)) ∧
    (env.statFails = false →
      (∀ q ∈ ancestors w.rot.Path, w.disk.nodeAt q = some Node.dir) →
      (∀ node, w.disk.nodeAt w.rot.Path = some node →
        w.disk.stat env w.rot.Path = StatResult.found node) ∧
      (w.disk.nodeAt w.rot.Path = none →
        w.disk.stat env w.rot.Path = StatResult.notExist)) := by
  refine ⟨?_, ?_, ?_, ?_⟩
  · intro i h
    unfold CreateDirectory
    simp only [h]
  · intro h
    obtain ⟨h1, _, ⟨added, h3, h4⟩, h5, h6⟩ :=
      Disk.mkdirChain_spec env (ancestors w.rot.Path ++ [w.rot.Path]) w.disk
    have hcd : CreateDirectory env w =
        (if (w.disk.mkdirAll env w.rot.Path).1 = true then none else some Err.mkdir,
          { w with disk := (w.disk.mkdirAll env w.rot.Path).2 }) := by
      unfold CreateDirectory
      simp only [h]
      cases hm : w.disk.mkdirAll env w.rot.Path with
      | mk ok disk =>
        cases ok <;> simp
    rw [hcd]
    refine ⟨rfl, rfl, ?_, ?_, ⟨added, h3, h4⟩, h1⟩
    · intro hnone
      have hok : (w.disk.mkdirAll env w.rot.Path).1 = true := by
        by_contra hne
        simp only [hne, ↓reduceIte] at hnone
        cases hnone
      exact h5 hok
    · intro hsome
      have hf : (w.disk.mkdirAll env w.rot.Path).1 = false := by
        cases hm : (w.disk.mkdirAll env w.rot.Path).1 with
        | false => rfl
        | true => simp [hm] at hsome
      exact h6 hf
  · intro h
    unfold CreateDirectory
    rcases h with h | h <;> simp only [h]
  · intro hs hdirs
    have hres := Disk.resolve_dirs w.disk (ancestors w.rot.Path) hdirs
    constructor
    · intro node hn
      unfold Disk.stat
      simp only [hs, Bool.false_eq_true, ↓reduceIte, hres, hn]
    · intro hn
      unfold Disk.stat
      simp only [hs, Bool.false_eq_true, ↓reduceIte, hres, hn]

/-- The second case at work: /var/log exists, /var/log/beat/app is asked for;
the two missing directories are made and nil is returned. -/
theorem CreateDirectory_makes_parents :
    noDirWorld.disk.stat DirEnv.calm noDirWorld.rot.Path = StatResult.notExist ∧
    (CreateDirectory DirEnv.calm noDirWorld).1 = none ∧
    (CreateDirectory DirEnv.calm noDirWorld).2.disk.tree =
      [("/var", Node.dir), ("/var/log", Node.dir), ("/var/log/beat", Node.dir),
        ("/var/log/beat/app", Node.dir)] := by
  refine ⟨by decide, by decide, by decide⟩

/-- The first case at work: `Path` is the regular file /tmp/x/app.log. -/
theorem CreateDirectory_on_regular_file :
    (CreateDirectory DirEnv.calm
      { underFileWorld with rot := { underFileWorld.rot with Path := "/tmp/x/app.log" } }).1 =
      some Err.notADirectory := by
  decide

/-- The last case at work, where `os.Stat` fails with another error: for a
path below the regular file /tmp/x/app.log it fails with "not a directory",
for which `os.IsNotExist` is false; `CreateDirectory` returns nil and makes
nothing. -/
theorem CreateDirectory_below_regular_file :
    underFileWorld.rot.Path = "/tmp/x/app.log/logs" ∧
    underFileWorld.disk.lookup "/tmp/x/app.log" = some (Node.file 0) ∧
    underFileWorld.disk.stat DirEnv.calm "/tmp/x/app.log/logs" = StatResult.failed ∧
    (CreateDirectory DirEnv.calm underFileWorld).1 = none ∧
    (CreateDirectory DirEnv.calm underFileWorld).2.disk.tree = underFileWorld.disk.tree := by
  refine ⟨by decide, by decide, by decide, by decide, by decide⟩

/-! ## C17: the paths of `FilePath` -/

/-- C17: for a cleaned `Path` and a plain `Name`, `FilePath(0)` is
`filepath.Join(Path, Name)`, which is `Path`, a separator and `Name`; for
every index n > 0, `FilePath(n)` is `filepath.Join` of `Path` and the name
`Name` + "." + decimal n + ".zip"; the archive a rotation makes is at
`filepath.Join` of `Path` and `Name`-millis.zip, whatever the clock; and no
path `FilePath(n)`, for n = 0 or any other n, is the path of such an archive. -/
theorem FilePath_resolution (r : FileRotator) (hdir : CleanedDir r.Path)
    (hname : PlainName r.Name) :
    (FilePath r 0 = filepathJoin r.Path r.Name ∧
      filepathJoin r.Path r.Name = r.Path ++ "/" ++ r.Name) ∧
    (∀ n : Nat, 0 < n →
      FilePath r (n : Int) = filepathJoin r.Path (r.Name ++ "." ++ toString n ++ ".zip") ∧
      filepathJoin r.Path (r.Name ++ "." ++ toString n ++ ".zip") =
        r.Path ++ "/" ++ (r.Name ++ "." ++ toString n ++ ".zip")) ∧
    (∀ env : Env,
      zipFilePath env r = filepathJoin r.Path
        (r.Name ++ "-" ++ toString (Int.tdiv env.nowNanos 1000000) ++ ".zip")) ∧
    (∀ (n : Int) (env : Env), FilePath r n ≠ zipFilePath env r) := by
  have hj0 : filepathJoin r.Path r.Name = joinPath r.Path r.Name :=
    filepathJoin_cleaned r.Path r.Name hdir hname.1 hname.2.1 hname.2.2.1 hname.2.2.2
  refine ⟨⟨?_, hj0⟩, ?_, ?_, ?_⟩
  · rw [hj0]; exact FilePath_zero r
  · intro n hn
    have hj := filepathJoin_ending r.Path r.Name (toString n) '.' (by decide) hdir hname.1
      (toString_nat_no_sep n)
    refine ⟨?_, hj⟩
    rw [show r.Name ++ "." ++ toString n ++ ".zip" =
      r.Name ++ String.singleton '.' ++ toString n ++ ".zip" from rfl, hj]
    unfold FilePath
    have h0 : ¬ ((n : Int) = 0) := by omega
    simp only [h0, ↓reduceIte, String.append_assoc]
    rfl
  · intro env
    have hj := filepathJoin_ending r.Path r.Name (toString (Int.tdiv env.nowNanos 1000000)) '-'
      (by decide) hdir hname.1 (toString_int_no_sep _)
    rw [show r.Name ++ "-" ++ toString (Int.tdiv env.nowNanos 1000000) ++ ".zip" =
      r.Name ++ String.singleton '-' ++ toString (Int.tdiv env.nowNanos 1000000) ++ ".zip"
      from rfl, hj]
    rfl
  · intro n env
    by_cases h0 : n = 0
    · subst h0
      exact fun e => zipFilePath_ne_FilePath env r e.symm
    · unfold FilePath zipFilePath
      simp only [h0, ↓reduceIte, String.append_assoc]
      exact joinPath_ne_of_next_char r.Path r.Name _ _ '.' '-' (by decide) rfl rfl

/-- C17 at work: the paths of the scenario, by the model and by
`filepath.Join`. -/
theorem FilePath_resolution_witness :
    FilePath freshWorld.rot 0 = "/tmp/x/app.log" ∧
    FilePath freshWorld.rot 3 = "/tmp/x/app.log.3.zip" ∧
    filepathJoin "/tmp/x" "app.log.3.zip" = "/tmp/x/app.log.3.zip" ∧
    zipFilePath (Env.calm thirdClock) freshWorld.rot = "/tmp/x/app.log-1700000002000.zip" ∧
    ((FilePath freshWorld.rot 0 = filepathJoin freshWorld.rot.Path freshWorld.rot.Name ∧
      filepathJoin freshWorld.rot.Path freshWorld.rot.Name =
        freshWorld.rot.Path ++ "/" ++ freshWorld.rot.Name) ∧
    (∀ n : Nat, 0 < n →
      FilePath freshWorld.rot (n : Int) =
        filepathJoin freshWorld.rot.Path (freshWorld.rot.Name ++ "." ++ toString n ++ ".zip") ∧
      filepathJoin freshWorld.rot.Path (freshWorld.rot.Name ++ "." ++ toString n ++ ".zip") =
        freshWorld.rot.Path ++ "/" ++ (freshWorld.rot.Name ++ "." ++ toString n ++ ".zip")) ∧
    (∀ env : Env,
      zipFilePath env freshWorld.rot = filepathJoin freshWorld.rot.Path
        (freshWorld.rot.Name ++ "-" ++ toString (Int.tdiv env.nowNanos 1000000) ++ ".zip")) ∧
    (∀ (n : Int) (env : Env), FilePath freshWorld.rot n ≠ zipFilePath env freshWorld.rot)) :=
  ⟨by decide, by decide, by decide, by decide,
    FilePath_resolution freshWorld.rot (by decide) (by decide)⟩

/-! ## C18: the counter and the content of the active file -/

/-- C18: start from a rotator with no file open, in a well-formed file
system, and make one or more calls of `WriteLine` that all return nil,
whatever the environment of each.  Then the rotator holds an open file (the
file at Path/Name, when `Name` does not end in ".zip"); its content is the
lines written since `Rotate` was last entered, in call order, each followed by
one newline, and these are the last lines of the run; and the counter is the
length of that content as a `uint64`, which is the length itself for a file
shorter than 2^64 bytes. -/
theorem counter_invariant (w0 w : World) (calls : List (Nat × Env × List Byte))
    (ls : List (List Byte)) (hwf : w0.disk.WF) (hc : w0.rot.current = none)
    (hne : calls ≠ []) (hrun : writeLines w0 [] calls = some (w, ls)) :
    ls ≠ [] ∧ ls <:+ calls.map (fun c => c.2.2) ∧
    ∃ cur, w.rot.current = some cur ∧ cur.closed = false ∧
      w.disk.data cur.ino = (ls.map (fun line => line ++ [10])).flatten ∧
      w.rot.current_size = (w.disk.data cur.ino).length % uint64Size ∧
      ((w.disk.data cur.ino).length < uint64Size →
        w.rot.current_size = (w.disk.data cur.ino).length) ∧
      (hasSuffix w.rot.Name ".zip" = false →
        w.disk.lookup (FilePath w.rot 0) = some (Node.file cur.ino)) := by
  obtain ⟨_, _, hsuf, hcount⟩ := writeLines_counter calls w0 w [] ls []
    (Reachable.start w0 hwf hc).handleInv (Or.inl hc) (List.suffix_refl _) hrun
  obtain ⟨⟨cur, h1, h2, h3, h4, h5⟩, hls⟩ := hcount hne
  refine ⟨hls, by simpa using hsuf, cur, h1, h2, h3, ?_, ?_, h5⟩
  · rw [h3]; exact h4
  · intro hlt
    rw [h3] at hlt ⊢
    rw [h4, Nat.mod_eq_of_lt hlt]

/-- C18 at work: after the three writes of the scenario the file holds the
third line, written after the rotation, and the counter is 6. -/
theorem counter_invariant_witness :
    afterThird.disk.data 0 = ascii "again\n" ∧ afterThird.rot.current_size = 6 ∧
    ([ascii "again"] ≠ [] ∧ [ascii "again"] <:+ scenarioCalls.map (fun c => c.2.2) ∧
    ∃ cur, afterThird.rot.current = some cur ∧ cur.closed = false ∧
      afterThird.disk.data cur.ino =
        ([ascii "again"].map (fun line => line ++ [10])).flatten ∧
      afterThird.rot.current_size = (afterThird.disk.data cur.ino).length % uint64Size ∧
      ((afterThird.disk.data cur.ino).length < uint64Size →
        afterThird.rot.current_size = (afterThird.disk.data cur.ino).length) ∧
      (hasSuffix afterThird.rot.Name ".zip" = false →
        afterThird.disk.lookup (FilePath afterThird.rot 0) = some (Node.file cur.ino))) :=
  ⟨by decide, by decide,
    counter_invariant freshWorld afterThird scenarioCalls [ascii "again"]
      (by decide) (by decide) (List.cons_ne_nil _ _) rfl⟩

/-! ## C19: what the retention loop leaves alone -/

/-- C19: the retention loop, and so `Rotate`, calls `os.Remove` only on paths
that end in ".zip".  So when `Name` does not end in ".zip": no call removes
the active file Path/Name; the loop leaves the node at that path as it is; a
`Rotate` that returns nil leaves the rotator with an open handle on the file
at that path; and every entry of the directory whose name does not end in
".zip" is still there after the loop, and after `Rotate`, however they end.
The loop changes the content of no file. -/
theorem sweep_removes_only_zip (budget k : Nat) (env : Env) (w : World)
    (hn : hasSuffix w.rot.Name ".zip" = false) :
    (∀ x ∈ removals (since w (sweep env budget k w).2),
      hasSuffix x.1 ".zip" = true ∧ x.1 ≠ FilePath w.rot 0) ∧
    (∀ x ∈ removals (since w (Rotate budget env w).2),
      hasSuffix x.1 ".zip" = true ∧ x.1 ≠ FilePath w.rot 0) ∧
    (sweep env budget k w).2.disk.lookup (FilePath w.rot 0) = w.disk.lookup (FilePath w.rot 0) ∧
    ((Rotate budget env w).1 = Outcome.ok → ∃ cur, ActiveOpen (Rotate budget env w).2 cur) ∧
    (∀ name node, hasSuffix name ".zip" = false →
      (joinPath w.rot.Path name, node) ∈ w.disk.tree →
      (joinPath w.rot.Path name, node) ∈ (sweep env budget k w).2.disk.tree ∧
      (joinPath w.rot.Path name, node) ∈ (Rotate budget env w).2.disk.tree) ∧
    (sweep env budget k w).2.disk.data = w.disk.data := by
  have hfp : hasSuffix (FilePath w.rot 0) ".zip" = false := by
    rw [FilePath_zero, hasSuffix_joinPath]; exact hn
  have hne : ∀ p, hasSuffix p ".zip" = true → p ≠ FilePath w.rot 0 := by
    intro p hp e
    rw [e, hfp] at hp
    cases hp
  obtain ⟨rs, hlog, hrot, hdata, _, htree, hzip⟩ := sweep_frame env budget k w
  have hkeep : ∀ p, hasSuffix p ".zip" = false →
      (!(rs.any (fun x => x.2 && x.1 == p))) = true := by
    intro p hp
    simp only [Bool.not_eq_true_eq_eq_false, List.any_eq_false, Bool.and_eq_true, beq_iff_eq,
      not_and]
    intro x hx _ hxe
    have := hzip x hx
    rw [hxe, hp] at this
    cases this
  refine ⟨?_, ?_, ?_, ?_, ?_, hdata⟩
  · intro x hx
    rw [since_append w _ _ hlog, (removals_map rs).1] at hx
    exact ⟨hzip x hx, hne _ (hzip x hx)⟩
  · intro x hx
    obtain ⟨l, hl, hall⟩ := Rotate_removals budget env w
    rw [since_append w _ l hl] at hx
    exact ⟨hall x hx, hne _ (hall x hx)⟩
  · unfold Disk.lookup
    rw [htree, lookup_filter_key w.disk.tree (fun p => !(rs.any (fun x => x.2 && x.1 == p))),
      if_pos (hkeep _ hfp)]
  · intro hok
    have hok' : Rotate budget env w = (Outcome.ok, (Rotate budget env w).2) :=
      Prod.ext hok rfl
    cases hc : w.rot.current with
    | none =>
      obtain ⟨cur, h1, h2, h3, _⟩ := Rotate_first_spec hc hok'
      refine ⟨cur, ?_, h2, ?_⟩
      · rw [h1]
      · have : FilePath (Rotate budget env w).2.rot 0 = FilePath w.rot 0 := by rw [h1]; rfl
        rw [this]; exact h3
    | some old =>
      obtain ⟨_, zipFile, d1, content, iow, cur, d2, _, _, _, _, hcreate, hsweep⟩ :=
        Rotate_next_ok hc hok'
      obtain ⟨hcl, _, hl2, _⟩ := Disk.create_some hcreate
      obtain ⟨rs2, _, hrot2, _, _, htree2, hzip2⟩ := sweep_frame env budget 0
        { rot := { w.rot with current := some cur, current_size := 0 }
          disk := d2
          log := w.log ++ [Event.rotate] ++
            [Event.archived (zipFilePath env w.rot) [(w.rot.Name, iow.bytes)]] }
      rw [hsweep] at hrot2 htree2
      simp only at hrot2 htree2
      refine ⟨cur, ?_, hcl, ?_⟩
      · rw [hrot2]
      · have : FilePath (Rotate budget env w).2.rot 0 = FilePath w.rot 0 := by rw [hrot2]; rfl
        rw [this]
        unfold Disk.lookup
        rw [htree2, lookup_filter_key d2.tree (fun p => !(rs2.any (fun x => x.2 && x.1 == p))),
          if_pos]
        · exact hl2
        · simp only [Bool.not_eq_true_eq_eq_false, List.any_eq_false, Bool.and_eq_true,
            beq_iff_eq, not_and]
          intro x hx _ hxe
          have := hzip2 x hx
          rw [hxe, hfp] at this
          cases this
  · intro name node hs hmem
    have hp : hasSuffix (joinPath w.rot.Path name, node).1 ".zip" = false := by
      show hasSuffix (joinPath w.rot.Path name) ".zip" = false
      rw [hasSuffix_joinPath]; exact hs
    exact ⟨sweep_keeps env budget k w _ hmem hp, Rotate_keeps budget env w _ hmem hp⟩

/-- C19 at work: the fourth call of the scenario removes the older archive and
leaves the file app.log, which the rotator holds open. -/
theorem sweep_removes_only_zip_witness :
    removals (since afterThird (Rotate 8 (Env.calm fourthClock) afterThird).2) =
      [("/tmp/x/app.log-1700000002000.zip", true)] ∧
    (Rotate 8 (Env.calm fourthClock) afterThird).2.disk.lookup "/tmp/x/app.log" =
      some (Node.file 0) ∧
    ((∀ x ∈ removals (since afterThird (sweep (Env.calm fourthClock) 8 0 afterThird).2),
      hasSuffix x.1 ".zip" = true ∧ x.1 ≠ FilePath afterThird.rot 0) ∧
    (∀ x ∈ removals (since afterThird (Rotate 8 (Env.calm fourthClock) afterThird).2),
      hasSuffix x.1 ".zip" = true ∧ x.1 ≠ FilePath afterThird.rot 0) ∧
    (sweep (Env.calm fourthClock) 8 0 afterThird).2.disk.lookup (FilePath afterThird.rot 0) =
      afterThird.disk.lookup (FilePath afterThird.rot 0) ∧
    ((Rotate 8 (Env.calm fourthClock) afterThird).1 = Outcome.ok →
      ∃ cur, ActiveOpen (Rotate 8 (Env.calm fourthClock) afterThird).2 cur) ∧
    (∀ name node, hasSuffix name ".zip" = false →
      (joinPath afterThird.rot.Path name, node) ∈ afterThird.disk.tree →
      (joinPath afterThird.rot.Path name, node) ∈
        (sweep (Env.calm fourthClock) 8 0 afterThird).2.disk.tree ∧
      (joinPath afterThird.rot.Path name, node) ∈
        (Rotate 8 (Env.calm fourthClock) afterThird).2.disk.tree) ∧
    (sweep (Env.calm fourthClock) 8 0 afterThird).2.disk.data = afterThird.disk.data) :=
  ⟨by decide, by decide,
    sweep_removes_only_zip 8 0 (Env.calm fourthClock) afterThird (by decide)⟩

end Logp
